import Mathlib

/-!
cblockchain: hash chaining and Merkle tree construction.

A shallow embedding of `merkletree.c` and `blockchain.c`.

* Bytes (`unsigned char`) are natural numbers; a `Digest` is a 64-byte buffer
  (`unsigned char[HASH_SIZE]`).
* The OpenSSL calls made by `compute_hash` are the fields of a `Provider`.
* `malloc` is an oracle `Env.alloc`: the `k`-th call of a run succeeds iff
  `alloc k` holds; every function threads the number of calls made so far.
* Memory that C leaves indeterminate (fresh automatic or heap buffers) holds
  `Env.uninit` / `Env.uninit_len`.
* `Block` objects live in a heap (`Mem.blocks`); a `Block *` is an index into
  it (`none` is `NULL`).  Merkle nodes are never written after `create_node`,
  so a `Node *` is modelled by the node value it points to.
* Undefined behaviour (null dereference, out-of-bounds read, signed overflow
  of the `int` field `count`) is an explicit `Fault`; so is a loop that
  exhausts the iterations it is given (`out_of_fuel`).
* `size_t` arithmetic on array sizes is exact: an array that fits in memory has
  fewer than `2 ^ 57` entries.
* `free` is not modelled: no function reads a block or node after freeing it.
* The string `block_to_string` builds is the list of its characters before the
  terminator; each `snprintf` call appends what fits in the room left.
* `time` is an argument (`now`) of the functions that call it.

The properties are stated for every environment; `sha3_env` is the environment
of a run in which nothing fails, with SHA3-512 as the digest, and the demo run
of `main.c` is evaluated in it.
-/

namespace CBlockchain

/-! ## Data model -/

/-- The constant `HASH_SIZE` of `merkletree.h`. -/
def HASH_SIZE : Nat := 64

/-- The largest value of the C type `int`. -/
def INT_MAX : Int := 2147483647

/-- A buffer `unsigned char[HASH_SIZE]`. -/
structure Digest where
  bytes : List Nat
  size : bytes.length = 64
deriving DecidableEq

/-- The buffer written by `memset(_, 0, HASH_SIZE)`. -/
def Digest.zero : Digest := ⟨List.replicate 64 0, by simp⟩

/-- Writing the bytes `out` at the start of a 64-byte buffer; the bytes after
them keep their old value. -/
def Digest.write (d : Digest) (out : List Nat) : Digest :=
  ⟨(out ++ d.bytes.drop out.length).take 64, by
    have h := d.size
    simp only [List.length_take, List.length_append, List.length_drop]
    omega⟩

/-- Assigning `v` to byte `i` of a buffer. -/
def Digest.set_byte (d : Digest) (i : Nat) (v : Nat) : Digest :=
  ⟨d.bytes.set i v, by simp [d.size]⟩

/-- Undefined behaviour, and a loop running out of the iterations given to it. -/
inductive Fault where
  | null_deref
  | out_of_bounds
  | int_overflow
  | out_of_fuel
deriving DecidableEq, Repr

/-- The struct `Node` of `merkletree.h`; `none` is a `NULL` child. -/
inductive Node where
  | mk (hash : Digest) (left : Option Node) (right : Option Node)

/-- Field `hash` of a node. -/
def Node.hash : Node → Digest
  | .mk h _ _ => h

/-- Field `left` of a node. -/
def Node.left : Node → Option Node
  | .mk _ l _ => l

/-- Field `right` of a node. -/
def Node.right : Node → Option Node
  | .mk _ _ r => r

/-- The struct `MerkleTree`; `none` is a `NULL` root. -/
structure MerkleTree where
  root : Option Node

/-- The struct `Block`; `next_block` is the address of the next block. -/
structure Block where
  next_block : Option Nat
  prev_block_hash : Digest
  timestamp : Int
  merkletree : Option MerkleTree

/-- The struct `Blockchain`. -/
structure Blockchain where
  head : Option Nat
  tail : Option Nat
  count : Int

/-- The heap of blocks and the number of `malloc` calls made so far. -/
structure Mem where
  blocks : List Block
  mallocs : Nat

/-- The OpenSSL calls of `compute_hash`: whether each one succeeds, the size
`EVP_MD_get_size` reports, and the digest `EVP_DigestFinal` writes. -/
structure Provider where
  lib_ctx_new : Bool
  md_fetch : Bool
  md_get_size : Int
  md_ctx_new : Bool
  digest_init : Bool
  digest_update : List Nat → Bool
  digest_final : List Nat → Bool
  digest : List Nat → List Nat

/-- What the program does not control: the digest provider, the outcome of
each `malloc` call, and the content of indeterminate memory. -/
structure Env where
  P : Provider
  alloc : Nat → Bool
  uninit : Digest
  uninit_len : Nat

/-! ## Digest engine (`merkletree.c`) -/

/-- The result of `compute_hash`: the value returned and the two out-buffers. -/
structure HashResult where
  ret : Int
  digest_value : Digest
  digest_length : Nat

/-- Function `compute_hash` of `merkletree.c`: `data` holds the `data_len` bytes read,
`digest_value` and `digest_length` the content of the out-buffers before the
call. -/
def compute_hash (P : Provider) (data : List Nat) (digest_value : Digest)
    (digest_length : Nat) : HashResult :=
  if P.lib_ctx_new = false then ⟨0, digest_value, digest_length⟩
  else if P.md_fetch = false then ⟨0, digest_value, digest_length⟩
  else
    let digest_length := (P.md_get_size % 2 ^ 32).toNat
    if digest_length ≤ 0 then ⟨0, digest_value, digest_length⟩
    else if digest_length > HASH_SIZE then ⟨0, digest_value, digest_length⟩
    else if P.md_ctx_new = false then ⟨0, digest_value, digest_length⟩
    else if P.digest_init = false then ⟨0, digest_value, digest_length⟩
    else if P.digest_update data = false then ⟨0, digest_value, digest_length⟩
    else if P.digest_final data = false then ⟨0, digest_value, digest_length⟩
    else ⟨1, digest_value.write (P.digest data), (P.digest data).length⟩

/-- Function `combine_hashes` of `merkletree.c`: the content of `combined_hash` after the
call. -/
def combine_hashes (E : Env) (hash1 hash2 combined_hash : Digest) : Digest :=
  let concatenated := hash1.bytes ++ hash2.bytes
  (compute_hash E.P concatenated combined_hash E.uninit_len).digest_value

/-! ## Merkle tree builder (`merkletree.c`) -/

/-- Function `create_node`: `k` is the number of `malloc` calls made before. -/
def create_node (E : Env) (hash : Digest) (k : Nat) : Option Node × Nat :=
  if E.alloc k then (some (Node.mk hash none none), k + 1) else (none, k + 1)

/-- The first loop of `create_tree`, from index `i` for `rem` more
iterations: `nodes[i] = create_node(transaction_hashes[i])`.  `nodes` is
`none` when its `malloc` failed, else the entries written so far. -/
def create_tree_leaves (E : Env) (transaction_hashes : List Digest) :
    Nat → Nat → Option (List (Option Node)) → Nat →
      Except Fault (Option (List (Option Node)) × Nat)
  | 0, _, nodes, k => .ok (nodes, k)
  | rem + 1, i, nodes, k =>
    match transaction_hashes[i]? with
    | none => .error .out_of_bounds
    | some h =>
      let r := create_node E h k
      match nodes with
      | none => .error .null_deref
      | some ns => create_tree_leaves E transaction_hashes rem (i + 1) (some (ns ++ [r.1])) r.2

/-- The inner `for` loop of `create_tree`, from index `i` for `rem` more
iterations; `new_nodes` is `none` when its `malloc` failed, else the entries
written so far (`j` is their number). -/
def create_tree_level (E : Env) (nodes : List (Option Node)) (num_transactions : Nat) :
    Nat → Nat → Option (List (Option Node)) → Nat →
      Except Fault (Option (List (Option Node)) × Nat)
  | 0, _, new_nodes, k => .ok (new_nodes, k)
  | rem + 1, i, new_nodes, k =>
    if i + 1 < num_transactions then
      match nodes[i]?, nodes[i + 1]? with
      | some (some n1), some (some n2) =>
        let combined_hash := combine_hashes E n1.hash n2.hash E.uninit
        let r := create_node E combined_hash k
        match new_nodes with
        | none => .error .null_deref
        | some ns => create_tree_level E nodes num_transactions rem (i + 1) (some (ns ++ [r.1])) r.2
      | some (some _), some none => .error .null_deref
      | some none, _ => .error .null_deref
      | _, _ => .error .out_of_bounds
    else
      match nodes[i]? with
      | none => .error .out_of_bounds
      | some n =>
        match new_nodes with
        | none => .error .null_deref
        | some ns => create_tree_level E nodes num_transactions rem (i + 1) (some (ns ++ [n])) k

/-- The `while` loop of `create_tree`, run for at most `fuel` iterations.
Each iteration builds `new_nodes` and drops it: `nodes` is never replaced. -/
def create_tree_loop (E : Env) (nodes : List (Option Node)) :
    Nat → Nat → Nat → Except Fault Nat
  | 0, num_transactions, k =>
    if num_transactions > 1 then .error .out_of_fuel else .ok k
  | fuel + 1, num_transactions, k =>
    if num_transactions > 1 then
      let new_size := (num_transactions + 1) / 2
      let new_nodes : Option (List (Option Node)) := if E.alloc k then some [] else none
      match create_tree_level E nodes num_transactions new_size 0 new_nodes (k + 1) with
      | .error e => .error e
      | .ok r => create_tree_loop E nodes fuel new_size r.2
    else .ok k

/-- Function `create_tree` of `merkletree.c`; the result is `none` for a `NULL` tree. -/
def create_tree (E : Env) (transaction_hashes : List Digest) (num_transactions : Nat)
    (k : Nat) : Except Fault (Option MerkleTree × Nat) :=
  if E.alloc k = false then .ok (none, k + 1)
  else
    let nodes : Option (List (Option Node)) := if E.alloc (k + 1) then some [] else none
    match create_tree_leaves E transaction_hashes num_transactions 0 nodes (k + 2) with
    | .error e => .error e
    | .ok (none, _) => .error .null_deref
    | .ok (some ns, k1) =>
      match create_tree_loop E ns num_transactions num_transactions k1 with
      | .error e => .error e
      | .ok k2 =>
        match ns[0]? with
        | none => .error .out_of_bounds
        | some root => .ok (some ⟨root⟩, k2)

/-! ## Chain engine (`blockchain.c`) -/

/-- Reading through a `Block *`. -/
def Mem.deref (mem : Mem) : Option Nat → Except Fault Block
  | none => .error .null_deref
  | some a =>
    match mem.blocks[a]? with
    | none => .error .out_of_bounds
    | some b => .ok b

/-- The C function `strlen` on the bytes of a string buffer. -/
def strlen (s : List Nat) : Nat := (s.takeWhile (fun c => c != 0)).length

/-- Function `calculate_block_hash` of `blockchain.c`: the content of `digest_value` and
`digest_length` after the call. -/
def calculate_block_hash (E : Env) (mem : Mem) (block : Option Nat) (digest_value : Digest)
    (digest_length : Nat) : Except Fault (Digest × Nat × Mem) :=
  match mem.deref block with
  | .error e => .error e
  | .ok b =>
    match b.merkletree with
    | none => .error .null_deref
    | some tree =>
      match tree.root with
      | none => .error .null_deref
      | some root =>
        let h1 := compute_hash E.P root.hash.bytes E.uninit digest_length
        let merkle_root := h1.digest_value
        if E.alloc mem.mallocs = false then
          .ok (digest_value, h1.digest_length, { mem with mallocs := mem.mallocs + 1 })
        else
          let block_data := b.prev_block_hash.bytes ++ merkle_root.bytes
          let h2 := compute_hash E.P block_data digest_value h1.digest_length
          .ok (h2.digest_value, h2.digest_length, { mem with mallocs := mem.mallocs + 1 })

/-- The loop of `create_block` that hashes the transactions, from index `i`
for `rem` more iterations; the result is `none` when a `malloc` failed. -/
def create_block_hashes (E : Env) (transaction_data : List (List Nat)) :
    Nat → Nat → List Digest → Nat → Nat → Except Fault (Option (List Digest) × Nat)
  | 0, _, transaction_hashes, _, k => .ok (some transaction_hashes, k)
  | rem + 1, i, transaction_hashes, hash_size, k =>
    if E.alloc k = false then .ok (none, k + 1)
    else
      match transaction_data[i]? with
      | none => .error .out_of_bounds
      | some s =>
        let h := compute_hash E.P (s.take (strlen s)) E.uninit hash_size
        create_block_hashes E transaction_data rem (i + 1)
          (transaction_hashes ++ [h.digest_value]) h.digest_length (k + 1)

/-- Function `create_block` of `blockchain.c`; `now` is the value of `time(NULL)`.  The
result is the address of the new block (`none` for `NULL`), the chain and the
memory after the call. -/
def create_block (E : Env) (blockchain : Blockchain) (transaction_data : List (List Nat))
    (num_transactions : Nat) (now : Int) (mem : Mem) :
    Except Fault (Option Nat × Blockchain × Mem) :=
  if E.alloc mem.mallocs = false then
    .ok (none, blockchain, { mem with mallocs := mem.mallocs + 1 })
  else
    let new_block := mem.blocks.length
    let last := blockchain.tail
    match calculate_block_hash E { mem with mallocs := mem.mallocs + 1 } last
        E.uninit E.uninit_len with
    | .error e => .error e
    | .ok (hash, hash_size, mem2) =>
      if E.alloc mem2.mallocs = false then
        .ok (none, blockchain, { mem2 with mallocs := mem2.mallocs + 1 })
      else
        match create_block_hashes E transaction_data num_transactions 0 [] hash_size
            (mem2.mallocs + 1) with
        | .error e => .error e
        | .ok (none, k3) => .ok (none, blockchain, { mem2 with mallocs := k3 })
        | .ok (some transaction_hashes, k3) =>
          match create_tree E transaction_hashes num_transactions k3 with
          | .error e => .error e
          | .ok (tree, k4) =>
            let b : Block :=
              { next_block := none, prev_block_hash := hash, timestamp := now,
                merkletree := tree }
            match blockchain.tail with
            | some t =>
              match mem2.blocks[t]? with
              | none => .error .out_of_bounds
              | some tb =>
                if blockchain.count = INT_MAX then .error .int_overflow
                else
                  .ok (some new_block,
                    { head := blockchain.head, tail := some new_block,
                      count := blockchain.count + 1 },
                    { blocks := mem2.blocks.set t { tb with next_block := some new_block }
                        ++ [b],
                      mallocs := k4 })
            | none =>
              if blockchain.count = INT_MAX then .error .int_overflow
              else
                .ok (some new_block,
                  { head := some new_block, tail := some new_block,
                    count := blockchain.count + 1 },
                  { blocks := mem2.blocks ++ [b], mallocs := k4 })

/-- The loop of `destroy_blockchain`, run for at most `fuel` iterations. -/
def destroy_blockchain_loop (mem : Mem) : Nat → Option Nat → Except Fault Unit
  | _, none => .ok ()
  | 0, some _ => .error .out_of_fuel
  | fuel + 1, some a =>
    match mem.blocks[a]? with
    | none => .error .out_of_bounds
    | some b => destroy_blockchain_loop mem fuel b.next_block

/-- Function `destroy_blockchain` of `blockchain.c`. -/
def destroy_blockchain (blockchain : Blockchain) (mem : Mem) : Except Fault Blockchain :=
  match destroy_blockchain_loop mem (mem.blocks.length + 1) blockchain.head with
  | .error e => .error e
  | .ok _ => .ok { head := none, tail := none, count := 0 }

/-- Function `get_last_block` of `blockchain.c`. -/
def get_last_block (blockchain : Blockchain) : Option Nat := blockchain.tail

/-- The value of `sizeof(block->timestamp)`: a `time_t` is a 64-bit `long` on
the platforms where the `%ld` of `block_to_string` prints it. -/
def SIZEOF_TIME_T : Nat := 8

/-- The text of the conversion `%02x` for a byte. -/
def hex_byte (v : Nat) : List Char := [Nat.digitChar (v / 16), Nat.digitChar (v % 16)]

/-- The text of the conversion `%ld`. -/
def decimal (t : Int) : List Char :=
  if t < 0 then Char.ofNat 45 :: Nat.toDigits 10 t.natAbs else Nat.toDigits 10 t.natAbs

/-- The call `snprintf(str_block + strlen(str_block), block_size -
strlen(str_block), ...)` whose untruncated output is `text`: the string in
`str_block` afterwards.  At most `block_size - strlen(str_block) - 1`
characters are written before the terminator. -/
def snprintf (block_size : Nat) (str_block text : List Char) : List Char :=
  str_block ++ text.take (block_size - str_block.length - 1)

/-- Function `block_to_string` of `blockchain.c`: the string returned (`none` for
`NULL`), without its terminator. -/
def block_to_string (E : Env) (mem : Mem) (block : Option Nat) :
    Except Fault (Option (List Char) × Mem) :=
  let block_size := HASH_SIZE * 2 + SIZEOF_TIME_T + 100
  if E.alloc mem.mallocs = false then .ok (none, { mem with mallocs := mem.mallocs + 1 })
  else
    let str_block := snprintf block_size [] "Previous Block Hash: ".toList
    match mem.deref block with
    | .error e => .error e
    | .ok b =>
      let str_block := b.prev_block_hash.bytes.foldl
        (fun s v => snprintf block_size s (hex_byte v)) str_block
      let str_block := snprintf block_size str_block
        (Char.ofNat 10 :: "Timestamp: ".toList ++ decimal b.timestamp ++ [Char.ofNat 10])
      match b.merkletree with
      | some ⟨some root⟩ =>
        let h := compute_hash E.P root.hash.bytes E.uninit E.uninit_len
        let str_block := snprintf block_size str_block "Merkle Tree Root Hash: ".toList
        if h.digest_length > HASH_SIZE then .error .out_of_bounds
        else
          .ok (some ((h.digest_value.bytes.take h.digest_length).foldl
            (fun s v => snprintf block_size s (hex_byte v)) str_block),
            { mem with mallocs := mem.mallocs + 1 })
      | _ =>
        .ok (some (snprintf block_size str_block
            ("Merkle Tree: NULL".toList ++ [Char.ofNat 10])),
          { mem with mallocs := mem.mallocs + 1 })

/-- Function `validate_block` of `blockchain.c`. -/
def validate_block (E : Env) (mem : Mem) (block prev_block : Option Nat) :
    Except Fault (Bool × Mem) :=
  match block, prev_block with
  | none, _ => .ok (false, mem)
  | _, none => .ok (false, mem)
  | some a, some p =>
    match calculate_block_hash E mem (some p) E.uninit E.uninit_len with
    | .error e => .error e
    | .ok (prev_block_digest, _, mem1) =>
      match mem1.deref (some a) with
      | .error e => .error e
      | .ok b => .ok (decide (b.prev_block_hash.bytes = prev_block_digest.bytes), mem1)

/-- The loop of `validate_blockchain`, run for at most `fuel` iterations. -/
def validate_blockchain_loop (E : Env) : Nat → Option Nat → Mem → Except Fault (Bool × Mem)
  | _, none, mem => .ok (true, mem)
  | 0, some _, _ => .error .out_of_fuel
  | fuel + 1, some a, mem =>
    match mem.blocks[a]? with
    | none => .error .out_of_bounds
    | some c =>
      match c.next_block with
      | none => .ok (true, mem)
      | some nx =>
        match validate_block E mem (some nx) (some a) with
        | .error e => .error e
        | .ok (false, mem1) => .ok (false, mem1)
        | .ok (true, mem1) => validate_blockchain_loop E fuel (some nx) mem1

/-- Function `validate_blockchain` of `blockchain.c`; `none` is a `NULL` chain. -/
def validate_blockchain (E : Env) (blockchain : Option Blockchain) (mem : Mem) :
    Except Fault (Bool × Mem) :=
  match blockchain with
  | none => .ok (false, mem)
  | some bc =>
    match bc.head with
    | none => .ok (false, mem)
    | some h => validate_blockchain_loop E (mem.blocks.length + 1) (some h) mem

/-- The bytes of the string `"Genesis"`, with its terminator. -/
def genesis_data : List Nat := [71, 101, 110, 101, 115, 105, 115, 0]

/-- Function `create_blockchain` of `blockchain.c`; `now` is the value of `time(0)`. -/
def create_blockchain (E : Env) (blockchain : Blockchain) (now : Int) (mem : Mem) :
    Except Fault (Blockchain × Mem) :=
  if E.alloc mem.mallocs = false then
    .ok (blockchain, { mem with mallocs := mem.mallocs + 1 })
  else
    let genesis := mem.blocks.length
    let h := compute_hash E.P (genesis_data.take (strlen genesis_data)) E.uninit E.uninit_len
    let transaction_hashes := [h.digest_value]
    match create_tree E transaction_hashes 1 (mem.mallocs + 1) with
    | .error e => .error e
    | .ok (tree, k) =>
      let b : Block :=
        { next_block := none, prev_block_hash := Digest.zero, timestamp := now,
          merkletree := tree }
      .ok ({ head := some genesis, tail := some genesis, count := 1 },
        { blocks := mem.blocks ++ [b], mallocs := k })

/-! ## Specification-level notions used to state the properties -/

/-- A provider on which every call succeeds and whose digest has 64 bytes, as
SHA3-512 has. -/
structure Provider.ok (P : Provider) : Prop where
  lib_ctx_new : P.lib_ctx_new = true
  md_fetch : P.md_fetch = true
  md_get_size : P.md_get_size = 64
  md_ctx_new : P.md_ctx_new = true
  digest_init : P.digest_init = true
  digest_update : ∀ x, P.digest_update x = true
  digest_final : ∀ x, P.digest_final x = true
  digest_size : ∀ x, (P.digest x).length = 64

/-- No `malloc` call fails. -/
def Env.alloc_ok (E : Env) : Prop := ∀ k, E.alloc k = true

/-- The digest `hash(data)` of the specification, as a 64-byte buffer. -/
def hash_of (P : Provider) (data : List Nat) : Digest := Digest.zero.write (P.digest data)

/-- The digest `combine(a, b) = hash(a ‖ b)` of the specification. -/
def combine (P : Provider) (a b : Digest) : Digest := hash_of P (a.bytes ++ b.bytes)

/-- One level reduction as the specification words it: each left-to-right
adjacent pair is combined, a last unpaired digest is carried forward. -/
def reduce_level (P : Provider) : List Digest → List Digest
  | a :: b :: rest => combine P a b :: reduce_level P rest
  | l => l

/-- The reference Merkle root of the specification: reduce until one digest
remains (at most `fuel` reductions). -/
def reference_root (P : Provider) : Nat → List Digest → Option Digest
  | _, [] => none
  | _, [a] => some a
  | 0, _ => none
  | fuel + 1, l => reference_root P fuel (reduce_level P l)

/-- The digests of the leaf nodes (nodes without children) below a node, read
left to right. -/
def Node.leaves : Node → List Digest
  | .mk h none none => [h]
  | .mk _ (some l) none => l.leaves
  | .mk _ none (some r) => r.leaves
  | .mk _ (some l) (some r) => l.leaves ++ r.leaves

/-- The digest of the root of a tree, when it has one. -/
def MerkleTree.root_hash (t : MerkleTree) : Option Digest := t.root.map Node.hash

/-- The digests of the leaf nodes of a tree, read left to right. -/
def MerkleTree.leaves (t : MerkleTree) : List Digest :=
  match t.root with
  | none => []
  | some n => n.leaves

/-- The link hash of a block with previous hash `prev` and Merkle root digest
`root`, as the specification defines it: `combine(prev, hash(root))`. -/
def link_hash (P : Provider) (prev root : Digest) : Digest :=
  combine P prev (hash_of P root.bytes)

/-- Whether every block of a sequence, given as (previous hash, root digest)
pairs, carries the link hash of the block before it. -/
def links_ok (P : Provider) : List (Digest × Digest) → Bool
  | c1 :: c2 :: rest =>
    decide (c2.1.bytes = (link_hash P c1.1 c1.2).bytes) && links_ok P (c2 :: rest)
  | _ => true

/-- The blocks at `addrs` form a list that starts at the first address, follows
`next_block` and ends with a block without successor; the block at position
`i` has the previous hash and root digest `cs[i]`. -/
def Chain (blocks : List Block) : List Nat → List (Digest × Digest) → Prop
  | [], [] => True
  | a :: rest, c :: cs =>
    (∃ b n, blocks[a]? = some b ∧ b.next_block = rest.head? ∧ b.prev_block_hash = c.1 ∧
      b.merkletree = some ⟨some n⟩ ∧ n.hash = c.2) ∧ Chain blocks rest cs
  | _, _ => False

/-- The address of the block reached from pointer `p` after following
`next_block` `j` times. -/
def nth_block (blocks : List Block) : Nat → Option Nat → Option Nat
  | _, none => none
  | 0, some a => some a
  | j + 1, some a =>
    match blocks[a]? with
    | none => none
    | some b => nth_block blocks j b.next_block

/-- Overwriting byte `i` of the `prev_block_hash` of the block at address `a`
with `v`. -/
def tamper (mem : Mem) (a i v : Nat) : Mem :=
  match mem.blocks[a]? with
  | none => mem
  | some b =>
    { mem with
      blocks := mem.blocks.set a
        { b with prev_block_hash := b.prev_block_hash.set_byte i v } }

/-- A caller appending blocks one after the other: each entry is the
transaction strings of one `create_block` call and the time of the call. -/
def append_blocks (E : Env) :
    List (List (List Nat) × Int) → Blockchain → Mem → Except Fault (Blockchain × Mem)
  | [], bc, mem => .ok (bc, mem)
  | c :: rest, bc, mem =>
    match create_block E bc c.1 c.1.length c.2 mem with
    | .error e => .error e
    | .ok r => append_blocks E rest r.2.1 r.2.2

/-- A caller running `create_blockchain` and then a sequence of
`create_block` calls, as `main` does. -/
def build_chain (E : Env) (now : Int) (calls : List (List (List Nat) × Int))
    (bc : Blockchain) (mem : Mem) : Except Fault (Blockchain × Mem) :=
  match create_blockchain E bc now mem with
  | .error e => .error e
  | .ok r => append_blocks E calls r.1 r.2

/-- The block `create_block` links into the chain when nothing fails: its
tree holds the digest of the first transaction at its root. -/
def appended_block (P : Provider) (tb : Block) (n : Node) (s : List Nat) (now : Int) : Block :=
  { next_block := none
    prev_block_hash := link_hash P tb.prev_block_hash n.hash
    timestamp := now
    merkletree := some ⟨some (Node.mk (hash_of P (s.take (strlen s))) none none)⟩ }

/-- The genesis block `create_blockchain` builds when nothing fails. -/
def genesis_block (P : Provider) (now : Int) : Block :=
  { next_block := none
    prev_block_hash := Digest.zero
    timestamp := now
    merkletree := some ⟨some (Node.mk (hash_of P [71, 101, 110, 101, 115, 105, 115]) none none)⟩ }

/-- The state of a chain built through the interface: its blocks are the list
at `addrs`, starting at `head` and ending at `tail`, `count` is their number,
every block carries the link hash of the block before it, and the first
block has the all-zero previous hash. -/
structure ChainInv (P : Provider) (bc : Blockchain) (mem : Mem) (addrs : List Nat)
    (cs : List (Digest × Digest)) : Prop where
  chain : Chain mem.blocks addrs cs
  nodup : addrs.Nodup
  head : bc.head = addrs.head?
  tail : bc.tail = addrs.getLast?
  count : bc.count = addrs.length
  links : links_ok P cs = true
  genesis : ∃ r, cs.head? = some (Digest.zero, r)

/-! ## The provider of the program: SHA3-512

`compute_hash` fetches the digest "SHA3-512" from OpenSSL.  The function below
is SHA3-512 as FIPS 202 defines it (Keccak-f[1600], rate 72 bytes, suffix
`0x06`), so that the properties can be evaluated on the digests the program
really computes.  The 25 lanes of the state are packed in one natural number,
lane `i` in bits `64 i .. 64 i + 63`. -/

/-- The round constants of Keccak-f[1600], in decimal. -/
def round_constants : List Nat :=
  [1, 32898, 9223372036854808714,
   9223372039002292224, 32907, 2147483649,
   9223372039002292353, 9223372036854808585, 138,
   136, 2147516425, 2147483658,
   2147516555, 9223372036854775947, 9223372036854808713,
   9223372036854808579, 9223372036854808578, 9223372036854775936,
   32778, 9223372039002259466, 9223372039002292353,
   9223372036854808704, 2147483649, 9223372039002292232]

/-- The rotation offsets of step rho: row `y`, column `x`. -/
def rho_offsets : List (List Nat) :=
  [[0, 1, 62, 28, 27], [36, 44, 6, 55, 20], [3, 10, 43, 25, 39], [41, 45, 15, 21, 8],
   [18, 2, 61, 56, 14]]

/-- Rotation of a 64-bit lane to the left. -/
def rotl64 (x n : Nat) : Nat := ((x <<< n) % 2 ^ 64) ||| (x >>> (64 - n))

/-- Lane `i` of a packed state. -/
def lane (s i : Nat) : Nat := (s >>> (64 * i)) % 2 ^ 64

/-- The packed state whose lanes `0 .. n - 1` are `f 0 .. f (n - 1)`. -/
def pack (f : Nat → Nat) : Nat → Nat
  | 0 => 0
  | n + 1 => pack f n + f n <<< (64 * n)

/-- One round of Keccak-f[1600]: steps theta, rho and pi, chi, iota. -/
def keccak_round (s rc : Nat) : Nat :=
  let c := pack (fun x => lane s x ^^^ lane s (x + 5) ^^^ lane s (x + 10) ^^^ lane s (x + 15)
    ^^^ lane s (x + 20)) 5
  let d := pack (fun x => lane c ((x + 4) % 5) ^^^ rotl64 (lane c ((x + 1) % 5)) 1) 5
  let a1 := pack (fun i => lane s i ^^^ lane d (i % 5)) 25
  let b := pack (fun j =>
    rotl64 (lane a1 ((j % 5 + 3 * (j / 5)) % 5 + 5 * (j % 5)))
      ((rho_offsets.getD (j % 5) []).getD ((j % 5 + 3 * (j / 5)) % 5) 0)) 25
  let a2 := pack (fun j =>
    lane b j ^^^ ((lane b ((j % 5 + 1) % 5 + 5 * (j / 5)) ^^^ (2 ^ 64 - 1)) &&&
      lane b ((j % 5 + 2) % 5 + 5 * (j / 5)))) 25
  a2 ^^^ rc

/-- The permutation Keccak-f[1600]. -/
def keccak_f (s : Nat) : Nat := round_constants.foldl keccak_round s

/-- The little-endian number of a byte string. -/
def nat_of_bytes (bs : List Nat) : Nat := bs.foldr (fun b acc => b % 256 + 256 * acc) 0

/-- The padding of SHA3-512: suffix `0x06`, zeros, final bit, up to a multiple of
72 bytes. -/
def sha3_pad (m : List Nat) : List Nat :=
  let q := 72 - m.length % 72
  if q = 1 then m ++ [0x86] else m ++ [0x06] ++ List.replicate (q - 2) 0 ++ [0x80]

/-- Absorbing `n` blocks of 72 bytes. -/
def sha3_absorb : Nat → Nat → List Nat → Nat
  | 0, s, _ => s
  | n + 1, s, bs => sha3_absorb n (keccak_f (s ^^^ nat_of_bytes (bs.take 72))) (bs.drop 72)

/-- The SHA3-512 digest of a byte string. -/
def sha3_512 (m : List Nat) : List Nat :=
  let p := sha3_pad m
  let s := sha3_absorb (p.length / 72) 0 p
  (List.range 64).map fun i => (s >>> (8 * i)) % 256

/-- The provider of a run in which OpenSSL works: every call succeeds and the
digest is SHA3-512. -/
def sha3_provider : Provider :=
  { lib_ctx_new := true
    md_fetch := true
    md_get_size := 64
    md_ctx_new := true
    digest_init := true
    digest_update := fun _ => true
    digest_final := fun _ => true
    digest := sha3_512 }

/-- The environment of a run in which nothing fails; indeterminate buffers
hold zeros. -/
def sha3_env : Env :=
  { P := sha3_provider
    alloc := fun _ => true
    uninit := Digest.zero
    uninit_len := 0 }

/-- The transaction strings of the two `create_block` calls of `main`, with
their terminators, and the times of the calls. -/
def demo_calls : List (List (List Nat) × Int) :=
  [([[49, 50, 51, 46, 50, 0], [50, 49, 51, 51, 46, 48, 0]], 1700000001),
   ([[52, 51, 52, 50, 0], [109, 111, 114, 101, 95, 100, 97, 116, 97, 0]], 1700000002)]

/-- The digest of the transaction `"123.2"`. -/
def demo_leaf_a : Digest := hash_of sha3_provider [49, 50, 51, 46, 50]

/-- The digest of the transaction `"2133.0"`. -/
def demo_leaf_b : Digest := hash_of sha3_provider [50, 49, 51, 51, 46, 48]

/-- The digest of the transaction `"4342"`. -/
def demo_leaf_c : Digest := hash_of sha3_provider [52, 51, 52, 50]

/-- The root node of a block that has one. -/
def demo_root (h : Digest) : Node := Node.mk h none none

/-- The genesis block of the demo run of `main`, before the first append. -/
def demo_genesis : Block := genesis_block sha3_provider 1700000000

/-- The second block of the demo run, before the second append. -/
def demo_block2 : Block :=
  appended_block sha3_provider demo_genesis
    (demo_root (hash_of sha3_provider [71, 101, 110, 101, 115, 105, 115]))
    [49, 50, 51, 46, 50, 0] 1700000001

/-- The third block of the demo run. -/
def demo_block3 : Block :=
  appended_block sha3_provider demo_block2 (demo_root demo_leaf_a) [52, 51, 52, 50, 0] 1700000002

/-- The heap of blocks at the end of the demo run. -/
def demo_blocks : List Block :=
  [{ demo_genesis with next_block := some 1 }, { demo_block2 with next_block := some 2 },
    demo_block3]

/-- The chain at the end of the demo run. -/
def demo_chain : Blockchain := { head := some 0, tail := some 2, count := 3 }

/-- A recognisable content of indeterminate memory: 64 bytes `0xAA`. -/
def junk : Digest := ⟨List.replicate 64 170, by simp⟩

/-- The environment of a run with SHA3-512 in which exactly the `malloc` call
number `n` (counted from 0) fails; indeterminate buffers hold zeros, as in
`sha3_env`. -/
def alloc_fails_env (n : Nat) : Env :=
  { P := sha3_provider
    alloc := fun k => k != n
    uninit := Digest.zero
    uninit_len := 0 }

/-- The environment of a run in which `EVP_MD_fetch` finds no digest, so that
every `compute_hash` call fails; indeterminate buffers hold `junk`. -/
def no_digest_env : Env :=
  { P := { sha3_provider with md_fetch := false }
    alloc := fun _ => true
    uninit := junk
    uninit_len := 0 }

/-- The blocks at `addrs` form a list that follows `next_block` and ends with
a block without successor. -/
def Linked (blocks : List Block) : List Nat → Prop
  | [] => True
  | a :: rest => (∃ b, blocks[a]? = some b ∧ b.next_block = rest.head?) ∧ Linked blocks rest

/-- The states reached from `create_blockchain` (its allocation of the genesis
block succeeding) by `n` calls of `create_block` that each returned a block. -/
inductive Reached (E : Env) : Nat → Blockchain → Mem → Prop
  | genesis (bc0 : Blockchain) (now : Int) (mem0 : Mem) (bc : Blockchain) (mem : Mem) :
    E.alloc mem0.mallocs = true → create_blockchain E bc0 now mem0 = .ok (bc, mem) →
    Reached E 0 bc mem
  | append (n : Nat) (bc : Blockchain) (mem : Mem) (txs : List (List Nat)) (num : Nat)
      (now : Int) (nb : Nat) (bc1 : Blockchain) (mem1 : Mem) :
    Reached E n bc mem → create_block E bc txs num now mem = .ok (some nb, bc1, mem1) →
    Reached E (n + 1) bc1 mem1

/-- The link structure of a chain: its blocks are the list at `addrs`, from
`head` to `tail`, without repetition, `count` is their number, and the first
block has the all-zero previous hash. -/
structure LinkInv (bc : Blockchain) (mem : Mem) (addrs : List Nat) : Prop where
  linked : Linked mem.blocks addrs
  nodup : addrs.Nodup
  head : bc.head = addrs.head?
  tail : bc.tail = addrs.getLast?
  count : bc.count = addrs.length
  genesis : ∃ g gb, addrs.head? = some g ∧ mem.blocks[g]? = some gb ∧
    gb.prev_block_hash = Digest.zero

/-- The hex encoding of a byte sequence: two lowercase hex digits per byte. -/
def hex_bytes : List Nat → List Char
  | [] => []
  | v :: rest => hex_byte v ++ hex_bytes rest

/-- The part of the text of `block_to_string` that precedes the Merkle
section: the label and hex of the previous hash, and the timestamp line. -/
def block_text_head (b : Block) : List Char :=
  "Previous Block Hash: ".toList ++ hex_bytes b.prev_block_hash.bytes ++
    (Char.ofNat 10 :: "Timestamp: ".toList ++ decimal b.timestamp ++ [Char.ofNat 10])

/-- All the nodes of the tree below a node, the node itself first. -/
def Node.nodes : Node → List Node
  | .mk h none none => [.mk h none none]
  | .mk h (some l) none => .mk h (some l) none :: l.nodes
  | .mk h none (some r) => .mk h none (some r) :: r.nodes
  | .mk h (some l) (some r) => .mk h (some l) (some r) :: (l.nodes ++ r.nodes)

/-- All the nodes of a tree. -/
def MerkleTree.nodes (t : MerkleTree) : List Node :=
  match t.root with
  | none => []
  | some n => n.nodes

/-- Every block at the addresses `addrs` has a Merkle tree with a root. -/
def Rooted (blocks : List Block) (addrs : List Nat) : Prop :=
  ∀ a ∈ addrs, ∃ b n, blocks[a]? = some b ∧ b.merkletree = some ⟨some n⟩

/-- The leaf nodes the first loop of `create_tree` builds when no allocation
fails. -/
def leaf_nodes (transaction_hashes : List Digest) : List (Option Node) :=
  transaction_hashes.map (fun h => some (Node.mk h none none))

/-- The nodes one pass of the inner loop of `create_tree` builds over the leaf
nodes when no allocation fails: one for each pair of neighbours `i`, `i + 1`. -/
def pair_nodes (E : Env) (ths : List Digest) : List (Option Node) :=
  List.zipWith (fun a b => some (Node.mk (combine_hashes E a b E.uninit) none none)) ths
    (ths.drop 1)

/-! ## Digest engine: basic facts -/

theorem Digest.eq_of_bytes {a b : Digest} (h : a.bytes = b.bytes) : a = b := by
  cases a; cases b; simp_all

theorem Digest.write_bytes (d : Digest) (out : List Nat) (h : out.length = 64) :
    (d.write out).bytes = out := by
  have hd : List.drop out.length d.bytes = [] := by
    apply List.drop_eq_nil_of_le
    rw [d.size, h]
  simp only [Digest.write, hd, List.append_nil]
  exact List.take_of_length_le (by omega)

theorem hash_of_bytes {P : Provider} (hP : P.ok) (data : List Nat) :
    (hash_of P data).bytes = P.digest data :=
  Digest.write_bytes _ _ (hP.digest_size data)

theorem compute_hash_ok {P : Provider} (hP : P.ok) (data : List Nat) (dv : Digest) (dl : Nat) :
    compute_hash P data dv dl = ⟨1, hash_of P data, 64⟩ := by
  have h1 : (dv.write (P.digest data)) = hash_of P data :=
    Digest.eq_of_bytes (by
      rw [Digest.write_bytes _ _ (hP.digest_size data), hash_of_bytes hP])
  simp [compute_hash, hP.lib_ctx_new, hP.md_fetch, hP.md_get_size, hP.md_ctx_new,
    hP.digest_init, hP.digest_update, hP.digest_final, hP.digest_size, HASH_SIZE, h1]

theorem combine_hashes_ok {E : Env} (hP : E.P.ok) (a b c : Digest) :
    combine_hashes E a b c = combine E.P a b := by
  simp [combine_hashes, combine, compute_hash_ok hP]

/-- When the size stored in `digest_length` fails one of the two checks,
`compute_hash` returns 0 and leaves the digest buffer as it was. -/
theorem compute_hash_size_check (P : Provider) (data : List Nat) (dv : Digest) (dl : Nat)
    (h : (P.md_get_size % 2 ^ 32).toNat ≤ 0 ∨ (P.md_get_size % 2 ^ 32).toNat > HASH_SIZE) :
    (compute_hash P data dv dl).ret = 0 ∧ (compute_hash P data dv dl).digest_value = dv ∧
    (P.lib_ctx_new = true → P.md_fetch = true →
      (compute_hash P data dv dl).digest_length = (P.md_get_size % 2 ^ 32).toNat) := by
  unfold compute_hash
  dsimp only
  split_ifs with h1 h2 h3 h4 <;>
    first
    | exact ⟨rfl, rfl, fun a b => by simp_all⟩
    | exact ⟨rfl, rfl, fun _ _ => rfl⟩
    | (exfalso; omega)

/-! ## Merkle tree builder: what `create_tree` returns -/

theorem create_node_ok {E : Env} (hA : E.alloc_ok) (h : Digest) (k : Nat) :
    create_node E h k = (some (Node.mk h none none), k + 1) := by
  simp [create_node, hA k]

theorem create_tree_leaves_ok {E : Env} (hA : E.alloc_ok) (ths : List Digest) :
    ∀ (rem i : Nat) (ns : List (Option Node)) (k : Nat), i + rem ≤ ths.length →
      create_tree_leaves E ths rem i (some ns) k =
        .ok (some (ns ++ ((ths.drop i).take rem).map (fun h => some (Node.mk h none none))),
          k + rem) := by
  intro rem
  induction rem with
  | zero => intro i ns k _; simp [create_tree_leaves]
  | succ rem ih =>
    intro i ns k hle
    have hi : i < ths.length := by omega
    have hget : ths[i]? = some ths[i] := List.getElem?_eq_getElem hi
    have hdrop : List.drop i ths = ths[i] :: List.drop (i + 1) ths :=
      List.drop_eq_getElem_cons hi
    rw [create_tree_leaves, hget]
    simp only [create_node_ok hA]
    rw [ih (i + 1) _ (k + 1) (by omega), hdrop, List.take_succ_cons, List.map_cons,
      List.append_assoc, List.singleton_append, Nat.add_assoc, Nat.add_comm 1 rem]

theorem create_tree_level_ok (E : Env) (nodes : List (Option Node))
    (num : Nat) (hnodes : ∀ j, j < num → ∃ n, nodes[j]? = some (some n)) :
    ∀ (rem i : Nat) (ns : List (Option Node)) (k : Nat), i + rem < num →
      ∃ r, create_tree_level E nodes num rem i (some ns) k = .ok r := by
  intro rem
  induction rem with
  | zero => intro i ns k _; exact ⟨_, rfl⟩
  | succ rem ih =>
    intro i ns k hlt
    obtain ⟨n1, h1⟩ := hnodes i (by omega)
    obtain ⟨n2, h2⟩ := hnodes (i + 1) (by omega)
    have hc : i + 1 < num := by omega
    rw [create_tree_level]
    simp only [hc, if_true, h1, h2]
    exact ih (i + 1) _ _ (by omega)

theorem create_tree_loop_ok {E : Env} (hA : E.alloc_ok) (nodes : List (Option Node)) :
    ∀ (fuel num k : Nat), num ≤ fuel →
      (∀ j, j < num → ∃ n, nodes[j]? = some (some n)) →
      ∃ k1, create_tree_loop E nodes fuel num k = .ok k1 := by
  intro fuel
  induction fuel with
  | zero =>
    intro num k hle _
    have : ¬ num > 1 := by omega
    exact ⟨k, by simp [create_tree_loop, this]⟩
  | succ fuel ih =>
    intro num k hle hnodes
    by_cases hn : num > 1
    · obtain ⟨r, hr⟩ := create_tree_level_ok E nodes num hnodes ((num + 1) / 2) 0 [] (k + 1)
        (by omega)
      obtain ⟨k1, hk1⟩ := ih ((num + 1) / 2) r.2 (by omega)
        (fun j hj => hnodes j (by omega))
      refine ⟨k1, ?_⟩
      rw [create_tree_loop]
      simp only [hn, if_true, hA k, hr, hk1]
    · exact ⟨k, by simp [create_tree_loop, hn]⟩

/-- With no allocation failure, `create_tree` on a non-empty array of leaf
digests returns a tree whose root is a childless node holding the first
digest of the array. -/
theorem create_tree_ok {E : Env} (hA : E.alloc_ok) (a : Digest) (rest : List Digest)
    (k : Nat) :
    ∃ k1, create_tree E (a :: rest) (a :: rest).length k =
      .ok (some ⟨some (Node.mk a none none)⟩, k1) := by
  have hleaves := create_tree_leaves_ok hA (a :: rest) (a :: rest).length 0 [] (k + 2)
    (by simp)
  simp only [List.drop_zero, List.take_length, List.nil_append] at hleaves
  have hnodes : ∀ j, j < (a :: rest).length →
      ∃ n, ((a :: rest).map (fun h => some (Node.mk h none none)))[j]? = some (some n) := by
    intro j hj
    exact ⟨Node.mk (a :: rest)[j] none none, by
      rw [List.getElem?_map, List.getElem?_eq_getElem hj]; rfl⟩
  obtain ⟨k1, hk1⟩ := create_tree_loop_ok hA _ (a :: rest).length (a :: rest).length
    (k + 2 + (a :: rest).length) (le_refl _) hnodes
  refine ⟨k1, ?_⟩
  rw [create_tree]
  simp only [hA k, hA (k + 1), if_true, hleaves, hk1]
  simp

/-! ## Chain engine: link hashes and validation -/

theorem calculate_block_hash_ok {E : Env} (hP : E.P.ok) (mem : Mem) (a : Nat) (b : Block)
    (n : Node) (dv : Digest) (dl : Nat) (hA : E.alloc mem.mallocs = true)
    (hb : mem.blocks[a]? = some b) (ht : b.merkletree = some ⟨some n⟩) :
    calculate_block_hash E mem (some a) dv dl =
      .ok (link_hash E.P b.prev_block_hash n.hash, 64,
        { mem with mallocs := mem.mallocs + 1 }) := by
  simp [calculate_block_hash, Mem.deref, hb, ht, hA, compute_hash_ok hP, link_hash, combine,
    hash_of_bytes hP]

theorem validate_block_ok {E : Env} (hP : E.P.ok) (mem : Mem) (a p : Nat) (b pb : Block)
    (n : Node) (hA : E.alloc mem.mallocs = true)
    (hb : mem.blocks[a]? = some b) (hpb : mem.blocks[p]? = some pb)
    (ht : pb.merkletree = some ⟨some n⟩) :
    validate_block E mem (some a) (some p) =
      .ok (decide (b.prev_block_hash.bytes = (link_hash E.P pb.prev_block_hash n.hash).bytes),
        { mem with mallocs := mem.mallocs + 1 }) := by
  simp [validate_block, calculate_block_hash_ok hP mem p pb n _ _ hA hpb ht, Mem.deref, hb]

theorem validate_blockchain_loop_ok {E : Env} (hP : E.P.ok) (hA : E.alloc_ok)
    (blocks : List Block) :
    ∀ (rest : List Nat) (a : Nat) (cs : List (Digest × Digest)) (fuel k : Nat),
      Chain blocks (a :: rest) cs → rest.length < fuel →
      ∃ k1, validate_blockchain_loop E fuel (some a) ⟨blocks, k⟩ =
        .ok (links_ok E.P cs, ⟨blocks, k1⟩) := by
  intro rest
  induction rest with
  | nil =>
    intro a cs fuel k hch hfuel
    obtain ⟨fuel, rfl⟩ : ∃ f, fuel = f + 1 := ⟨fuel - 1, by omega⟩
    match cs, hch with
    | [c], ⟨⟨b, n, hb, hnext, _, _, _⟩, _⟩ =>
      refine ⟨k, ?_⟩
      simp only [List.head?_nil] at hnext
      simp [validate_blockchain_loop, hb, hnext, links_ok]
    | c :: c2 :: cs, ⟨_, h2⟩ => exact absurd h2 (by simp [Chain])
  | cons a2 rest ih =>
    intro a cs fuel k hch hfuel
    obtain ⟨fuel, rfl⟩ : ∃ f, fuel = f + 1 := ⟨fuel - 1, by omega⟩
    match cs, hch with
    | [c], ⟨_, h2⟩ => exact absurd h2 (by simp [Chain])
    | c :: c2 :: cs, ⟨⟨b, n, hb, hnext, hprev, htree, hroot⟩, h2⟩ =>
      have h2' := h2
      obtain ⟨⟨b2, n2, hb2, _, hprev2, _, _⟩, _⟩ := h2'
      simp only [List.head?_cons] at hnext
      have hv := validate_block_ok hP ⟨blocks, k⟩ a2 a b2 b n (hA k) hb2 hb htree
      rw [hprev2, hprev, hroot] at hv
      by_cases hd : c2.1.bytes = (link_hash E.P c.1 c.2).bytes
      · obtain ⟨k1, hk1⟩ := ih a2 (c2 :: cs) fuel (k + 1) h2 (by simp at hfuel; omega)
        refine ⟨k1, ?_⟩
        simp only [hd, decide_True] at hv
        simp [validate_blockchain_loop, hb, hnext, hv, hk1, links_ok, hd]
      · refine ⟨k + 1, ?_⟩
        simp only [hd, decide_False] at hv
        simp [validate_blockchain_loop, hb, hnext, hv, links_ok, hd]

/-! ## Chain engine: what `create_blockchain` and `create_block` return -/

theorem create_block_hashes_ok {E : Env} (hP : E.P.ok) (hA : E.alloc_ok)
    (txs : List (List Nat)) :
    ∀ (rem i : Nat) (ths : List Digest) (hs k : Nat), i + rem ≤ txs.length →
      create_block_hashes E txs rem i ths hs k =
        .ok (some (ths ++ ((txs.drop i).take rem).map
          (fun s => hash_of E.P (s.take (strlen s)))), k + rem) := by
  intro rem
  induction rem with
  | zero => intro i ths hs k _; simp [create_block_hashes]
  | succ rem ih =>
    intro i ths hs k hle
    have hi : i < txs.length := by omega
    have hget : txs[i]? = some txs[i] := List.getElem?_eq_getElem hi
    have hdrop : List.drop i txs = txs[i] :: List.drop (i + 1) txs :=
      List.drop_eq_getElem_cons hi
    rw [create_block_hashes]
    simp only [hA k, Bool.true_eq_false, if_false, hget, compute_hash_ok hP]
    rw [ih (i + 1) _ 64 (k + 1) (by omega), hdrop, List.take_succ_cons, List.map_cons,
      List.append_assoc, List.singleton_append, Nat.add_assoc, Nat.add_comm 1 rem]

theorem create_block_ok {E : Env} (hP : E.P.ok) (hA : E.alloc_ok) (bc : Blockchain)
    (mem : Mem) (t : Nat) (tb : Block) (n : Node) (s : List Nat) (txs : List (List Nat))
    (now : Int) (htail : bc.tail = some t) (htb : mem.blocks[t]? = some tb)
    (htree : tb.merkletree = some ⟨some n⟩) (hcount : bc.count ≠ INT_MAX) :
    ∃ k, create_block E bc (s :: txs) (s :: txs).length now mem =
      .ok (some mem.blocks.length,
        { head := bc.head, tail := some mem.blocks.length, count := bc.count + 1 },
        { blocks := mem.blocks.set t { tb with next_block := some mem.blocks.length }
            ++ [appended_block E.P tb n s now],
          mallocs := k }) := by
  have hcalc := calculate_block_hash_ok hP { mem with mallocs := mem.mallocs + 1 } t tb n
    E.uninit E.uninit_len (hA _) htb htree
  have hhashes := create_block_hashes_ok hP hA (s :: txs) (s :: txs).length 0 [] 64
    (mem.mallocs + 1 + 1 + 1) (by simp)
  simp only [List.drop_zero, List.take_length, List.nil_append, List.map_cons] at hhashes
  obtain ⟨k, hk⟩ := create_tree_ok hA (hash_of E.P (s.take (strlen s)))
    (txs.map (fun s => hash_of E.P (s.take (strlen s))))
    (mem.mallocs + 1 + 1 + 1 + (s :: txs).length)
  simp only [List.length_cons, List.length_map] at hk hhashes
  refine ⟨k, ?_⟩
  rw [create_block]
  simp only [hA mem.mallocs, Bool.true_eq_false, if_false, htail, hcalc, hA (mem.mallocs + 1 + 1),
    List.length_cons, hhashes, hk, htb, hcount, appended_block]

theorem create_blockchain_ok {E : Env} (hP : E.P.ok) (hA : E.alloc_ok) (bc : Blockchain)
    (now : Int) (mem : Mem) :
    ∃ k, create_blockchain E bc now mem =
      .ok ({ head := some mem.blocks.length, tail := some mem.blocks.length, count := 1 },
        { blocks := mem.blocks ++ [genesis_block E.P now], mallocs := k }) := by
  have hdata : genesis_data.take (strlen genesis_data) = [71, 101, 110, 101, 115, 105, 115] := by
    decide
  obtain ⟨k, hk⟩ := create_tree_ok hA (hash_of E.P [71, 101, 110, 101, 115, 105, 115]) []
    (mem.mallocs + 1)
  refine ⟨k, ?_⟩
  simp only [List.length_singleton] at hk
  rw [create_blockchain]
  simp only [hA mem.mallocs, Bool.true_eq_false, if_false, hdata, compute_hash_ok hP, hk,
    genesis_block]

/-! ## Chain engine: the heap after an append -/

theorem heap_get_old (blocks : List Block) (t a : Nat) (x y : Block) (ha : a < blocks.length)
    (hne : a ≠ t) : (blocks.set t x ++ [y])[a]? = blocks[a]? := by
  rw [List.getElem?_append_left (by simpa using ha), List.getElem?_set_ne (Ne.symm hne)]

theorem heap_get_tail (blocks : List Block) (t : Nat) (x y : Block) (ht : t < blocks.length) :
    (blocks.set t x ++ [y])[t]? = some x := by
  rw [List.getElem?_append_left (by simpa using ht), List.getElem?_set_self ht]

theorem heap_get_new (blocks : List Block) (t : Nat) (x y : Block) :
    (blocks.set t x ++ [y])[blocks.length]? = some y := by
  have h : blocks.length = (blocks.set t x).length := by simp
  rw [h, List.getElem?_append_right (le_refl _)]
  simp

theorem lt_of_getElem?_eq_some {α : Type} {l : List α} {a : Nat} {b : α}
    (h : l[a]? = some b) : a < l.length := by
  by_contra hlt
  rw [List.getElem?_eq_none (by omega)] at h
  exact absurd h (by simp)

theorem chain_length (blocks : List Block) :
    ∀ (addrs : List Nat) (cs : List (Digest × Digest)), Chain blocks addrs cs →
      addrs.length = cs.length := by
  intro addrs
  induction addrs with
  | nil => intro cs h; cases cs with
    | nil => rfl
    | cons c cs => exact absurd h (by simp [Chain])
  | cons a rest ih => intro cs h; cases cs with
    | nil => exact absurd h (by simp [Chain])
    | cons c cs => simp [ih cs h.2]

theorem chain_mem_lt (blocks : List Block) :
    ∀ (addrs : List Nat) (cs : List (Digest × Digest)), Chain blocks addrs cs →
      ∀ a ∈ addrs, a < blocks.length := by
  intro addrs
  induction addrs with
  | nil => intro cs _ a ha; exact absurd ha (by simp)
  | cons a0 rest ih => intro cs h a ha; cases cs with
    | nil => exact absurd h (by simp [Chain])
    | cons c cs =>
      obtain ⟨⟨b, n, hb, _⟩, h2⟩ := h
      rcases List.mem_cons.mp ha with rfl | hmem
      · exact lt_of_getElem?_eq_some hb
      · exact ih cs h2 a hmem

/-- The last block of a chain: its content and its missing successor. -/
theorem chain_last (blocks : List Block) (t : Nat) :
    ∀ (addrs : List Nat) (cs : List (Digest × Digest)), Chain blocks (addrs ++ [t]) cs →
      ∃ cs0 c tb n, cs = cs0 ++ [c] ∧ blocks[t]? = some tb ∧ tb.next_block = none ∧
        tb.prev_block_hash = c.1 ∧ tb.merkletree = some ⟨some n⟩ ∧ n.hash = c.2 := by
  intro addrs
  induction addrs with
  | nil =>
    intro cs h
    match cs, h with
    | [c], ⟨⟨b, n, hb, hnext, hprev, htree, hroot⟩, _⟩ =>
      exact ⟨[], c, b, n, rfl, hb, by simpa using hnext, hprev, htree, hroot⟩
    | c :: c2 :: cs, ⟨_, h2⟩ => exact absurd h2 (by simp [Chain])
  | cons a rest ih =>
    intro cs h
    match cs, h with
    | c :: cs, ⟨_, h2⟩ =>
      obtain ⟨cs0, c1, tb, n, hcs, rest1⟩ := ih cs h2
      exact ⟨c :: cs0, c1, tb, n, by simp [hcs], rest1⟩

/-- Appending a block at the first free address, after the last block `t`,
extends the chain by that block. -/
theorem chain_append (blocks : List Block) (t : Nat) (tb y : Block) (n : Node)
    (c1 : Digest × Digest) (htb : blocks[t]? = some tb) (hnone : tb.next_block = none)
    (hy1 : y.next_block = none) (hy2 : y.prev_block_hash = c1.1)
    (hy3 : y.merkletree = some ⟨some n⟩) (hy4 : n.hash = c1.2) :
    ∀ (addrs : List Nat) (cs : List (Digest × Digest)), Chain blocks (addrs ++ [t]) cs →
      Chain (blocks.set t { tb with next_block := some blocks.length } ++ [y])
        (addrs ++ [t, blocks.length]) (cs ++ [c1]) := by
  have ht : t < blocks.length := lt_of_getElem?_eq_some htb
  intro addrs
  induction addrs with
  | nil =>
    intro cs h
    match cs, h with
    | [c], ⟨⟨b, m, hb, _, hprev, htree, hroot⟩, _⟩ =>
      have hbt : b = tb := by rw [htb] at hb; exact (Option.some.inj hb).symm
      subst hbt
      refine ⟨⟨_, m, heap_get_tail blocks t _ y ht, by simp, hprev, htree, hroot⟩, ?_⟩
      exact ⟨⟨y, n, heap_get_new blocks t _ y, by simpa using hy1, hy2, hy3, hy4⟩, trivial⟩
    | c :: c2 :: cs, ⟨_, h2⟩ => exact absurd h2 (by simp [Chain])
  | cons a rest ih =>
    intro cs h
    match cs, h with
    | c :: cs, ⟨⟨b, m, hb, hnext, hprev, htree, hroot⟩, h2⟩ =>
      have hne : a ≠ t := by
        intro hat
        subst hat
        rw [htb] at hb
        have hbt : tb = b := Option.some.inj hb
        subst hbt
        rw [hnone] at hnext
        cases rest <;> simp at hnext
      refine ⟨⟨b, m, ?_, ?_, hprev, htree, hroot⟩, ih cs h2⟩
      · rw [heap_get_old blocks t a _ y (lt_of_getElem?_eq_some hb) hne]; exact hb
      · rw [hnext]; cases rest <;> simp

theorem links_ok_append (P : Provider) (c c1 : Digest × Digest)
    (h1 : c1.1 = link_hash P c.1 c.2) :
    ∀ cs0 : List (Digest × Digest), links_ok P (cs0 ++ [c]) = true →
      links_ok P (cs0 ++ [c] ++ [c1]) = true := by
  intro cs0
  induction cs0 with
  | nil => intro _; simp [links_ok, h1]
  | cons x rest ih =>
    intro h
    cases rest with
    | nil =>
      simp only [List.nil_append, List.cons_append, links_ok, Bool.and_eq_true,
        decide_eq_true_eq] at h ⊢
      exact ⟨h.1, by simpa [links_ok] using ih (by simp [links_ok])⟩
    | cons x2 rest2 =>
      simp only [List.cons_append, links_ok, Bool.and_eq_true, decide_eq_true_eq] at h ⊢
      exact ⟨h.1, by simpa using ih (by simpa using h.2)⟩

/-! ## Chain engine: the invariant of chains built through the interface -/

theorem create_blockchain_inv {E : Env} (hP : E.P.ok) (hA : E.alloc_ok) (bc : Blockchain)
    (now : Int) (mem : Mem) :
    ∃ bc1 mem1, create_blockchain E bc now mem = .ok (bc1, mem1) ∧
      ChainInv E.P bc1 mem1 [mem.blocks.length]
        [(Digest.zero, hash_of E.P [71, 101, 110, 101, 115, 105, 115])] := by
  obtain ⟨k, hk⟩ := create_blockchain_ok hP hA bc now mem
  refine ⟨_, _, hk, ?_⟩
  refine ⟨?_, by simp, rfl, rfl, by simp, by simp [links_ok], ⟨_, rfl⟩⟩
  refine ⟨⟨genesis_block E.P now, _, ?_, rfl, rfl, rfl, rfl⟩, trivial⟩
  simp

theorem create_block_inv {E : Env} (hP : E.P.ok) (hA : E.alloc_ok) (bc : Blockchain)
    (mem : Mem) (addrs : List Nat) (cs : List (Digest × Digest)) (s : List Nat)
    (txs : List (List Nat)) (now : Int) (hinv : ChainInv E.P bc mem addrs cs)
    (hcount : bc.count ≠ INT_MAX) :
    ∃ bc1 mem1 c1, create_block E bc (s :: txs) (s :: txs).length now mem =
        .ok (some mem.blocks.length, bc1, mem1) ∧
      ChainInv E.P bc1 mem1 (addrs ++ [mem.blocks.length]) (cs ++ [c1]) := by
  have hlen := chain_length _ _ _ hinv.chain
  have hne : addrs ≠ [] := by
    obtain ⟨r, hr⟩ := hinv.genesis
    intro h
    subst h
    cases cs with
    | nil => simp at hr
    | cons c cs => simp at hlen
  obtain ⟨addrs0, t, rfl⟩ : ∃ l t, addrs = l ++ [t] :=
    ⟨addrs.dropLast, addrs.getLast hne, (List.dropLast_append_getLast hne).symm⟩
  obtain ⟨cs0, c, tb, n, rfl, htb, hnone, hprev, htree, hroot⟩ :=
    chain_last _ t addrs0 cs hinv.chain
  have htail : bc.tail = some t := by rw [hinv.tail]; simp
  obtain ⟨k, hk⟩ := create_block_ok hP hA bc mem t tb n s txs now htail htb htree hcount
  refine ⟨_, _, (link_hash E.P tb.prev_block_hash n.hash, hash_of E.P (s.take (strlen s))),
    hk, ?_⟩
  have hlt := chain_mem_lt _ _ _ hinv.chain
  refine ⟨?_, ?_, ?_, ?_, ?_, ?_, ?_⟩
  · have := chain_append mem.blocks t tb (appended_block E.P tb n s now) _
      (link_hash E.P tb.prev_block_hash n.hash, hash_of E.P (s.take (strlen s)))
      htb hnone rfl rfl rfl rfl addrs0 _ hinv.chain
    simpa using this
  · rw [List.nodup_append]
    refine ⟨hinv.nodup, by simp, ?_⟩
    intro a ha hb
    have h1 := hlt a ha
    simp at hb
    omega
  · simp only [hinv.head]
    cases addrs0 <;> simp
  · simp
  · simp only [hinv.count]
    simp only [List.length_append, List.length_singleton]
    push_cast
    ring
  · apply links_ok_append _ c _ _ cs0 hinv.links
    simp [hprev, hroot]
  · obtain ⟨r, hr⟩ := hinv.genesis
    refine ⟨r, ?_⟩
    cases cs0 <;> simpa using hr

theorem append_blocks_inv {E : Env} (hP : E.P.ok) (hA : E.alloc_ok) :
    ∀ (calls : List (List (List Nat) × Int)) (bc : Blockchain) (mem : Mem) (addrs : List Nat)
      (cs : List (Digest × Digest)), ChainInv E.P bc mem addrs cs →
      (∀ c ∈ calls, c.1 ≠ []) → bc.count + calls.length ≤ INT_MAX →
      ∃ bc1 mem1 addrs1 cs1, append_blocks E calls bc mem = .ok (bc1, mem1) ∧
        ChainInv E.P bc1 mem1 (addrs ++ addrs1) (cs ++ cs1) ∧
        addrs1.length = calls.length := by
  intro calls
  induction calls with
  | nil =>
    intro bc mem addrs cs hinv _ _
    exact ⟨bc, mem, [], [], rfl, by simpa using hinv, rfl⟩
  | cons c rest ih =>
    intro bc mem addrs cs hinv hne hcount
    obtain ⟨txs, now⟩ := c
    have htxs : txs ≠ [] := hne (txs, now) (by simp)
    obtain ⟨s, txs, rfl⟩ : ∃ s l, txs = s :: l := by
      cases txs with
      | nil => exact absurd rfl htxs
      | cons s l => exact ⟨s, l, rfl⟩
    simp only [List.length_cons] at hcount
    push_cast at hcount
    obtain ⟨bc1, mem1, c1, hk, hinv1⟩ := create_block_inv hP hA bc mem addrs cs s txs now hinv
      (by omega)
    have hc1 : bc1.count = bc.count + 1 := by
      rw [hinv1.count, hinv.count]; simp
    obtain ⟨bc2, mem2, addrs2, cs2, hk2, hinv2, hlen2⟩ := ih bc1 mem1 _ _ hinv1
      (fun c hc => hne c (by simp [hc])) (by omega)
    refine ⟨bc2, mem2, mem.blocks.length :: addrs2, c1 :: cs2, ?_, ?_, by simp [hlen2]⟩
    · simp only [append_blocks, hk, hk2]
    · simpa using hinv2

theorem build_chain_inv {E : Env} (hP : E.P.ok) (hA : E.alloc_ok) (now : Int)
    (calls : List (List (List Nat) × Int)) (bc : Blockchain) (mem : Mem)
    (hne : ∀ c ∈ calls, c.1 ≠ []) (hN : (calls.length : Int) < INT_MAX) :
    ∃ bc1 mem1 addrs cs, build_chain E now calls bc mem = .ok (bc1, mem1) ∧
      ChainInv E.P bc1 mem1 addrs cs ∧ addrs.length = calls.length + 1 := by
  obtain ⟨bc0, mem0, h0, hinv0⟩ := create_blockchain_inv hP hA bc now mem
  have hc0 : bc0.count = 1 := by rw [hinv0.count]; simp
  obtain ⟨bc1, mem1, addrs1, cs1, h1, hinv1, hlen1⟩ := append_blocks_inv hP hA calls bc0 mem0
    _ _ hinv0 hne (by rw [hc0]; omega)
  refine ⟨bc1, mem1, _, _, ?_, hinv1, by simp [hlen1]⟩
  simp only [build_chain, h0, h1]

/-! ## Chain engine: tampering with a block -/

theorem chain_congr (blocks blocks1 : List Block) :
    ∀ (addrs : List Nat) (cs : List (Digest × Digest)),
      (∀ a ∈ addrs, blocks1[a]? = blocks[a]?) → Chain blocks addrs cs → Chain blocks1 addrs cs := by
  intro addrs
  induction addrs with
  | nil => intro cs _ h; cases cs with
    | nil => trivial
    | cons c cs => exact absurd h (by simp [Chain])
  | cons a rest ih => intro cs heq h; cases cs with
    | nil => exact absurd h (by simp [Chain])
    | cons c cs =>
      obtain ⟨⟨b, n, hb, hrest⟩, h2⟩ := h
      exact ⟨⟨b, n, by rw [heq a (by simp)]; exact hb, hrest⟩,
        ih cs (fun x hx => heq x (by simp [hx])) h2⟩

/-- Overwriting the previous hash of the block at position `j` of a chain
changes entry `j` of its content and nothing else. -/
theorem chain_set_prev (blocks : List Block) (d : Digest) :
    ∀ (addrs : List Nat) (cs : List (Digest × Digest)) (j a : Nat) (b : Block),
      Chain blocks addrs cs → addrs.Nodup → addrs[j]? = some a → blocks[a]? = some b →
      ∃ c, cs[j]? = some c ∧ c.1 = b.prev_block_hash ∧
        Chain (blocks.set a { b with prev_block_hash := d }) addrs (cs.set j (d, c.2)) := by
  intro addrs
  induction addrs with
  | nil => intro cs j a b _ _ hj _; simp at hj
  | cons a0 rest ih =>
    intro cs j a b h hnd hj hb
    match cs, h with
    | c :: cs, ⟨⟨b0, n, hb0, hnext, hprev, htree, hroot⟩, h2⟩ =>
      have hnd' := List.nodup_cons.mp hnd
      cases j with
      | zero =>
        simp only [List.getElem?_cons_zero, Option.some.injEq] at hj
        subst hj
        have hbb : b0 = b := by rw [hb] at hb0; exact (Option.some.inj hb0).symm
        subst hbb
        have ha : a0 < blocks.length := lt_of_getElem?_eq_some hb
        refine ⟨c, by simp, hprev.symm, ⟨_, n, List.getElem?_set_self ha, hnext, rfl, htree, hroot⟩, ?_⟩
        apply chain_congr blocks _ rest cs _ h2
        intro x hx
        have hne : a0 ≠ x := fun h => hnd'.1 (h ▸ hx)
        exact List.getElem?_set_ne hne
      | succ j =>
        simp only [List.getElem?_cons_succ] at hj
        have hmem : a ∈ rest := List.mem_iff_getElem?.mpr ⟨j, hj⟩
        have hne : a ≠ a0 := fun h => hnd'.1 (h ▸ hmem)
        obtain ⟨c1, hc1, hc1p, hch⟩ := ih cs j a b h2 hnd'.2 hj hb
        refine ⟨c1, by simpa using hc1, hc1p, ⟨b0, n, ?_, hnext, hprev, htree, hroot⟩, ?_⟩
        · rw [List.getElem?_set_ne hne]; exact hb0
        · simpa using hch

theorem nth_block_chain (blocks : List Block) :
    ∀ (addrs : List Nat) (cs : List (Digest × Digest)) (j : Nat), Chain blocks addrs cs →
      nth_block blocks j addrs.head? = addrs[j]? := by
  intro addrs
  induction addrs with
  | nil => intro cs j _; simp [nth_block]
  | cons a rest ih =>
    intro cs j h
    match cs, h with
    | c :: cs, ⟨⟨b, n, hb, hnext, _⟩, h2⟩ =>
      cases j with
      | zero => simp [nth_block]
      | succ j =>
        simp only [List.head?_cons, nth_block, hb, hnext, List.getElem?_cons_succ]
        exact ih cs j h2

theorem links_ok_false (P : Provider) :
    ∀ (cs : List (Digest × Digest)) (i : Nat) (c c1 : Digest × Digest),
      cs[i]? = some c → cs[i + 1]? = some c1 → c1.1.bytes ≠ (link_hash P c.1 c.2).bytes →
      links_ok P cs = false := by
  intro cs
  induction cs with
  | nil => intro i c c1 h; simp at h
  | cons x rest ih =>
    intro i c c1 h h1 hne
    cases rest with
    | nil => simp at h1
    | cons y rest =>
      cases i with
      | zero =>
        simp only [List.getElem?_cons_zero, List.getElem?_cons_succ, Option.some.injEq] at h h1
        subst h; subst h1
        simp [links_ok, hne]
      | succ i =>
        simp only [List.getElem?_cons_succ] at h h1
        have := ih i c c1 (by simpa using h) (by simpa using h1) hne
        simp [links_ok, this]

theorem links_ok_true (P : Provider) :
    ∀ (cs : List (Digest × Digest)) (i : Nat) (c c1 : Digest × Digest),
      links_ok P cs = true → cs[i]? = some c → cs[i + 1]? = some c1 →
      c1.1.bytes = (link_hash P c.1 c.2).bytes := by
  intro cs
  induction cs with
  | nil => intro i c c1 _ h; simp at h
  | cons x rest ih =>
    intro i c c1 hok h h1
    cases rest with
    | nil => simp at h1
    | cons y rest =>
      simp only [links_ok, Bool.and_eq_true, decide_eq_true_eq] at hok
      cases i with
      | zero =>
        simp only [List.getElem?_cons_zero, List.getElem?_cons_succ, Option.some.injEq] at h h1
        subst h; subst h1
        exact hok.1
      | succ i =>
        simp only [List.getElem?_cons_succ] at h h1
        exact ih i c c1 hok.2 (by simpa using h) (by simpa using h1)

theorem Digest.set_byte_ne (d : Digest) (i v : Nat) (hi : i < 64) (hv : d.bytes[i]? ≠ some v) :
    (d.set_byte i v).bytes ≠ d.bytes := by
  intro h
  apply hv
  rw [← h]
  simp [Digest.set_byte, d.size, hi]

theorem tamper_eq (mem : Mem) (a i v : Nat) (b : Block) (hb : mem.blocks[a]? = some b) :
    tamper mem a i v =
      ⟨mem.blocks.set a { b with prev_block_hash := b.prev_block_hash.set_byte i v },
        mem.mallocs⟩ := by
  simp [tamper, hb]

theorem chain_get (blocks : List Block) :
    ∀ (addrs : List Nat) (cs : List (Digest × Digest)) (j a : Nat), Chain blocks addrs cs →
      addrs[j]? = some a →
      ∃ b n c, blocks[a]? = some b ∧ cs[j]? = some c ∧ b.prev_block_hash = c.1 ∧
        b.merkletree = some ⟨some n⟩ ∧ n.hash = c.2 := by
  intro addrs
  induction addrs with
  | nil => intro cs j a _ hj; simp at hj
  | cons a0 rest ih =>
    intro cs j a h hj
    match cs, h with
    | c :: cs, ⟨⟨b0, n, hb0, _, hprev, htree, hroot⟩, h2⟩ =>
      cases j with
      | zero =>
        simp only [List.getElem?_cons_zero, Option.some.injEq] at hj
        subst hj
        exact ⟨b0, n, c, hb0, by simp, hprev, htree, hroot⟩
      | succ j =>
        simp only [List.getElem?_cons_succ] at hj
        obtain ⟨b, n1, c1, h1, h2', h3⟩ := ih cs j a h2 hj
        exact ⟨b, n1, c1, h1, by simpa using h2', h3⟩

theorem calculate_block_hash_blocks (E : Env) (mem : Mem) (p : Option Nat) (dv : Digest)
    (dl : Nat) (d : Digest) (len : Nat) (mem1 : Mem)
    (h : calculate_block_hash E mem p dv dl = .ok (d, len, mem1)) :
    mem1.blocks = mem.blocks ∧ ∃ t tb, p = some t ∧ mem.blocks[t]? = some tb := by
  unfold calculate_block_hash at h
  cases p with
  | none => simp [Mem.deref] at h
  | some t =>
    cases hb : mem.blocks[t]? with
    | none => simp [Mem.deref, hb] at h
    | some tb =>
      refine ⟨?_, t, tb, rfl, hb⟩
      simp only [Mem.deref, hb] at h
      split at h
      · exact absurd h (by simp)
      · split at h
        · exact absurd h (by simp)
        · split at h
          · simp only [Except.ok.injEq, Prod.mk.injEq] at h
            rw [← h.2.2]
          · simp only [Except.ok.injEq, Prod.mk.injEq] at h
            rw [← h.2.2]

/-! ## Chain engine: what a call changes, in any environment -/

/-- What `create_blockchain` returns in any environment when the genesis block
is allocated. -/
theorem create_blockchain_heap (E : Env) (bc : Blockchain) (now : Int) (mem : Mem)
    (bc1 : Blockchain) (mem1 : Mem) (hA : E.alloc mem.mallocs = true)
    (h : create_blockchain E bc now mem = .ok (bc1, mem1)) :
    ∃ tree, bc1 = ⟨some mem.blocks.length, some mem.blocks.length, 1⟩ ∧
      mem1.blocks = mem.blocks ++ [⟨none, Digest.zero, now, tree⟩] := by
  unfold create_blockchain at h
  simp only [hA, Bool.true_eq_false, if_false] at h
  cases htr : create_tree E
      [(compute_hash E.P (genesis_data.take (strlen genesis_data)) E.uninit
        E.uninit_len).digest_value] 1 (mem.mallocs + 1) with
  | error e => simp [htr] at h
  | ok r =>
    obtain ⟨tree, k⟩ := r
    simp only [htr, Except.ok.injEq, Prod.mk.injEq] at h
    obtain ⟨rfl, rfl⟩ := h
    exact ⟨tree, rfl, rfl⟩

/-- What `create_block` returns in any environment: either no block, and the
chain and the heap are as before, or a block at the first free address, linked
after the old tail. -/
theorem create_block_heap (E : Env) (bc : Blockchain) (txs : List (List Nat)) (num : Nat)
    (now : Int) (mem : Mem) (r : Option Nat) (bc1 : Blockchain) (mem1 : Mem)
    (h : create_block E bc txs num now mem = .ok (r, bc1, mem1)) :
    (r = none ∧ bc1 = bc ∧ mem1.blocks = mem.blocks) ∨
    ∃ t tb b, r = some mem.blocks.length ∧ bc.tail = some t ∧ mem.blocks[t]? = some tb ∧
      b.next_block = none ∧
      mem1.blocks = mem.blocks.set t { tb with next_block := some mem.blocks.length } ++ [b] ∧
      bc1 = ⟨bc.head, some mem.blocks.length, bc.count + 1⟩ := by
  unfold create_block at h
  by_cases hA0 : E.alloc mem.mallocs = false
  · simp only [hA0, if_true, Except.ok.injEq, Prod.mk.injEq] at h
    obtain ⟨rfl, rfl, rfl⟩ := h
    exact Or.inl ⟨rfl, rfl, rfl⟩
  · simp only [hA0, if_false] at h
    cases hcalc : calculate_block_hash E { mem with mallocs := mem.mallocs + 1 } bc.tail
        E.uninit E.uninit_len with
    | error e => simp [hcalc] at h
    | ok r0 =>
      obtain ⟨hash, hash_size, mem2⟩ := r0
      obtain ⟨hblocks, t, tb, htail, htb⟩ := calculate_block_hash_blocks _ _ _ _ _ _ _ _ hcalc
      simp only [hcalc] at h
      by_cases hA1 : E.alloc mem2.mallocs = false
      · simp only [hA1, if_true, Except.ok.injEq, Prod.mk.injEq] at h
        obtain ⟨rfl, rfl, rfl⟩ := h
        exact Or.inl ⟨rfl, rfl, hblocks⟩
      · simp only [hA1, if_false] at h
        cases hhs : create_block_hashes E txs num 0 [] hash_size (mem2.mallocs + 1) with
        | error e => simp [hhs] at h
        | ok r2 =>
          obtain ⟨ths, k3⟩ := r2
          cases ths with
          | none =>
            simp only [hhs, Except.ok.injEq, Prod.mk.injEq] at h
            obtain ⟨rfl, rfl, rfl⟩ := h
            exact Or.inl ⟨rfl, rfl, hblocks⟩
          | some ths =>
            simp only [hhs] at h
            cases htr : create_tree E ths num k3 with
            | error e => simp [htr] at h
            | ok r3 =>
              obtain ⟨tree, k4⟩ := r3
              simp only [htr, htail, hblocks] at h
              simp only [show mem.blocks[t]? = some tb from htb] at h
              by_cases hc : bc.count = INT_MAX
              · simp [hc] at h
              · simp only [hc, if_false, Except.ok.injEq, Prod.mk.injEq] at h
                obtain ⟨rfl, rfl, rfl⟩ := h
                exact Or.inr ⟨t, tb, ⟨none, hash, now, tree⟩, rfl, htail, htb, rfl, rfl, rfl⟩

/-- A block that was in the heap before an append is there afterwards with the
same content; only the old tail's `next_block` differs. -/
theorem heap_get_frame (blocks : List Block) (t a : Nat) (tb b y : Block) (nx : Option Nat)
    (htb : blocks[t]? = some tb) (hb : blocks[a]? = some b) :
    ∃ b1, (blocks.set t { tb with next_block := nx } ++ [y])[a]? = some b1 ∧
      b1.prev_block_hash = b.prev_block_hash ∧ b1.timestamp = b.timestamp ∧
      b1.merkletree = b.merkletree ∧ (a ≠ t → b1 = b) := by
  have ha : a < blocks.length := lt_of_getElem?_eq_some hb
  by_cases hat : a = t
  · subst hat
    have hbt : tb = b := by rw [htb] at hb; exact Option.some.inj hb
    subst hbt
    exact ⟨_, heap_get_tail blocks a _ y ha, rfl, rfl, rfl, fun h => absurd rfl h⟩
  · exact ⟨b, by rw [heap_get_old blocks t a _ y ha hat]; exact hb, rfl, rfl, rfl, fun _ => rfl⟩

theorem linked_mem_lt (blocks : List Block) :
    ∀ (addrs : List Nat), Linked blocks addrs → ∀ a ∈ addrs, a < blocks.length := by
  intro addrs
  induction addrs with
  | nil => intro _ a ha; exact absurd ha (by simp)
  | cons a0 rest ih =>
    intro h a ha
    obtain ⟨⟨b, hb, _⟩, h2⟩ := h
    rcases List.mem_cons.mp ha with rfl | hmem
    · exact lt_of_getElem?_eq_some hb
    · exact ih h2 a hmem

theorem linked_last (blocks : List Block) (t : Nat) :
    ∀ (addrs : List Nat), Linked blocks (addrs ++ [t]) →
      ∃ tb, blocks[t]? = some tb ∧ tb.next_block = none := by
  intro addrs
  induction addrs with
  | nil =>
    intro h
    obtain ⟨⟨b, hb, hnext⟩, _⟩ := h
    exact ⟨b, hb, by simpa using hnext⟩
  | cons a rest ih =>
    intro h
    exact ih h.2

theorem linked_append (blocks : List Block) (t : Nat) (tb y : Block)
    (htb : blocks[t]? = some tb) (hy : y.next_block = none) :
    ∀ (addrs : List Nat), Linked blocks (addrs ++ [t]) →
      Linked (blocks.set t { tb with next_block := some blocks.length } ++ [y])
        (addrs ++ [t, blocks.length]) := by
  have ht : t < blocks.length := lt_of_getElem?_eq_some htb
  intro addrs
  induction addrs with
  | nil =>
    intro _
    exact ⟨⟨_, heap_get_tail blocks t _ y ht, by simp⟩,
      ⟨y, heap_get_new blocks t _ y, by simpa using hy⟩, trivial⟩
  | cons a rest ih =>
    intro h
    obtain ⟨⟨b, hb, hnext⟩, h2⟩ := h
    obtain ⟨tb1, htb1, hnone⟩ := linked_last blocks t rest h2
    have hne : a ≠ t := by
      intro hat
      subst hat
      rw [htb1] at hb
      have hbt : tb1 = b := Option.some.inj hb
      subst hbt
      rw [hnone] at hnext
      cases rest <;> simp at hnext
    refine ⟨⟨b, ?_, ?_⟩, ih h2⟩
    · rw [heap_get_old blocks t a _ y (lt_of_getElem?_eq_some hb) hne]; exact hb
    · rw [hnext]; cases rest <;> simp

theorem nth_block_linked (blocks : List Block) :
    ∀ (addrs : List Nat) (j : Nat), Linked blocks addrs →
      nth_block blocks j addrs.head? = addrs[j]? := by
  intro addrs
  induction addrs with
  | nil => intro j _; simp [nth_block]
  | cons a rest ih =>
    intro j h
    obtain ⟨⟨b, hb, hnext⟩, h2⟩ := h
    cases j with
    | zero => simp [nth_block]
    | succ j =>
      simp only [List.head?_cons, nth_block, hb, hnext, List.getElem?_cons_succ]
      exact ih j h2

/-- Every state reached through the interface has the link structure of a
chain of `n + 1` blocks. -/
theorem reached_link_inv (E : Env) (n : Nat) (bc : Blockchain) (mem : Mem)
    (h : Reached E n bc mem) : ∃ addrs, LinkInv bc mem addrs ∧ addrs.length = n + 1 := by
  induction h with
  | genesis bc0 now mem0 bc mem hA hcb =>
    obtain ⟨tree, rfl, hblocks⟩ := create_blockchain_heap E bc0 now mem0 bc mem hA hcb
    refine ⟨[mem0.blocks.length], ⟨?_, by simp, rfl, rfl, by simp, ?_⟩, rfl⟩
    · exact ⟨⟨⟨none, Digest.zero, now, tree⟩, by rw [hblocks]; simp, rfl⟩, trivial⟩
    · exact ⟨_, ⟨none, Digest.zero, now, tree⟩, rfl, by rw [hblocks]; simp, rfl⟩
  | append n bc mem txs num now nb bc1 mem1 _ hcb ih =>
    obtain ⟨addrs, hinv, hlen⟩ := ih
    rcases create_block_heap E bc txs num now mem (some nb) bc1 mem1 hcb with
      ⟨hnone, _⟩ | ⟨t, tb, b, _, htail, htb, hb, hblocks, rfl⟩
    · exact absurd hnone (by simp)
    · have hne : addrs ≠ [] := by
        intro h0
        subst h0
        simp at hlen
      obtain ⟨addrs0, t0, rfl⟩ : ∃ l t, addrs = l ++ [t] :=
        ⟨addrs.dropLast, addrs.getLast hne, (List.dropLast_append_getLast hne).symm⟩
      have ht0 : t0 = t := by
        have := hinv.tail
        rw [htail] at this
        simpa using this.symm
      subst ht0
      have hlt := linked_mem_lt _ _ hinv.linked
      refine ⟨addrs0 ++ [t0] ++ [mem.blocks.length], ⟨?_, ?_, ?_, ?_, ?_, ?_⟩,
        by simp at hlen ⊢; omega⟩
      · rw [hblocks]
        simpa using linked_append mem.blocks t0 tb b htb hb addrs0 hinv.linked
      · rw [List.nodup_append]
        refine ⟨hinv.nodup, by simp, ?_⟩
        intro a ha hb1
        have h1 := hlt a ha
        simp at hb1
        omega
      · simp only [hinv.head]
        cases addrs0 <;> simp
      · simp
      · simp only [hinv.count, List.length_append, List.length_singleton]
        push_cast
        ring
      · obtain ⟨g, gb, hg, hgb, hz⟩ := hinv.genesis
        obtain ⟨b1, hb1, hp, _⟩ := heap_get_frame mem.blocks t0 g tb gb b
          (some mem.blocks.length) htb hgb
        refine ⟨g, b1, ?_, by rw [hblocks]; exact hb1, by rw [hp, hz]⟩
        cases addrs0 <;> simpa using hg

/-- In any environment, `validate_block` on two present blocks returns the
comparison of the stored previous hash with the buffer `calculate_block_hash`
leaves. -/
theorem validate_block_eq_decide (E : Env) (mem : Mem) (a p : Nat) (b : Block) (d : Digest)
    (len : Nat) (mem1 : Mem) (hb : mem.blocks[a]? = some b)
    (hcalc : calculate_block_hash E mem (some p) E.uninit E.uninit_len = .ok (d, len, mem1)) :
    validate_block E mem (some a) (some p) =
      .ok (decide (b.prev_block_hash.bytes = d.bytes), mem1) := by
  have hblocks := (calculate_block_hash_blocks _ _ _ _ _ _ _ _ hcalc).1
  have hb1 : mem1.blocks[a]? = some b := by rw [hblocks]; exact hb
  simp [validate_block, hcalc, Mem.deref, hb1]

theorem links_ok_of_pairs (P : Provider) :
    ∀ (cs : List (Digest × Digest)),
      (∀ i c c1, cs[i]? = some c → cs[i + 1]? = some c1 →
        c1.1.bytes = (link_hash P c.1 c.2).bytes) → links_ok P cs = true := by
  intro cs
  induction cs with
  | nil => intro _; rfl
  | cons x rest ih =>
    intro h
    cases rest with
    | nil => rfl
    | cons y rest =>
      simp only [links_ok, Bool.and_eq_true, decide_eq_true_eq]
      refine ⟨h 0 x y (by simp) (by simp), ih ?_⟩
      intro i c c1 hc hc1
      exact h (i + 1) c c1 (by simpa using hc) (by simpa using hc1)

/-- The digest and length `calculate_block_hash` writes depend only on the
block's previous hash and root digest (and on the environment). -/
theorem calculate_block_hash_congr (E : Env) (blocks blocks1 : List Block) (k k1 : Nat)
    (a a1 : Nat) (b b1 : Block) (dv : Digest) (dl : Nat)
    (hb : blocks[a]? = some b) (hb1 : blocks1[a1]? = some b1) (hk : E.alloc k1 = E.alloc k)
    (hprev : b1.prev_block_hash = b.prev_block_hash)
    (hroot : (b1.merkletree.map fun t => t.root.map Node.hash) =
      (b.merkletree.map fun t => t.root.map Node.hash)) :
    (calculate_block_hash E ⟨blocks1, k1⟩ (some a1) dv dl).map (fun x => (x.1, x.2.1)) =
      (calculate_block_hash E ⟨blocks, k⟩ (some a) dv dl).map (fun x => (x.1, x.2.1)) := by
  simp only [calculate_block_hash, Mem.deref, hb, hb1, hprev, hk]
  cases ht : b.merkletree with
  | none =>
    cases ht1 : b1.merkletree with
    | none => rfl
    | some t1 => simp [ht, ht1] at hroot
  | some t =>
    cases ht1 : b1.merkletree with
    | none => simp [ht, ht1] at hroot
    | some t1 =>
      simp only [ht, ht1, Option.map_some', Option.some.injEq] at hroot
      cases hr : t.root with
      | none =>
        cases hr1 : t1.root with
        | none => simp [hr, hr1, Except.map]
        | some n1 => simp [hr, hr1] at hroot
      | some n =>
        cases hr1 : t1.root with
        | none => simp [hr, hr1] at hroot
        | some n1 =>
          simp only [hr, hr1, Option.map_some', Option.some.injEq] at hroot
          by_cases hA : E.alloc k = false
          · simp [hr, hr1, hroot, hA, Except.map]
          · simp [hr, hr1, hroot, hA, Except.map]

/-! ## Merkle tree builder: any environment -/

theorem create_tree_leaves_prefix (E : Env) (ths : List Digest) :
    ∀ (rem i : Nat) (ns : List (Option Node)) (k : Nat) (r : Option (List (Option Node)))
      (k1 : Nat), create_tree_leaves E ths rem i (some ns) k = .ok (r, k1) →
      ∃ ms, r = some (ns ++ ms) := by
  intro rem
  induction rem with
  | zero =>
    intro i ns k r k1 h
    simp only [create_tree_leaves, Except.ok.injEq, Prod.mk.injEq] at h
    exact ⟨[], by simp [h.1.symm]⟩
  | succ rem ih =>
    intro i ns k r k1 h
    rw [create_tree_leaves] at h
    cases hg : ths[i]? with
    | none => simp [hg] at h
    | some a =>
      simp only [hg] at h
      obtain ⟨ms, hms⟩ := ih _ _ _ _ _ h
      exact ⟨(create_node E a k).1 :: ms, by simp [hms]⟩

/-- What `create_tree` returns in any environment: no tree when the tree is
not allocated, else a tree whose root is the node `create_node` made for the
first digest (absent when that allocation failed). -/
theorem create_tree_inv (E : Env) (ths : List Digest) (n k : Nat) (tree : Option MerkleTree)
    (k1 : Nat) (h : create_tree E ths n k = .ok (tree, k1)) :
    (tree = none ∧ E.alloc k = false) ∨
    ∃ a, ths[0]? = some a ∧ E.alloc k = true ∧ tree = some ⟨(create_node E a (k + 2)).1⟩ := by
  unfold create_tree at h
  by_cases hA : E.alloc k = false
  · simp only [hA, if_true, Except.ok.injEq, Prod.mk.injEq] at h
    exact Or.inl ⟨h.1.symm, hA⟩
  · simp only [hA, if_false] at h
    right
    cases n with
    | zero =>
      by_cases hA1 : E.alloc (k + 1) = true <;>
        simp [hA1, create_tree_leaves, create_tree_loop] at h
    | succ n =>
      by_cases hA1 : E.alloc (k + 1) = true
      · simp only [hA1, if_true] at h
        rw [create_tree_leaves] at h
        cases hg : ths[0]? with
        | none => simp [hg] at h
        | some a =>
          simp only [hg, List.nil_append] at h
          cases hl : create_tree_leaves E ths n (0 + 1) (some [(create_node E a (k + 2)).1])
              (create_node E a (k + 2)).2 with
          | error e => simp [hl] at h
          | ok r =>
            obtain ⟨r1, r2⟩ := r
            obtain ⟨ms, rfl⟩ := create_tree_leaves_prefix E ths _ _ _ _ _ _ hl
            simp only [hl] at h
            simp only [List.singleton_append, List.getElem?_cons_zero] at h
            cases hloop : create_tree_loop E ((create_node E a (k + 2)).1 :: ms) (n + 1) (n + 1)
                r2 with
            | error e => simp [hloop] at h
            | ok k2 =>
              simp only [hloop, Bool.true_eq_false, if_false, Except.ok.injEq, Prod.mk.injEq] at h
              exact ⟨a, rfl, by simpa using hA, h.1.symm⟩
      · simp only [hA1] at h
        rw [create_tree_leaves] at h
        cases hg : ths[0]? with
        | none => simp [hg] at h
        | some a => simp [hg] at h

theorem create_tree_level_defined (E : Env) (nodes : List (Option Node)) (num : Nat)
    (hnum : num ≤ nodes.length) :
    ∀ (rem i : Nat) (nn : Option (List (Option Node))) (k : Nat), i + rem < num →
      (∃ r, create_tree_level E nodes num rem i nn k = .ok r) ∨
        create_tree_level E nodes num rem i nn k = .error .null_deref := by
  intro rem
  induction rem with
  | zero => intro i nn k _; exact Or.inl ⟨_, rfl⟩
  | succ rem ih =>
    intro i nn k hlt
    have hc : i + 1 < num := by omega
    have h1 : nodes[i]? = some nodes[i] := List.getElem?_eq_getElem (by omega)
    have h2 : nodes[i + 1]? = some nodes[i + 1] := List.getElem?_eq_getElem (by omega)
    rw [create_tree_level]
    simp only [hc, if_true, h1, h2]
    cases nodes[i] with
    | none => exact Or.inr rfl
    | some n1 =>
      cases nodes[i + 1] with
      | none => exact Or.inr rfl
      | some n2 =>
        cases nn with
        | none => exact Or.inr rfl
        | some ns => exact ih (i + 1) _ _ (by omega)

theorem create_tree_loop_defined (E : Env) (nodes : List (Option Node)) :
    ∀ (fuel num k : Nat), num ≤ fuel → num ≤ nodes.length →
      (∃ k1, create_tree_loop E nodes fuel num k = .ok k1) ∨
        create_tree_loop E nodes fuel num k = .error .null_deref := by
  intro fuel
  induction fuel with
  | zero =>
    intro num k hle _
    have : ¬ num > 1 := by omega
    exact Or.inl ⟨k, by simp [create_tree_loop, this]⟩
  | succ fuel ih =>
    intro num k hle hlen
    by_cases hn : num > 1
    · rw [create_tree_loop]
      simp only [hn, if_true]
      rcases create_tree_level_defined E nodes num hlen ((num + 1) / 2) 0
        (if E.alloc k then some [] else none) (k + 1) (by omega) with ⟨r, hr⟩ | hr
      · simp only [hr]
        exact ih ((num + 1) / 2) r.2 (by omega) (by omega)
      · right
        simp only [hr]
    · exact Or.inl ⟨k, by simp [create_tree_loop, hn]⟩



theorem create_tree_level_leaves {E : Env} (hA : E.alloc_ok) (ths : List Digest) (num : Nat)
    (hnum : num ≤ ths.length) :
    ∀ (rem i : Nat) (ns : List (Option Node)) (k : Nat), i + rem < num →
      create_tree_level E (leaf_nodes ths) num rem i (some ns) k =
        .ok (some (ns ++ ((pair_nodes E ths).drop i).take rem), k + rem) := by
  intro rem
  induction rem with
  | zero => intro i ns k _; simp [create_tree_level]
  | succ rem ih =>
    intro i ns k hlt
    have hc : i + 1 < num := by omega
    have hi : i < ths.length := by omega
    have hi1 : i + 1 < ths.length := by omega
    have h1 : (leaf_nodes ths)[i]? = some (some (Node.mk ths[i] none none)) := by
      simp [leaf_nodes, List.getElem?_eq_getElem hi]
    have h2 : (leaf_nodes ths)[i + 1]? = some (some (Node.mk ths[i + 1] none none)) := by
      simp [leaf_nodes, List.getElem?_eq_getElem hi1]
    have hlen : i < (pair_nodes E ths).length := by
      simp [pair_nodes]; omega
    have hdrop := List.drop_eq_getElem_cons hlen
    have hget : (pair_nodes E ths)[i] =
        some (Node.mk (combine_hashes E ths[i] ths[i + 1] E.uninit) none none) := by
      simp [pair_nodes, Nat.add_comm]
    rw [create_tree_level]
    simp only [hc, if_true, h1, h2, create_node_ok hA, Node.hash]
    rw [ih (i + 1) _ (k + 1) (by omega), hdrop, hget, List.take_succ_cons,
      List.append_assoc, List.singleton_append, Nat.add_assoc, Nat.add_comm 1 rem]

theorem hex_bytes_length (l : List Nat) : (hex_bytes l).length = 2 * l.length := by
  induction l with
  | nil => rfl
  | cons v rest ih => simp [hex_bytes, hex_byte, ih]; omega

/-- In any environment the root of a tree `create_tree` returns is absent or
a childless node holding the first digest of the array. -/
theorem create_tree_root_any (E : Env) (ths : List Digest) (n k : Nat) (t : MerkleTree)
    (k1 : Nat) (h : create_tree E ths n k = .ok (some t, k1)) :
    t.root = none ∨ ∃ a, ths[0]? = some a ∧ t.root = some (Node.mk a none none) := by
  rcases create_tree_inv E ths n k _ k1 h with ⟨h0, _⟩ | ⟨a, ha, _, ht⟩
  · simp at h0
  · simp only [Option.some.injEq] at ht
    subst ht
    by_cases hA : E.alloc (k + 2) = true
    · exact Or.inr ⟨a, ha, by simp [create_node, hA]⟩
    · exact Or.inl (by simp [create_node, hA])

/-- In any environment, a pass of the inner loop of `create_tree` that returns
has called `create_node` (one `malloc`) in every iteration: no iteration took
the branch that copies `nodes[i]`. -/
theorem create_tree_level_mallocs (E : Env) (nodes : List (Option Node)) (num : Nat) :
    ∀ (rem i : Nat) (nn : Option (List (Option Node))) (k : Nat)
      (r : Option (List (Option Node)) × Nat), i + rem < num →
      create_tree_level E nodes num rem i nn k = .ok r → r.2 = k + rem := by
  intro rem
  induction rem with
  | zero =>
    intro i nn k r _ h
    simp only [create_tree_level, Except.ok.injEq] at h
    simp [← h]
  | succ rem ih =>
    intro i nn k r hlt h
    have hc : i + 1 < num := by omega
    rw [create_tree_level] at h
    simp only [hc, if_true] at h
    cases h1 : nodes[i]? with
    | none => simp [h1] at h
    | some o1 =>
      cases o1 with
      | none => simp [h1] at h
      | some n1 =>
        cases h2 : nodes[i + 1]? with
        | none => simp [h1, h2] at h
        | some o2 =>
          cases o2 with
          | none => simp [h1, h2] at h
          | some n2 =>
            cases nn with
            | none => simp [h1, h2] at h
            | some ns =>
              simp only [h1, h2] at h
              have := ih (i + 1) _ _ r (by omega) h
              simp only [create_node] at this
              split_ifs at this <;> omega

/-! ## Chain engine: the parts of an append -/

theorem take_strlen (s : List Nat) : s.take (strlen s) = s.takeWhile (fun c => c != 0) := by
  unfold strlen
  induction s with
  | nil => rfl
  | cons c rest ih =>
    by_cases hc : (c != 0) = true
    · simp [List.takeWhile_cons, hc, ih]
    · simp [List.takeWhile_cons, hc]

/-- The parts of a `create_block` call that returned a block, in any
environment: the link hash computed on the old tail, the transaction digests,
the tree built over them, and the new block at the first free address. -/
theorem create_block_parts (E : Env) (bc : Blockchain) (txs : List (List Nat)) (num : Nat)
    (now : Int) (mem : Mem) (nb : Nat) (bc1 : Blockchain) (mem1 : Mem)
    (h : create_block E bc txs num now mem = .ok (some nb, bc1, mem1)) :
    ∃ hash hs mem2 ths k3 tree,
      calculate_block_hash E { mem with mallocs := mem.mallocs + 1 } bc.tail E.uninit
        E.uninit_len = .ok (hash, hs, mem2) ∧
      create_block_hashes E txs num 0 [] hs (mem2.mallocs + 1) = .ok (some ths, k3) ∧
      create_tree E ths num k3 = .ok (tree, mem1.mallocs) ∧
      nb = mem.blocks.length ∧ mem1.blocks[nb]? = some ⟨none, hash, now, tree⟩ := by
  unfold create_block at h
  by_cases hA0 : E.alloc mem.mallocs = false
  · simp [hA0] at h
  · simp only [hA0, if_false] at h
    cases hcalc : calculate_block_hash E { mem with mallocs := mem.mallocs + 1 } bc.tail
        E.uninit E.uninit_len with
    | error e => simp [hcalc] at h
    | ok r0 =>
      obtain ⟨hash, hash_size, mem2⟩ := r0
      obtain ⟨hblocks, t, tb, htail, htb⟩ := calculate_block_hash_blocks _ _ _ _ _ _ _ _ hcalc
      simp only [hcalc] at h
      by_cases hA1 : E.alloc mem2.mallocs = false
      · simp [hA1] at h
      · simp only [hA1, if_false] at h
        cases hhs : create_block_hashes E txs num 0 [] hash_size (mem2.mallocs + 1) with
        | error e => simp [hhs] at h
        | ok r2 =>
          obtain ⟨ths, k3⟩ := r2
          cases ths with
          | none => simp [hhs] at h
          | some ths =>
            simp only [hhs] at h
            cases htr : create_tree E ths num k3 with
            | error e => simp [htr] at h
            | ok r3 =>
              obtain ⟨tree, k4⟩ := r3
              simp only [htr, htail, hblocks] at h
              simp only [show mem.blocks[t]? = some tb from htb] at h
              by_cases hc : bc.count = INT_MAX
              · simp [hc] at h
              · simp only [hc, if_false, Except.ok.injEq, Prod.mk.injEq, Option.some.injEq] at h
                obtain ⟨rfl, rfl, rfl⟩ := h
                exact ⟨hash, hash_size, mem2, ths, k3, tree, rfl, hhs, htr, rfl,
                  heap_get_new mem.blocks t _ _⟩

/-- The parts of a `create_blockchain` call whose genesis block is allocated. -/
theorem create_blockchain_parts (E : Env) (bc : Blockchain) (now : Int) (mem : Mem)
    (bc1 : Blockchain) (mem1 : Mem) (hA : E.alloc mem.mallocs = true)
    (h : create_blockchain E bc now mem = .ok (bc1, mem1)) :
    ∃ d tree, create_tree E [d] 1 (mem.mallocs + 1) = .ok (tree, mem1.mallocs) ∧
      bc1 = ⟨some mem.blocks.length, some mem.blocks.length, 1⟩ ∧
      mem1.blocks = mem.blocks ++ [⟨none, Digest.zero, now, tree⟩] := by
  unfold create_blockchain at h
  simp only [hA, Bool.true_eq_false, if_false] at h
  cases htr : create_tree E
      [(compute_hash E.P (genesis_data.take (strlen genesis_data)) E.uninit
        E.uninit_len).digest_value] 1 (mem.mallocs + 1) with
  | error e => simp [htr] at h
  | ok r =>
    obtain ⟨tree, k⟩ := r
    simp only [htr, Except.ok.injEq, Prod.mk.injEq] at h
    obtain ⟨rfl, rfl⟩ := h
    exact ⟨_, tree, htr, rfl, rfl⟩

/-- With a working provider, the digests `create_block` hands to `create_tree`
are the digests of the transaction strings, in input order. -/
theorem create_block_hashes_some {E : Env} (hP : E.P.ok) (txs : List (List Nat)) :
    ∀ (rem i : Nat) (ths : List Digest) (hs k : Nat) (r : List Digest) (k1 : Nat),
      i + rem ≤ txs.length → create_block_hashes E txs rem i ths hs k = .ok (some r, k1) →
      r = ths ++ ((txs.drop i).take rem).map (fun s => hash_of E.P (s.take (strlen s))) := by
  intro rem
  induction rem with
  | zero =>
    intro i ths hs k r k1 _ h
    simp only [create_block_hashes, Except.ok.injEq, Prod.mk.injEq, Option.some.injEq] at h
    simp [h.1.symm]
  | succ rem ih =>
    intro i ths hs k r k1 hle h
    have hi : i < txs.length := by omega
    have hget : txs[i]? = some txs[i] := List.getElem?_eq_getElem hi
    have hdrop : List.drop i txs = txs[i] :: List.drop (i + 1) txs :=
      List.drop_eq_getElem_cons hi
    rw [create_block_hashes] at h
    by_cases hA : E.alloc k = false
    · simp [hA] at h
    · simp only [hA, if_false, hget, compute_hash_ok hP] at h
      rw [ih (i + 1) _ 64 (k + 1) r k1 (by omega) h, hdrop, List.take_succ_cons, List.map_cons,
        List.append_assoc, List.singleton_append]

/-- With no allocation failure, the hashing loop of `create_block` returns one
digest for each transaction, whatever the provider does. -/
theorem create_block_hashes_alloc {E : Env} (hA : E.alloc_ok) (txs : List (List Nat)) :
    ∀ (rem i : Nat) (ths : List Digest) (hs k : Nat), i + rem ≤ txs.length →
      ∃ r, create_block_hashes E txs rem i ths hs k = .ok (some r, k + rem) ∧
        r.length = ths.length + rem := by
  intro rem
  induction rem with
  | zero => intro i ths hs k _; exact ⟨ths, by simp [create_block_hashes]⟩
  | succ rem ih =>
    intro i ths hs k hle
    have hi : i < txs.length := by omega
    have hget : txs[i]? = some txs[i] := List.getElem?_eq_getElem hi
    rw [create_block_hashes]
    simp only [hA k, Bool.true_eq_false, if_false, hget]
    obtain ⟨r, hr, hlen⟩ := ih (i + 1)
      (ths ++ [(compute_hash E.P (txs[i].take (strlen txs[i])) E.uninit hs).digest_value])
      (compute_hash E.P (txs[i].take (strlen txs[i])) E.uninit hs).digest_length (k + 1)
      (by omega)
    refine ⟨r, ?_, ?_⟩
    · rw [hr, Nat.add_assoc, Nat.add_comm 1 rem]
    · simp at hlen; omega

/-- On a block with a rooted tree `calculate_block_hash` returns, in any
environment. -/
theorem calculate_block_hash_defined (E : Env) (mem : Mem) (a : Nat) (b : Block) (n : Node)
    (dv : Digest) (dl : Nat) (hb : mem.blocks[a]? = some b)
    (ht : b.merkletree = some ⟨some n⟩) :
    ∃ d len k, calculate_block_hash E mem (some a) dv dl = .ok (d, len, ⟨mem.blocks, k⟩) := by
  by_cases hA : E.alloc mem.mallocs = false <;>
    simp [calculate_block_hash, Mem.deref, hb, ht, hA]

/-- With no allocation failure, `create_block` with at least one transaction
on a chain whose tail has a rooted tree returns a block, whatever the provider
does. -/
theorem create_block_returns {E : Env} (hA : E.alloc_ok) (bc : Blockchain) (mem : Mem)
    (t : Nat) (tb : Block) (n : Node) (s : List Nat) (txs : List (List Nat)) (now : Int)
    (htail : bc.tail = some t) (htb : mem.blocks[t]? = some tb)
    (htree : tb.merkletree = some ⟨some n⟩) (hcount : bc.count ≠ INT_MAX) :
    ∃ nb bc1 mem1, create_block E bc (s :: txs) (s :: txs).length now mem =
      .ok (some nb, bc1, mem1) := by
  obtain ⟨d, len, k, hcalc⟩ := calculate_block_hash_defined E
    { mem with mallocs := mem.mallocs + 1 } t tb n E.uninit E.uninit_len htb htree
  obtain ⟨r, hr, hlen⟩ := create_block_hashes_alloc hA (s :: txs) (s :: txs).length 0 [] len
    (k + 1) (by simp)
  match r, hlen with
  | a :: rest, hlen =>
    have hl : (a :: rest).length = (s :: txs).length := by simpa using hlen
    obtain ⟨k1, hk1⟩ := create_tree_ok hA a rest (k + 1 + (s :: txs).length)
    rw [hl] at hk1
    rw [create_block]
    simp only [hA mem.mallocs, Bool.true_eq_false, if_false, htail, hcalc, hA k, hr, hk1, htb,
      hcount]
    exact ⟨_, _, _, rfl⟩

/-! ## Chain engine: rooted chains -/

/-- An append keeps the link structure: the new block is added at the end of
the list of addresses. -/
theorem link_inv_append (bc : Blockchain) (mem mem1 : Mem) (addrs : List Nat) (t : Nat)
    (tb b : Block) (hinv : LinkInv bc mem addrs) (htail : bc.tail = some t)
    (htb : mem.blocks[t]? = some tb) (hb : b.next_block = none)
    (hblocks : mem1.blocks =
      mem.blocks.set t { tb with next_block := some mem.blocks.length } ++ [b]) :
    LinkInv ⟨bc.head, some mem.blocks.length, bc.count + 1⟩ mem1
      (addrs ++ [mem.blocks.length]) := by
  have hne : addrs ≠ [] := by
    obtain ⟨g, _, hg, _⟩ := hinv.genesis
    intro h0
    subst h0
    simp at hg
  obtain ⟨addrs0, t0, rfl⟩ : ∃ l t, addrs = l ++ [t] :=
    ⟨addrs.dropLast, addrs.getLast hne, (List.dropLast_append_getLast hne).symm⟩
  have ht0 : t0 = t := by
    have := hinv.tail
    rw [htail] at this
    simpa using this.symm
  subst ht0
  have hlt := linked_mem_lt _ _ hinv.linked
  refine ⟨?_, ?_, ?_, ?_, ?_, ?_⟩
  · rw [hblocks]
    simpa using linked_append mem.blocks t0 tb b htb hb addrs0 hinv.linked
  · rw [List.nodup_append]
    refine ⟨hinv.nodup, by simp, ?_⟩
    intro a ha hb1
    have h1 := hlt a ha
    simp at hb1
    omega
  · simp only [hinv.head]
    cases addrs0 <;> simp
  · simp
  · simp only [hinv.count, List.length_append, List.length_singleton]
    push_cast
    ring
  · obtain ⟨g, gb, hg, hgb, hz⟩ := hinv.genesis
    obtain ⟨b1, hb1, hp, _⟩ := heap_get_frame mem.blocks t0 g tb gb b
      (some mem.blocks.length) htb hgb
    refine ⟨g, b1, ?_, by rw [hblocks]; exact hb1, by rw [hp, hz]⟩
    cases addrs0 <;> simpa using hg

/-- An append of a block with a rooted tree keeps every block of the chain
rooted. -/
theorem rooted_append (blocks blocks1 : List Block) (addrs : List Nat) (t : Nat)
    (tb b : Block) (n : Node) (hr : Rooted blocks addrs) (htb : blocks[t]? = some tb)
    (hb : b.merkletree = some ⟨some n⟩)
    (hblocks : blocks1 = blocks.set t { tb with next_block := some blocks.length } ++ [b]) :
    Rooted blocks1 (addrs ++ [blocks.length]) := by
  intro a ha
  rcases List.mem_append.mp ha with h | h
  · obtain ⟨x, nx, hx, hxt⟩ := hr a h
    obtain ⟨x1, hx1, _, _, hm, _⟩ := heap_get_frame blocks t a tb x b (some blocks.length) htb hx
    exact ⟨x1, nx, by rw [hblocks]; exact hx1, by rw [hm, hxt]⟩
  · simp only [List.mem_singleton] at h
    subst h
    exact ⟨b, n, by rw [hblocks]; exact heap_get_new blocks t _ b, hb⟩

/-- With no allocation failure, a tree `create_tree` returns has a root. -/
theorem create_tree_rooted {E : Env} (hA : E.alloc_ok) (ths : List Digest) (n k : Nat)
    (tree : Option MerkleTree) (k1 : Nat) (h : create_tree E ths n k = .ok (tree, k1)) :
    ∃ a, ths[0]? = some a ∧ tree = some ⟨some (Node.mk a none none)⟩ := by
  rcases create_tree_inv E ths n k tree k1 h with ⟨_, h0⟩ | ⟨a, ha, _, ht⟩
  · rw [hA k] at h0
    exact absurd h0 (by simp)
  · exact ⟨a, ha, by rw [ht, create_node_ok hA]⟩

/-- With no allocation failure, every state reached through the interface has
the link structure of a chain of `n + 1` blocks that all have a rooted tree. -/
theorem reached_rooted {E : Env} (hA : E.alloc_ok) (n : Nat) (bc : Blockchain) (mem : Mem)
    (h : Reached E n bc mem) :
    ∃ addrs, LinkInv bc mem addrs ∧ addrs.length = n + 1 ∧ Rooted mem.blocks addrs := by
  induction h with
  | genesis bc0 now mem0 bc mem hA0 hcb =>
    obtain ⟨d, tree, htr, rfl, hblocks⟩ := create_blockchain_parts E bc0 now mem0 bc mem hA0 hcb
    obtain ⟨a, _, rfl⟩ := create_tree_rooted hA _ _ _ _ _ htr
    have hg : mem.blocks[mem0.blocks.length]? =
        some ⟨none, Digest.zero, now, some ⟨some (Node.mk a none none)⟩⟩ := by
      rw [hblocks]; simp
    refine ⟨[mem0.blocks.length], ⟨?_, by simp, rfl, rfl, by simp, ?_⟩, rfl, ?_⟩
    · exact ⟨⟨_, hg, rfl⟩, trivial⟩
    · exact ⟨_, _, rfl, hg, rfl⟩
    · intro x hx
      simp only [List.mem_singleton] at hx
      subst hx
      exact ⟨_, _, hg, rfl⟩
  | append n bc mem txs num now nb bc1 mem1 _ hcb ih =>
    obtain ⟨addrs, hinv, hlen, hroot⟩ := ih
    obtain ⟨hash, hs, mem2, ths, k3, tree, _, _, htr, hnb, hget⟩ :=
      create_block_parts E bc txs num now mem nb bc1 mem1 hcb
    obtain ⟨a, _, rfl⟩ := create_tree_rooted hA _ _ _ _ _ htr
    rcases create_block_heap E bc txs num now mem (some nb) bc1 mem1 hcb with
      ⟨hnone, _⟩ | ⟨t, tb, b, _, htail, htb, hb, hblocks, rfl⟩
    · exact absurd hnone (by simp)
    · have hbt : b.merkletree = some ⟨some (Node.mk a none none)⟩ := by
        rw [hnb, hblocks, heap_get_new] at hget
        rw [Option.some.inj hget]
      exact ⟨addrs ++ [mem.blocks.length],
        link_inv_append bc mem mem1 addrs t tb b hinv htail htb hb hblocks,
        by simp [hlen],
        rooted_append mem.blocks mem1.blocks addrs t tb b _ hroot htb hbt hblocks⟩

theorem validate_blockchain_loop_defined (E : Env) (blocks : List Block) :
    ∀ (rest : List Nat) (a fuel k : Nat), Linked blocks (a :: rest) →
      Rooted blocks (a :: rest) → rest.length < fuel →
      ∃ v k1, validate_blockchain_loop E fuel (some a) ⟨blocks, k⟩ = .ok (v, ⟨blocks, k1⟩) := by
  intro rest
  induction rest with
  | nil =>
    intro a fuel k hl _ hfuel
    obtain ⟨fuel, rfl⟩ : ∃ f, fuel = f + 1 := ⟨fuel - 1, by omega⟩
    obtain ⟨⟨b, hb, hnext⟩, _⟩ := hl
    simp only [List.head?_nil] at hnext
    exact ⟨true, k, by simp [validate_blockchain_loop, hb, hnext]⟩
  | cons a2 rest ih =>
    intro a fuel k hl hr hfuel
    obtain ⟨fuel, rfl⟩ : ∃ f, fuel = f + 1 := ⟨fuel - 1, by omega⟩
    obtain ⟨⟨b, hb, hnext⟩, hl2⟩ := hl
    simp only [List.head?_cons] at hnext
    obtain ⟨b2, hb2, _⟩ := hl2.1
    obtain ⟨x, nx, hx, hxt⟩ := hr a (by simp)
    obtain ⟨d, len, k1, hcalc⟩ := calculate_block_hash_defined E ⟨blocks, k⟩ a x nx E.uninit
      E.uninit_len hx hxt
    have hv := validate_block_eq_decide E ⟨blocks, k⟩ a2 a b2 d len ⟨blocks, k1⟩ hb2 hcalc
    by_cases hd : b2.prev_block_hash.bytes = d.bytes
    · obtain ⟨v, k2, hk2⟩ := ih a2 fuel k1 hl2 (fun y hy => hr y (by simp [hy]))
        (by simp at hfuel; omega)
      simp only [hd, decide_True] at hv
      exact ⟨v, k2, by simp [validate_blockchain_loop, hb, hnext, hv, hk2]⟩
    · simp only [hd, decide_False] at hv
      exact ⟨false, k1, by simp [validate_blockchain_loop, hb, hnext, hv]⟩

theorem linked_length_le (blocks : List Block) (addrs : List Nat) (h : Linked blocks addrs)
    (hnd : addrs.Nodup) : addrs.length ≤ blocks.length := by
  have hsub : addrs ⊆ List.range blocks.length := by
    intro a ha
    exact List.mem_range.mpr (linked_mem_lt _ _ h a ha)
  simpa using (List.Nodup.subperm hnd hsub).length_le

theorem destroy_blockchain_loop_linked (blocks : List Block) (k : Nat) :
    ∀ (rest : List Nat) (a fuel : Nat), Linked blocks (a :: rest) → rest.length < fuel →
      destroy_blockchain_loop ⟨blocks, k⟩ fuel (some a) = .ok () := by
  intro rest
  induction rest with
  | nil =>
    intro a fuel h hfuel
    obtain ⟨fuel, rfl⟩ : ∃ f, fuel = f + 1 := ⟨fuel - 1, by omega⟩
    obtain ⟨⟨b, hb, hnext⟩, _⟩ := h
    simp only [List.head?_nil] at hnext
    simp [destroy_blockchain_loop, hb, hnext]
  | cons a2 rest ih =>
    intro a fuel h hfuel
    obtain ⟨fuel, rfl⟩ : ∃ f, fuel = f + 1 := ⟨fuel - 1, by omega⟩
    obtain ⟨⟨b, hb, hnext⟩, h2⟩ := h
    simp only [List.head?_cons] at hnext
    simp only [destroy_blockchain_loop, hb, hnext]
    exact ih a2 fuel h2 (by simp at hfuel; omega)

/-! ## Chain engine: the text of a block -/

theorem snprintf_take (bs : Nat) (u t : List Char) :
    snprintf bs (u.take (bs - 1)) t = (u ++ t).take (bs - 1) := by
  unfold snprintf
  rw [List.take_append_eq_append_take]
  congr 2
  simp only [List.length_take]
  omega

theorem snprintf_foldl (bs : Nat) (l : List Nat) : ∀ (u : List Char),
    l.foldl (fun s v => snprintf bs s (hex_byte v)) (u.take (bs - 1)) =
      (u ++ hex_bytes l).take (bs - 1) := by
  induction l with
  | nil => intro u; simp [hex_bytes]
  | cons v rest ih =>
    intro u
    rw [List.foldl_cons, snprintf_take, ih, hex_bytes, List.append_assoc]

theorem toDigitsCore_length (b : Nat) : ∀ (fuel n : Nat) (ds : List Char),
    ds.length ≤ (Nat.toDigitsCore b fuel n ds).length := by
  intro fuel
  induction fuel with
  | zero => intro n ds; simp [Nat.toDigitsCore]
  | succ fuel ih =>
    intro n ds
    rw [Nat.toDigitsCore]
    split_ifs
    · simp
    · exact le_trans (by simp) (ih _ _)

theorem decimal_length_pos (t : Int) : 1 ≤ (decimal t).length := by
  have h : ∀ n, 1 ≤ (Nat.toDigits 10 n).length := by
    intro n
    rw [Nat.toDigits, Nat.toDigitsCore]
    split_ifs
    · simp
    · exact le_trans (by simp) (toDigitsCore_length 10 _ _ _)
  unfold decimal
  split_ifs
  · simp
  · exact h _

theorem block_text_head_length (b : Block) :
    (block_text_head b).length = 162 + (decimal b.timestamp).length := by
  have h1 : "Previous Block Hash: ".toList.length = 21 := rfl
  have h2 : "Timestamp: ".toList.length = 11 := rfl
  simp only [block_text_head, List.length_append, List.length_cons, hex_bytes_length, b.prev_block_hash.size,
    h1, h2, List.length_nil]
  omega

/-- The string `block_to_string` returns for a present block when its buffer
is allocated: the first 235 characters of the text it prints. -/
theorem block_to_string_eq (E : Env) (mem : Mem) (a : Nat) (b : Block)
    (hA : E.alloc mem.mallocs = true) (hb : mem.blocks[a]? = some b) :
    ((b.merkletree = none ∨ b.merkletree = some ⟨none⟩) →
      block_to_string E mem (some a) =
        .ok (some ((block_text_head b ++ ("Merkle Tree: NULL".toList ++ [Char.ofNat 10])).take 235),
          { mem with mallocs := mem.mallocs + 1 })) ∧
    (∀ n, b.merkletree = some ⟨some n⟩ →
      (compute_hash E.P n.hash.bytes E.uninit E.uninit_len).digest_length ≤ HASH_SIZE →
      block_to_string E mem (some a) =
        .ok (some ((block_text_head b ++ "Merkle Tree Root Hash: ".toList ++
          hex_bytes ((compute_hash E.P n.hash.bytes E.uninit E.uninit_len).digest_value.bytes.take
            (compute_hash E.P n.hash.bytes E.uninit E.uninit_len).digest_length)).take 235),
          { mem with mallocs := mem.mallocs + 1 })) := by
  have hsz : HASH_SIZE * 2 + SIZEOF_TIME_T + 100 - 1 = 235 := rfl
  have h0 : snprintf (HASH_SIZE * 2 + SIZEOF_TIME_T + 100) [] "Previous Block Hash: ".toList =
      ("Previous Block Hash: ".toList).take 235 := by
    have := snprintf_take (HASH_SIZE * 2 + SIZEOF_TIME_T + 100) [] "Previous Block Hash: ".toList
    simpa [hsz] using this
  have h1 : ∀ (u : List Char) (l : List Nat),
      l.foldl (fun s v => snprintf (HASH_SIZE * 2 + SIZEOF_TIME_T + 100) s (hex_byte v))
        (u.take 235) = (u ++ hex_bytes l).take 235 := by
    intro u l
    have := snprintf_foldl (HASH_SIZE * 2 + SIZEOF_TIME_T + 100) l u
    rwa [hsz] at this
  have h2 : ∀ (u t : List Char),
      snprintf (HASH_SIZE * 2 + SIZEOF_TIME_T + 100) (u.take 235) t = (u ++ t).take 235 := by
    intro u t
    have := snprintf_take (HASH_SIZE * 2 + SIZEOF_TIME_T + 100) u t
    rwa [hsz] at this
  constructor
  · intro ht
    unfold block_to_string
    rcases ht with ht | ht <;>
      simp only [hA, Bool.true_eq_false, if_false, Mem.deref, hb, ht, h0, h1, h2, block_text_head]
  · intro n ht hlen
    have hlen1 : ¬ (compute_hash E.P n.hash.bytes E.uninit E.uninit_len).digest_length >
        HASH_SIZE := by omega
    unfold block_to_string
    simp only [hA, Bool.true_eq_false, if_false, Mem.deref, hb, ht, h0, h1, h2, hlen1,
      block_text_head]

/-! ## The SHA3-512 environment -/

theorem sha3_provider_ok : sha3_provider.ok :=
  ⟨rfl, rfl, rfl, rfl, rfl, fun _ => rfl, fun _ => rfl, fun x => by simp [sha3_provider, sha3_512]⟩

theorem sha3_env_alloc_ok : sha3_env.alloc_ok := fun _ => rfl

theorem chain_length_le (blocks : List Block) (addrs : List Nat) (cs : List (Digest × Digest))
    (h : Chain blocks addrs cs) (hnd : addrs.Nodup) : addrs.length ≤ blocks.length := by
  have hsub : addrs ⊆ List.range blocks.length := by
    intro a ha
    exact List.mem_range.mpr (chain_mem_lt _ _ _ h a ha)
  simpa using (List.Nodup.subperm hnd hsub).length_le

/-- On a chain that satisfies the invariant, `validate_blockchain` returns and
its result is `links_ok` of the blocks. -/
theorem validate_blockchain_eq {E : Env} (hP : E.P.ok) (hA : E.alloc_ok) (bc : Blockchain)
    (blocks : List Block) (k : Nat) (addrs : List Nat) (cs : List (Digest × Digest))
    (hch : Chain blocks addrs cs) (hnd : addrs.Nodup) (hhead : bc.head = addrs.head?)
    (hne : addrs ≠ []) :
    ∃ k1, validate_blockchain E (some bc) ⟨blocks, k⟩ = .ok (links_ok E.P cs, ⟨blocks, k1⟩) := by
  have hle := chain_length_le _ _ _ hch hnd
  match addrs, hne with
  | a :: rest, _ =>
    obtain ⟨k1, hk1⟩ := validate_blockchain_loop_ok hP hA blocks rest a cs (blocks.length + 1) k
      hch (by simp at hle; omega)
    refine ⟨k1, ?_⟩
    simp only [List.head?_cons] at hhead
    simp only [validate_blockchain, hhead, hk1]

theorem ChainInv.ne_nil {P : Provider} {bc : Blockchain} {mem : Mem} {addrs : List Nat}
    {cs : List (Digest × Digest)} (hinv : ChainInv P bc mem addrs cs) : addrs ≠ [] := by
  have hlen := chain_length _ _ _ hinv.chain
  obtain ⟨r, hr⟩ := hinv.genesis
  intro h
  subst h
  cases cs with
  | nil => simp at hr
  | cons c cs => simp at hlen

theorem build_chain_inv_of_eq {E : Env} (hP : E.P.ok) (hA : E.alloc_ok) (now : Int)
    (calls : List (List (List Nat) × Int)) (bc : Blockchain) (mem : Mem)
    (hne : ∀ c ∈ calls, c.1 ≠ []) (hN : (calls.length : Int) < INT_MAX)
    (bc1 : Blockchain) (mem1 : Mem) (hbuild : build_chain E now calls bc mem = .ok (bc1, mem1)) :
    ∃ addrs cs, ChainInv E.P bc1 mem1 addrs cs ∧ addrs.length = calls.length + 1 := by
  obtain ⟨bc2, mem2, addrs, cs, hb, hinv, hlen⟩ := build_chain_inv hP hA now calls bc mem hne hN
  rw [hbuild] at hb
  simp only [Except.ok.injEq, Prod.mk.injEq] at hb
  obtain ⟨rfl, rfl⟩ := hb
  exact ⟨addrs, cs, hinv, hlen⟩

/-- The state at the end of the demo run of `main`. -/
theorem demo_build :
    ∃ k, build_chain sha3_env 1700000000 demo_calls ⟨none, none, 0⟩ ⟨[], 0⟩ =
      .ok (demo_chain, ⟨demo_blocks, k⟩) := by
  obtain ⟨k0, h0⟩ := create_blockchain_ok sha3_provider_ok sha3_env_alloc_ok ⟨none, none, 0⟩
    1700000000 ⟨[], 0⟩
  obtain ⟨k1, h1⟩ := create_block_ok sha3_provider_ok sha3_env_alloc_ok ⟨some 0, some 0, 1⟩
    ⟨[demo_genesis], k0⟩ 0 demo_genesis
    (demo_root (hash_of sha3_provider [71, 101, 110, 101, 115, 105, 115]))
    [49, 50, 51, 46, 50, 0] [[50, 49, 51, 51, 46, 48, 0]] 1700000001 rfl rfl rfl (by decide)
  obtain ⟨k2, h2⟩ := create_block_ok sha3_provider_ok sha3_env_alloc_ok ⟨some 0, some 1, 2⟩
    ⟨[{ demo_genesis with next_block := some 1 }, demo_block2], k1⟩ 1 demo_block2
    (demo_root demo_leaf_a)
    [52, 51, 52, 50, 0] [[109, 111, 114, 101, 95, 100, 97, 116, 97, 0]] 1700000002 rfl rfl rfl
    (by decide)
  refine ⟨k2, ?_⟩
  simp only [build_chain, h0, demo_calls, append_blocks]
  erw [h1]
  simp only []
  erw [h2]
  rfl

/-- The state at the end of the demo run of `main`, with its allocation count. -/
theorem demo_build_eq :
    build_chain sha3_env 1700000000 demo_calls ⟨none, none, 0⟩ ⟨[], 0⟩ =
      .ok (demo_chain, ⟨demo_blocks, 26⟩) := rfl

/-- The chain of the demo run satisfies the invariant, whatever the allocation
count. -/
theorem demo_chain_inv (k : Nat) :
    ∃ addrs cs, ChainInv sha3_provider demo_chain ⟨demo_blocks, k⟩ addrs cs := by
  obtain ⟨addrs, cs, hinv, _⟩ := build_chain_inv_of_eq sha3_provider_ok sha3_env_alloc_ok
    1700000000 demo_calls ⟨none, none, 0⟩ ⟨[], 0⟩ (by decide) (by decide) demo_chain
    ⟨demo_blocks, 26⟩ demo_build_eq
  exact ⟨addrs, cs, ⟨hinv.chain, hinv.nodup, hinv.head, hinv.tail, hinv.count, hinv.links,
    hinv.genesis⟩⟩

/-- The demo run of `main`, call by call. -/
theorem demo_reached : Reached sha3_env 2 demo_chain ⟨demo_blocks, 26⟩ :=
  Reached.append 1 ⟨some 0, some 1, 2⟩
    ⟨[{ demo_genesis with next_block := some 1 }, demo_block2], 15⟩
    [[52, 51, 52, 50, 0], [109, 111, 114, 101, 95, 100, 97, 116, 97, 0]] 2 1700000002 2
    demo_chain ⟨demo_blocks, 26⟩
    (Reached.append 0 ⟨some 0, some 0, 1⟩ ⟨[demo_genesis], 4⟩
      [[49, 50, 51, 46, 50, 0], [50, 49, 51, 51, 46, 48, 0]] 2 1700000001 1
      ⟨some 0, some 1, 2⟩ ⟨[{ demo_genesis with next_block := some 1 }, demo_block2], 15⟩
      (Reached.genesis ⟨none, none, 0⟩ 1700000000 ⟨[], 0⟩ ⟨some 0, some 0, 1⟩
        ⟨[demo_genesis], 4⟩ rfl rfl)
      rfl)
    rfl

/-! ## The claims -/

/-- C1 (the code departs from the claim).  On the three leaves `hash("123.2")`,
`hash("2133.0")`, `hash("4342")`, `create_tree` returns a tree whose root
digest is the first leaf, whereas the reference Merkle root is
`combine(combine(a, b), c)`, a different digest. -/
theorem create_tree_root_is_not_reference_root :
    ∃ t k1, create_tree sha3_env [demo_leaf_a, demo_leaf_b, demo_leaf_c] 3 0 = .ok (some t, k1) ∧
      t.root_hash = some demo_leaf_a ∧
      reference_root sha3_provider 3 [demo_leaf_a, demo_leaf_b, demo_leaf_c] =
        some (combine sha3_provider (combine sha3_provider demo_leaf_a demo_leaf_b) demo_leaf_c) ∧
      t.root_hash ≠ reference_root sha3_provider 3 [demo_leaf_a, demo_leaf_b, demo_leaf_c] := by
  obtain ⟨k1, hk1⟩ := create_tree_ok sha3_env_alloc_ok demo_leaf_a [demo_leaf_b, demo_leaf_c] 0
  refine ⟨_, k1, hk1, rfl, rfl, ?_⟩
  have h : demo_leaf_a ≠
      combine sha3_provider (combine sha3_provider demo_leaf_a demo_leaf_b) demo_leaf_c := by
    decide!
  simpa [MerkleTree.root_hash, Node.hash, reference_root, reduce_level] using h

/-- C2.  A chain built by `create_blockchain` followed by `create_block` calls
that each carry at least one transaction, with no allocation or digest
failure and fewer than `INT_MAX` appends (so that the `int` field `count` does
not overflow), is built without fault, and `validate_blockchain` returns true
on it. -/
theorem validate_blockchain_of_build_chain (E : Env) (hP : E.P.ok) (hA : E.alloc_ok)
    (now : Int) (calls : List (List (List Nat) × Int)) (bc : Blockchain) (mem : Mem)
    (hne : ∀ c ∈ calls, c.1 ≠ []) (hN : (calls.length : Int) < INT_MAX) :
    ∃ bc1 mem1 mem2, build_chain E now calls bc mem = .ok (bc1, mem1) ∧
      validate_blockchain E (some bc1) mem1 = .ok (true, mem2) := by
  obtain ⟨bc1, mem1, addrs, cs, hb, hinv, _⟩ := build_chain_inv hP hA now calls bc mem hne hN
  obtain ⟨k1, hk1⟩ := validate_blockchain_eq hP hA bc1 mem1.blocks mem1.mallocs addrs cs
    hinv.chain hinv.nodup hinv.head hinv.ne_nil
  rw [hinv.links] at hk1
  exact ⟨bc1, mem1, _, hb, hk1⟩

/-- The demo run of `main` (C2): with SHA3-512 and no failure, the chain of the
genesis block, `["123.2", "2133.0"]` and `["4342", "more_data"]` is built and
validates. -/
theorem validate_blockchain_of_build_chain_demo :
    ∃ bc1 mem1 mem2,
      build_chain sha3_env 1700000000 demo_calls ⟨none, none, 0⟩ ⟨[], 0⟩ = .ok (bc1, mem1) ∧
      validate_blockchain sha3_env (some bc1) mem1 = .ok (true, mem2) :=
  validate_blockchain_of_build_chain sha3_env sha3_provider_ok sha3_env_alloc_ok 1700000000
    demo_calls ⟨none, none, 0⟩ ⟨[], 0⟩ (by decide) (by decide)

/-- C3.  In a chain of at least 3 blocks built by `create_blockchain` and
`create_block` calls with non-empty transaction lists (nothing failing),
overwriting a byte of the `prev_block_hash` of the block at any position `j`
with a different value makes `validate_blockchain` return false.  For the
genesis block (`j = 0`) this rests on the digest: the link hash of the changed
block must differ from the link hash of the original one (no collision). -/
theorem validate_blockchain_detects_tampering (E : Env) (hP : E.P.ok) (hA : E.alloc_ok)
    (now : Int) (calls : List (List (List Nat) × Int)) (bc : Blockchain) (mem : Mem)
    (hne : ∀ c ∈ calls, c.1 ≠ []) (hN : (calls.length : Int) < INT_MAX)
    (hlen : 2 ≤ calls.length) (bc1 : Blockchain) (mem1 : Mem)
    (hbuild : build_chain E now calls bc mem = .ok (bc1, mem1))
    (j a : Nat) (b : Block) (hj : nth_block mem1.blocks j bc1.head = some a)
    (hb : mem1.blocks[a]? = some b) (i v : Nat) (hi : i < 64)
    (hv : b.prev_block_hash.bytes[i]? ≠ some v)
    (hcol : j = 0 → ∀ n, b.merkletree = some ⟨some n⟩ →
      link_hash E.P (b.prev_block_hash.set_byte i v) n.hash ≠
        link_hash E.P b.prev_block_hash n.hash) :
    ∃ mem2, validate_blockchain E (some bc1) (tamper mem1 a i v) = .ok (false, mem2) := by
  obtain ⟨addrs, cs, hinv, hlen1⟩ := build_chain_inv_of_eq hP hA now calls bc mem hne hN bc1 mem1
    hbuild
  have hja : addrs[j]? = some a := by
    rw [← nth_block_chain _ _ _ j hinv.chain, ← hinv.head]; exact hj
  have hcl := chain_length _ _ _ hinv.chain
  obtain ⟨c, hc, hcp, hch⟩ := chain_set_prev mem1.blocks (b.prev_block_hash.set_byte i v) addrs cs
    j a b hinv.chain hinv.nodup hja hb
  have hjl : j < cs.length := lt_of_getElem?_eq_some hc
  have hd := Digest.set_byte_ne b.prev_block_hash i v hi hv
  rw [tamper_eq mem1 a i v b hb]
  obtain ⟨k1, hk1⟩ := validate_blockchain_eq hP hA bc1 _ mem1.mallocs addrs _ hch hinv.nodup
    hinv.head hinv.ne_nil
  have hfalse : links_ok E.P (cs.set j (b.prev_block_hash.set_byte i v, c.2)) = false := by
    cases j with
    | zero =>
      obtain ⟨b0, n, c0, hb0, hc0, _, htree, hroot⟩ := chain_get _ _ _ 0 a hinv.chain hja
      have hbb : b0 = b := by rw [hb] at hb0; exact (Option.some.inj hb0).symm
      have hcc : c0 = c := by rw [hc] at hc0; exact (Option.some.inj hc0).symm
      subst hbb; subst hcc
      have h1 : 1 < cs.length := by omega
      have hc1 : cs[1]? = some cs[1] := List.getElem?_eq_getElem h1
      have hlink := links_ok_true E.P cs 0 c0 cs[1] hinv.links hc hc1
      apply links_ok_false E.P _ 0 (b0.prev_block_hash.set_byte i v, c0.2) cs[1]
      · exact List.getElem?_set_self hjl
      · rw [List.getElem?_set_ne (by omega)]; exact hc1
      · intro h
        apply hcol rfl n htree
        apply Digest.eq_of_bytes
        rw [hroot, ← hcp]
        simp only [← hcp] at h
        exact h.symm.trans hlink
    | succ j =>
      have hj0 : j < cs.length := by omega
      have hc0 : cs[j]? = some cs[j] := List.getElem?_eq_getElem hj0
      have hlink := links_ok_true E.P cs j cs[j] c hinv.links hc0 hc
      apply links_ok_false E.P _ j cs[j] (b.prev_block_hash.set_byte i v, c.2)
      · rw [List.getElem?_set_ne (by omega)]; exact hc0
      · exact List.getElem?_set_self hjl
      · intro h
        apply hd
        have e2 : c.1.bytes = b.prev_block_hash.bytes := by rw [hcp]
        exact h.trans (hlink.symm.trans e2)
  exact ⟨⟨_, k1⟩, by rw [hk1, hfalse]⟩

/-- Changing the first byte of the genesis block of the demo run from 0 to 1
(C3): the chain no longer validates. -/
theorem validate_blockchain_detects_tampering_demo :
    ∃ k mem2,
      build_chain sha3_env 1700000000 demo_calls ⟨none, none, 0⟩ ⟨[], 0⟩
        = .ok (demo_chain, ⟨demo_blocks, k⟩) ∧
      validate_blockchain sha3_env (some demo_chain) (tamper ⟨demo_blocks, k⟩ 0 0 1)
        = .ok (false, mem2) := by
  obtain ⟨k, hk⟩ := demo_build
  obtain ⟨mem2, h2⟩ := validate_blockchain_detects_tampering sha3_env sha3_provider_ok
    sha3_env_alloc_ok 1700000000 demo_calls ⟨none, none, 0⟩ ⟨[], 0⟩ (by decide) (by decide)
    (by decide) demo_chain ⟨demo_blocks, k⟩ hk 0 0 { demo_genesis with next_block := some 1 }
    rfl rfl 0 1 (by decide) (by decide)
    (by
      intro _ n hn
      have hn1 : n = demo_root (hash_of sha3_provider [71, 101, 110, 101, 115, 105, 115]) := by
        simp only [demo_genesis, genesis_block, Option.some.injEq, MerkleTree.mk.injEq] at hn
        exact hn.symm
      subst hn1
      decide!)
  exact ⟨k, mem2, hk, h2⟩

/-- C4.  In a chain built by `create_blockchain` and `create_block` (nothing
failing; of at least 3 blocks or not), after a byte of the `prev_block_hash`
of the non-genesis block `B` at position `j + 1` is overwritten with a
different value, `validate_block(B, predecessor)` returns false, while
`validate_block(next, current)` still returns true for every adjacent pair
that lies entirely before `B`. -/
theorem validate_block_after_tampering (E : Env) (hP : E.P.ok) (hA : E.alloc_ok)
    (now : Int) (calls : List (List (List Nat) × Int)) (bc : Blockchain) (mem : Mem)
    (hne : ∀ c ∈ calls, c.1 ≠ []) (hN : (calls.length : Int) < INT_MAX)
    (bc1 : Blockchain) (mem1 : Mem)
    (hbuild : build_chain E now calls bc mem = .ok (bc1, mem1))
    (j p a : Nat) (b : Block) (hp : nth_block mem1.blocks j bc1.head = some p)
    (hj : nth_block mem1.blocks (j + 1) bc1.head = some a)
    (hb : mem1.blocks[a]? = some b) (i v : Nat) (hi : i < 64)
    (hv : b.prev_block_hash.bytes[i]? ≠ some v) :
    (∃ mem2, validate_block E (tamper mem1 a i v) (some a) (some p) = .ok (false, mem2)) ∧
    ∀ l x y, l + 1 < j + 1 → nth_block mem1.blocks l bc1.head = some x →
      nth_block mem1.blocks (l + 1) bc1.head = some y →
      ∃ mem2, validate_block E (tamper mem1 a i v) (some y) (some x) = .ok (true, mem2) := by
  obtain ⟨addrs, cs, hinv, _⟩ := build_chain_inv_of_eq hP hA now calls bc mem hne hN bc1 mem1
    hbuild
  have hidx : ∀ l x, nth_block mem1.blocks l bc1.head = some x → addrs[l]? = some x := by
    intro l x hx
    rw [← nth_block_chain _ _ _ l hinv.chain, ← hinv.head]; exact hx
  obtain ⟨c, hc, hcp, hch⟩ := chain_set_prev mem1.blocks (b.prev_block_hash.set_byte i v) addrs cs
    (j + 1) a b hinv.chain hinv.nodup (hidx _ _ hj) hb
  have hd := Digest.set_byte_ne b.prev_block_hash i v hi hv
  rw [tamper_eq mem1 a i v b hb]
  have hpair : ∀ l x y, addrs[l]? = some x → addrs[l + 1]? = some y →
      ∃ c0 c1, (cs.set (j + 1) (b.prev_block_hash.set_byte i v, c.2))[l]? = some c0 ∧
        (cs.set (j + 1) (b.prev_block_hash.set_byte i v, c.2))[l + 1]? = some c1 ∧
        validate_block E
          ⟨mem1.blocks.set a { b with prev_block_hash := b.prev_block_hash.set_byte i v },
            mem1.mallocs⟩ (some y) (some x) =
          .ok (decide (c1.1.bytes = (link_hash E.P c0.1 c0.2).bytes),
            ⟨mem1.blocks.set a { b with prev_block_hash := b.prev_block_hash.set_byte i v },
              mem1.mallocs + 1⟩) := by
    intro l x y hx hy
    obtain ⟨bx, nx, c0, hbx, hc0, hpx, htx, hrx⟩ := chain_get _ _ _ l x hch hx
    obtain ⟨by1, ny, c1, hby, hc1, hpy, _, _⟩ := chain_get _ _ _ (l + 1) y hch hy
    refine ⟨c0, c1, hc0, hc1, ?_⟩
    rw [validate_block_ok hP _ y x by1 bx nx (hA _) hby hbx htx, hpy, hpx, hrx]
  constructor
  · obtain ⟨c0, c1, hc0, hc1, hval⟩ := hpair j p a (hidx _ _ hp) (hidx _ _ hj)
    have hjl : j + 1 < cs.length := lt_of_getElem?_eq_some hc
    rw [List.getElem?_set_ne (by omega)] at hc0
    rw [List.getElem?_set_self hjl] at hc1
    have hlink := links_ok_true E.P cs j c0 c hinv.links hc0 hc
    have hc1' : c1 = (b.prev_block_hash.set_byte i v, c.2) := (Option.some.inj hc1).symm
    have hne1 : ¬ c1.1.bytes = (link_hash E.P c0.1 c0.2).bytes := by
      intro h
      apply hd
      have e1 : (b.prev_block_hash.set_byte i v).bytes = c1.1.bytes := by rw [hc1']
      have e2 : c.1.bytes = b.prev_block_hash.bytes := by rw [hcp]
      exact e1.trans (h.trans (hlink.symm.trans e2))
    rw [decide_eq_false hne1] at hval
    exact ⟨_, hval⟩
  · intro l x y hl hx hy
    obtain ⟨c0, c1, hc0, hc1, hval⟩ := hpair l x y (hidx _ _ hx) (hidx _ _ hy)
    rw [List.getElem?_set_ne (by omega)] at hc0 hc1
    have hlink := links_ok_true E.P cs l c0 c1 hinv.links hc0 hc1
    rw [decide_eq_true hlink] at hval
    exact ⟨_, hval⟩

/-- Changing the first byte of the third block of the demo run to 0 (C4): the
pair (third, second) no longer validates, the pair (second, genesis) does. -/
theorem validate_block_after_tampering_demo :
    ∃ k,
      build_chain sha3_env 1700000000 demo_calls ⟨none, none, 0⟩ ⟨[], 0⟩
        = .ok (demo_chain, ⟨demo_blocks, k⟩) ∧
      (∃ mem2, validate_block sha3_env (tamper ⟨demo_blocks, k⟩ 2 0 0) (some 2) (some 1)
        = .ok (false, mem2)) ∧
      ∃ mem2, validate_block sha3_env (tamper ⟨demo_blocks, k⟩ 2 0 0) (some 1) (some 0)
        = .ok (true, mem2) := by
  obtain ⟨k, hk⟩ := demo_build
  have h := validate_block_after_tampering sha3_env sha3_provider_ok
    sha3_env_alloc_ok 1700000000 demo_calls ⟨none, none, 0⟩ ⟨[], 0⟩ (by decide) (by decide)
    demo_chain ⟨demo_blocks, k⟩ hk 1 1 2 demo_block3 rfl rfl rfl 0 0 (by decide)
    (by decide!)
  exact ⟨k, hk, h.1, h.2 0 0 1 (by decide) rfl rfl⟩

/-- C5.  For a block with a Merkle tree that has a root, when the provider
works and the buffer allocation succeeds, `calculate_block_hash` writes the
digest of the 128 bytes `prev_block_hash ‖ hash(root digest)`, that is
`combine(prev_block_hash, hash(root digest))`. -/
theorem calculate_block_hash_is_double_hash (E : Env) (hP : E.P.ok) (mem : Mem) (a : Nat)
    (b : Block) (t : MerkleTree) (n : Node) (dv : Digest) (dl : Nat)
    (hA : E.alloc mem.mallocs = true) (hb : mem.blocks[a]? = some b)
    (ht : b.merkletree = some t) (hn : t.root = some n) :
    ∃ d len mem1, calculate_block_hash E mem (some a) dv dl = .ok (d, len, mem1) ∧
      d = combine E.P b.prev_block_hash (hash_of E.P n.hash.bytes) ∧
      d.bytes = E.P.digest (b.prev_block_hash.bytes ++ E.P.digest n.hash.bytes) ∧
      n.hash.bytes.length = 64 ∧
      (b.prev_block_hash.bytes ++ E.P.digest n.hash.bytes).length = 128 := by
  have ht' : b.merkletree = some ⟨some n⟩ := by rw [ht, ← hn]
  refine ⟨_, _, _, calculate_block_hash_ok hP mem a b n dv dl hA hb ht', rfl, ?_, n.hash.size, ?_⟩
  · simp [link_hash, combine, hash_of_bytes hP]
  · simp [b.prev_block_hash.size, hP.digest_size]

/-- The link hash of the genesis block of the demo run (C5). -/
theorem calculate_block_hash_is_double_hash_genesis :
    ∃ d len mem1,
      calculate_block_hash sha3_env ⟨[genesis_block sha3_env.P 1700000000], 4⟩ (some 0)
        Digest.zero 0 = .ok (d, len, mem1) ∧
      d = combine sha3_env.P (genesis_block sha3_env.P 1700000000).prev_block_hash
        (hash_of sha3_env.P
          (Node.mk (hash_of sha3_env.P [71, 101, 110, 101, 115, 105, 115]) none none).hash.bytes) ∧
      d.bytes = sha3_env.P.digest
        ((genesis_block sha3_env.P 1700000000).prev_block_hash.bytes ++ sha3_env.P.digest
          (Node.mk (hash_of sha3_env.P [71, 101, 110, 101, 115, 105, 115]) none none).hash.bytes) ∧
      (Node.mk (hash_of sha3_env.P [71, 101, 110, 101, 115, 105, 115]) none none).hash.bytes.length
        = 64 ∧
      ((genesis_block sha3_env.P 1700000000).prev_block_hash.bytes ++ sha3_env.P.digest
        (Node.mk (hash_of sha3_env.P [71, 101, 110, 101, 115, 105, 115]) none none).hash.bytes).length
        = 128 :=
  calculate_block_hash_is_double_hash sha3_env sha3_provider_ok
    ⟨[genesis_block sha3_env.P 1700000000], 4⟩ 0 (genesis_block sha3_env.P 1700000000)
    ⟨some (Node.mk (hash_of sha3_env.P [71, 101, 110, 101, 115, 105, 115]) none none)⟩
    (Node.mk (hash_of sha3_env.P [71, 101, 110, 101, 115, 105, 115]) none none)
    Digest.zero 0 rfl rfl rfl rfl

/-- C6.  On an initialised chain (the tail is a block whose tree has a root)
`create_block` with at least one transaction returns a block when nothing
fails; and whenever `create_block` returns a block, that block is new, its
`prev_block_hash` is what `calculate_block_hash` writes for the tail as it was
before the call, it has no next block, the old tail's `next_block` is the new
block, the new block is the chain's tail (what `get_last_block` returns),
`count` has grown by exactly 1 and `head` is unchanged. -/
theorem create_block_links (E : Env) (bc : Blockchain) (txs : List (List Nat)) (now : Int)
    (mem : Mem) :
    (E.P.ok → E.alloc_ok → txs ≠ [] → bc.count ≠ INT_MAX →
      (∃ t tb n, bc.tail = some t ∧ mem.blocks[t]? = some tb ∧
        tb.merkletree = some ⟨some n⟩) →
      ∃ nb bc1 mem1, create_block E bc txs txs.length now mem = .ok (some nb, bc1, mem1)) ∧
    ∀ num nb bc1 mem1, create_block E bc txs num now mem = .ok (some nb, bc1, mem1) →
      ∃ t tb b d len mem2, bc.tail = some t ∧ mem.blocks[t]? = some tb ∧
        calculate_block_hash E { mem with mallocs := mem.mallocs + 1 } bc.tail
          E.uninit E.uninit_len = .ok (d, len, mem2) ∧
        mem.blocks[nb]? = none ∧ mem1.blocks[nb]? = some b ∧
        b.prev_block_hash = d ∧ b.next_block = none ∧
        mem1.blocks[t]? = some { tb with next_block := some nb } ∧
        bc1.tail = some nb ∧ get_last_block bc1 = some nb ∧
        bc1.count = bc.count + 1 ∧ bc1.head = bc.head := by
  constructor
  · intro hP hA hne hcount ⟨t, tb, n, htail, htb, htree⟩
    obtain ⟨s, rest, rfl⟩ : ∃ s l, txs = s :: l := by
      cases txs with
      | nil => exact absurd rfl hne
      | cons s l => exact ⟨s, l, rfl⟩
    obtain ⟨k, hk⟩ := create_block_ok hP hA bc mem t tb n s rest now htail htb htree hcount
    exact ⟨_, _, _, hk⟩
  · intro num nb bc1 mem1 h
    unfold create_block at h
    by_cases hA0 : E.alloc mem.mallocs = false
    · simp [hA0] at h
    · simp only [hA0, if_false] at h
      cases hcalc : calculate_block_hash E { mem with mallocs := mem.mallocs + 1 } bc.tail
          E.uninit E.uninit_len with
      | error e => simp [hcalc] at h
      | ok r =>
        obtain ⟨hash, hash_size, mem2⟩ := r
        obtain ⟨hblocks, t, tb, htail, htb⟩ := calculate_block_hash_blocks _ _ _ _ _ _ _ _ hcalc
        have ht : t < mem.blocks.length := lt_of_getElem?_eq_some htb
        simp only [hcalc] at h
        by_cases hA1 : E.alloc mem2.mallocs = false
        · simp [hA1] at h
        · simp only [hA1, if_false] at h
          cases hhs : create_block_hashes E txs num 0 [] hash_size (mem2.mallocs + 1) with
          | error e => simp [hhs] at h
          | ok r2 =>
            obtain ⟨ths, k3⟩ := r2
            cases ths with
            | none => simp [hhs] at h
            | some ths =>
              simp only [hhs] at h
              cases htr : create_tree E ths num k3 with
              | error e => simp [htr] at h
              | ok r3 =>
                obtain ⟨tree, k4⟩ := r3
                simp only [htr, htail, hblocks] at h
                simp only [show mem.blocks[t]? = some tb from htb] at h
                by_cases hc : bc.count = INT_MAX
                · simp [hc] at h
                · simp only [hc, if_false, Except.ok.injEq, Prod.mk.injEq, Option.some.injEq] at h
                  obtain ⟨rfl, rfl, rfl⟩ := h
                  refine ⟨t, tb, ⟨none, hash, now, tree⟩, hash, hash_size, mem2, htail, htb, rfl,
                    by simp, ?_, rfl, rfl, ?_, rfl, rfl, rfl, rfl⟩
                  · exact heap_get_new mem.blocks t _ _
                  · exact heap_get_tail mem.blocks t _ _ ht

/-- The first append of the demo run of `main` (C6): it returns a block, linked
as the claim says. -/
theorem create_block_links_demo :
    ∃ nb bc1 mem1,
      create_block sha3_env ⟨some 0, some 0, 1⟩
        [[49, 50, 51, 46, 50, 0], [50, 49, 51, 51, 46, 48, 0]] 2 1700000001 ⟨[demo_genesis], 4⟩
        = .ok (some nb, bc1, mem1) ∧
      ∃ t tb b d len mem2, (⟨some 0, some 0, 1⟩ : Blockchain).tail = some t ∧
        (⟨[demo_genesis], 4⟩ : Mem).blocks[t]? = some tb ∧
        calculate_block_hash sha3_env ⟨[demo_genesis], 4 + 1⟩ (some 0)
          sha3_env.uninit sha3_env.uninit_len = .ok (d, len, mem2) ∧
        (⟨[demo_genesis], 4⟩ : Mem).blocks[nb]? = none ∧ mem1.blocks[nb]? = some b ∧
        b.prev_block_hash = d ∧ b.next_block = none ∧
        mem1.blocks[t]? = some { tb with next_block := some nb } ∧
        bc1.tail = some nb ∧ get_last_block bc1 = some nb ∧
        bc1.count = (⟨some 0, some 0, 1⟩ : Blockchain).count + 1 ∧
        bc1.head = (⟨some 0, some 0, 1⟩ : Blockchain).head := by
  have h := create_block_links sha3_env ⟨some 0, some 0, 1⟩
    [[49, 50, 51, 46, 50, 0], [50, 49, 51, 51, 46, 48, 0]] 1700000001 ⟨[demo_genesis], 4⟩
  obtain ⟨nb, bc1, mem1, h1⟩ := h.1 sha3_provider_ok sha3_env_alloc_ok (by decide) (by decide)
    ⟨0, demo_genesis, demo_root (hash_of sha3_provider [71, 101, 110, 101, 115, 105, 115]),
      rfl, rfl, rfl⟩
  exact ⟨nb, bc1, mem1, h1, h.2 2 nb bc1 mem1 h1⟩

/-- C7.  When nothing fails, `create_blockchain` produces a chain of exactly
one block: the block is new, `head` and `tail` refer to it, `count` is 1, its
`prev_block_hash` is 64 zero bytes, it has no next block, and its Merkle tree
is the result of `create_tree` on the single leaf `hash("Genesis")`, whose
root digest is the digest of the 7 bytes of `"Genesis"`. -/
theorem create_blockchain_genesis (E : Env) (hP : E.P.ok) (hA : E.alloc_ok) (bc : Blockchain)
    (now : Int) (mem : Mem) :
    ∃ bc1 mem1 g b t k, create_blockchain E bc now mem = .ok (bc1, mem1) ∧
      mem.blocks[g]? = none ∧ mem1.blocks[g]? = some b ∧
      bc1.head = some g ∧ bc1.tail = some g ∧ bc1.count = 1 ∧
      b.prev_block_hash.bytes = List.replicate 64 0 ∧ b.next_block = none ∧
      b.timestamp = now ∧ b.merkletree = some t ∧
      create_tree E [hash_of E.P [71, 101, 110, 101, 115, 105, 115]] 1 (mem.mallocs + 1)
        = .ok (some t, k) ∧
      (t.root_hash.map Digest.bytes) = some (E.P.digest [71, 101, 110, 101, 115, 105, 115]) ∧
      nth_block mem1.blocks 0 bc1.head = some g ∧ nth_block mem1.blocks 1 bc1.head = none := by
  obtain ⟨k0, hk0⟩ := create_blockchain_ok hP hA bc now mem
  obtain ⟨k, hk⟩ := create_tree_ok hA (hash_of E.P [71, 101, 110, 101, 115, 105, 115]) []
    (mem.mallocs + 1)
  refine ⟨_, _, mem.blocks.length, genesis_block E.P now, _, k, hk0, by simp, by simp, rfl, rfl,
    rfl, rfl, rfl, rfl, rfl, hk, ?_, rfl, ?_⟩
  · simp [MerkleTree.root_hash, Node.hash, hash_of_bytes hP]
  · simp [nth_block, genesis_block]

/-- The chain `main` starts from (C7). -/
theorem create_blockchain_genesis_demo :
    ∃ bc1 mem1 g b t k,
      create_blockchain sha3_env ⟨none, none, 0⟩ 1700000000 ⟨[], 0⟩ = .ok (bc1, mem1) ∧
      (⟨[], 0⟩ : Mem).blocks[g]? = none ∧ mem1.blocks[g]? = some b ∧
      bc1.head = some g ∧ bc1.tail = some g ∧ bc1.count = 1 ∧
      b.prev_block_hash.bytes = List.replicate 64 0 ∧ b.next_block = none ∧
      b.timestamp = 1700000000 ∧ b.merkletree = some t ∧
      create_tree sha3_env [hash_of sha3_env.P [71, 101, 110, 101, 115, 105, 115]] 1
        ((⟨[], 0⟩ : Mem).mallocs + 1) = .ok (some t, k) ∧
      (t.root_hash.map Digest.bytes) = some (sha3_env.P.digest [71, 101, 110, 101, 115, 105, 115]) ∧
      nth_block mem1.blocks 0 bc1.head = some g ∧ nth_block mem1.blocks 1 bc1.head = none :=
  create_blockchain_genesis sha3_env sha3_provider_ok sha3_env_alloc_ok ⟨none, none, 0⟩
    1700000000 ⟨[], 0⟩

/-- C8.  With no allocation failure, `create_tree` on the one-element array
`[a]` returns a tree whose root holds exactly the digest `a`. -/
theorem create_tree_single_leaf (E : Env) (hA : E.alloc_ok) (a : Digest) (k : Nat) :
    ∃ t k1, create_tree E [a] 1 k = .ok (some t, k1) ∧ t.root_hash = some a := by
  obtain ⟨k1, hk1⟩ := create_tree_ok hA a [] k
  exact ⟨_, k1, hk1, rfl⟩

/-- The single leaf `hash("Genesis")` of the genesis block (C8). -/
theorem create_tree_single_leaf_genesis :
    ∃ t k1, create_tree sha3_env [hash_of sha3_provider [71, 101, 110, 101, 115, 105, 115]] 1 0
        = .ok (some t, k1) ∧
      t.root_hash = some (hash_of sha3_provider [71, 101, 110, 101, 115, 105, 115]) :=
  create_tree_single_leaf sha3_env sha3_env_alloc_ok _ 0

/-- C9.  With no allocation failure, for leaf digests `a ≠ b` the trees
`create_tree` returns for `[a, b]` and for `[b, a]` have different root
digests. -/
theorem create_tree_order_sensitive (E : Env) (hA : E.alloc_ok) (a b : Digest) (hab : a ≠ b)
    (k k' : Nat) :
    ∃ t1 t2 k1 k2, create_tree E [a, b] 2 k = .ok (some t1, k1) ∧
      create_tree E [b, a] 2 k' = .ok (some t2, k2) ∧
      t1.root_hash ≠ none ∧ t2.root_hash ≠ none ∧ t1.root_hash ≠ t2.root_hash := by
  obtain ⟨k1, hk1⟩ := create_tree_ok hA a [b] k
  obtain ⟨k2, hk2⟩ := create_tree_ok hA b [a] k'
  refine ⟨_, _, k1, k2, hk1, hk2, ?_, ?_, ?_⟩
  · simp [MerkleTree.root_hash]
  · simp [MerkleTree.root_hash]
  · simpa [MerkleTree.root_hash, Node.hash] using hab

/-- The two orders of the all-zero digest and a digest starting with 1 (C9). -/
theorem create_tree_order_sensitive_zero :
    ∃ t1 t2 k1 k2,
      create_tree sha3_env [Digest.zero, Digest.zero.set_byte 0 1] 2 0 = .ok (some t1, k1) ∧
      create_tree sha3_env [Digest.zero.set_byte 0 1, Digest.zero] 2 0 = .ok (some t2, k2) ∧
      t1.root_hash ≠ none ∧ t2.root_hash ≠ none ∧ t1.root_hash ≠ t2.root_hash :=
  create_tree_order_sensitive sha3_env sha3_env_alloc_ok Digest.zero (Digest.zero.set_byte 0 1)
    (by decide) 0 0

/-- C10 (the code departs from the claim).  On the two leaves `hash("123.2")`
and `hash("2133.0")`, the tree `create_tree` returns has one leaf node, holding
the first digest: the second leaf cannot be reached from the root. -/
theorem create_tree_leaves_two :
    ∃ t k1, create_tree sha3_env [demo_leaf_a, demo_leaf_b] 2 0 = .ok (some t, k1) ∧
      t.leaves = [demo_leaf_a] ∧ t.leaves.length ≠ 2 := by
  obtain ⟨k1, hk1⟩ := create_tree_ok sha3_env_alloc_ok demo_leaf_a [demo_leaf_b] 0
  exact ⟨_, k1, hk1, rfl, by simp [MerkleTree.leaves, Node.leaves]⟩

/-- C11.  `validate_block` returns false when either argument is `NULL`; when
both are blocks it returns true if and only if the 64 bytes of
`block.prev_block_hash` equal, byte for byte, the digest
`calculate_block_hash(prev_block)` leaves in its buffer; and when the provider
works, the allocation succeeds and `prev_block` has a tree with a root, that
digest is computed and the call returns. -/
theorem validate_block_iff (E : Env) (mem : Mem) :
    (∀ p, validate_block E mem none p = .ok (false, mem)) ∧
    (∀ a, validate_block E mem a none = .ok (false, mem)) ∧
    (∀ a p b d len mem1, mem.blocks[a]? = some b →
      calculate_block_hash E mem (some p) E.uninit E.uninit_len = .ok (d, len, mem1) →
      ∃ v, validate_block E mem (some a) (some p) = .ok (v, mem1) ∧
        (v = true ↔ b.prev_block_hash.bytes = d.bytes)) ∧
    (∀ a p b pb n, E.P.ok → E.alloc mem.mallocs = true → mem.blocks[a]? = some b →
      mem.blocks[p]? = some pb → pb.merkletree = some ⟨some n⟩ →
      ∃ d len mem1 v,
        calculate_block_hash E mem (some p) E.uninit E.uninit_len = .ok (d, len, mem1) ∧
        validate_block E mem (some a) (some p) = .ok (v, mem1) ∧
        (v = true ↔ b.prev_block_hash.bytes = d.bytes)) := by
  refine ⟨?_, ?_, ?_, ?_⟩
  · intro p
    simp [validate_block]
  · intro a
    cases a <;> simp [validate_block]
  · intro a p b d len mem1 hb hcalc
    exact ⟨_, validate_block_eq_decide E mem a p b d len mem1 hb hcalc, by simp⟩
  · intro a p b pb n hP hA hb hpb ht
    have hcalc := calculate_block_hash_ok hP mem p pb n E.uninit E.uninit_len hA hpb ht
    exact ⟨_, _, _, _, hcalc, validate_block_eq_decide E mem a p b _ _ _ hb hcalc, by simp⟩

/-- C12.  When nothing fails: `validate_blockchain` returns false for a `NULL`
chain and for a chain without head; on a chain whose blocks form a list (each
with a tree that has a root) it returns, and the result is true if and only
if `validate_block(next, current)` is true for every adjacent pair reached
from `head`; and the chain `create_blockchain` has just built is valid. -/
theorem validate_blockchain_iff (E : Env) (hP : E.P.ok) (hA : E.alloc_ok) (mem : Mem) :
    validate_blockchain E none mem = .ok (false, mem) ∧
    (∀ bc, bc.head = none → validate_blockchain E (some bc) mem = .ok (false, mem)) ∧
    (∀ bc addrs cs, Chain mem.blocks addrs cs → addrs.Nodup → addrs ≠ [] →
      bc.head = addrs.head? →
      ∃ v mem1, validate_blockchain E (some bc) mem = .ok (v, mem1) ∧
        (v = true ↔ ∀ j x y, nth_block mem.blocks j bc.head = some x →
          nth_block mem.blocks (j + 1) bc.head = some y →
          ∃ mem2, validate_block E mem (some y) (some x) = .ok (true, mem2))) ∧
    (∀ bc0 now, ∃ bc1 mem1 mem2, create_blockchain E bc0 now mem = .ok (bc1, mem1) ∧
      validate_blockchain E (some bc1) mem1 = .ok (true, mem2)) := by
  refine ⟨rfl, ?_, ?_, ?_⟩
  · intro bc hbc
    simp [validate_blockchain, hbc]
  · intro bc addrs cs hch hnd hne hhead
    obtain ⟨k1, hk1⟩ := validate_blockchain_eq hP hA bc mem.blocks mem.mallocs addrs cs hch hnd
      hhead hne
    refine ⟨_, _, hk1, ?_⟩
    have hpair : ∀ j x y, addrs[j]? = some x → addrs[j + 1]? = some y →
        ∃ c c1, cs[j]? = some c ∧ cs[j + 1]? = some c1 ∧
          validate_block E mem (some y) (some x) =
            .ok (decide (c1.1.bytes = (link_hash E.P c.1 c.2).bytes),
              { mem with mallocs := mem.mallocs + 1 }) := by
      intro j x y hx hy
      obtain ⟨bx, nx, c, hbx, hc, hpx, htx, hrx⟩ := chain_get _ _ _ j x hch hx
      obtain ⟨by1, ny, c1, hby, hc1, hpy, _, _⟩ := chain_get _ _ _ (j + 1) y hch hy
      refine ⟨c, c1, hc, hc1, ?_⟩
      rw [validate_block_ok hP mem y x by1 bx nx (hA _) hby hbx htx, hpy, hpx, hrx]
    have hidx : ∀ l, nth_block mem.blocks l bc.head = addrs[l]? := by
      intro l
      rw [hhead]; exact nth_block_chain _ _ _ l hch
    constructor
    · intro hv j x y hx hy
      rw [hidx] at hx hy
      obtain ⟨c, c1, hc, hc1, hval⟩ := hpair j x y hx hy
      have hlink := links_ok_true E.P cs j c c1 hv hc hc1
      rw [decide_eq_true hlink] at hval
      exact ⟨_, hval⟩
    · intro hall
      apply links_ok_of_pairs
      intro i c c1 hc hc1
      have hlen := chain_length _ _ _ hch
      have hi1 : i + 1 < addrs.length := by rw [hlen]; exact lt_of_getElem?_eq_some hc1
      have hx : addrs[i]? = some addrs[i] := List.getElem?_eq_getElem (by omega)
      have hy : addrs[i + 1]? = some addrs[i + 1] := List.getElem?_eq_getElem hi1
      obtain ⟨c', c1', hc', hc1', hval⟩ := hpair i _ _ hx hy
      rw [hc] at hc'; rw [hc1] at hc1'
      obtain rfl := Option.some.inj hc'
      obtain rfl := Option.some.inj hc1'
      obtain ⟨mem2, h2⟩ := hall i _ _ (by rw [hidx]; exact hx) (by rw [hidx]; exact hy)
      rw [hval] at h2
      simp only [Except.ok.injEq, Prod.mk.injEq, decide_eq_true_eq] at h2
      exact h2.1
  · intro bc0 now
    obtain ⟨bc1, mem1, h0, hinv⟩ := create_blockchain_inv hP hA bc0 now mem
    obtain ⟨k1, hk1⟩ := validate_blockchain_eq hP hA bc1 mem1.blocks mem1.mallocs _ _
      hinv.chain hinv.nodup hinv.head hinv.ne_nil
    exact ⟨bc1, mem1, _, h0, hk1⟩

/-- The demo run (C12). -/
theorem validate_blockchain_iff_demo :
    validate_blockchain sha3_env none ⟨demo_blocks, 26⟩ = .ok (false, ⟨demo_blocks, 26⟩) ∧
    validate_blockchain sha3_env (some ⟨none, none, 0⟩) ⟨demo_blocks, 26⟩ =
      .ok (false, ⟨demo_blocks, 26⟩) ∧
    (∃ v mem1, validate_blockchain sha3_env (some demo_chain) ⟨demo_blocks, 26⟩ = .ok (v, mem1) ∧
      (v = true ↔ ∀ j x y, nth_block demo_blocks j demo_chain.head = some x →
        nth_block demo_blocks (j + 1) demo_chain.head = some y →
        ∃ mem2, validate_block sha3_env ⟨demo_blocks, 26⟩ (some y) (some x) = .ok (true, mem2))) ∧
    ∃ bc1 mem1 mem2,
      create_blockchain sha3_env ⟨none, none, 0⟩ 1700000000 ⟨demo_blocks, 26⟩ = .ok (bc1, mem1) ∧
      validate_blockchain sha3_env (some bc1) mem1 = .ok (true, mem2) := by
  have h := validate_blockchain_iff sha3_env sha3_provider_ok sha3_env_alloc_ok ⟨demo_blocks, 26⟩
  obtain ⟨addrs, cs, hinv⟩ := demo_chain_inv 26
  exact ⟨h.1, h.2.1 ⟨none, none, 0⟩ rfl,
    h.2.2.1 demo_chain addrs cs hinv.chain hinv.nodup hinv.ne_nil hinv.head,
    h.2.2.2 ⟨none, none, 0⟩ 1700000000⟩

/-- C13 (the code departs from the claim).  On a block without Merkle tree, or
whose tree has no root, `calculate_block_hash` dereferences the missing
pointer: the call is a fault, not a reported failure. -/
theorem calculate_block_hash_without_root (E : Env) (mem : Mem) (a : Nat) (b : Block)
    (dv : Digest) (dl : Nat) (hb : mem.blocks[a]? = some b)
    (ht : b.merkletree = none ∨ b.merkletree = some ⟨none⟩) :
    calculate_block_hash E mem (some a) dv dl = .error .null_deref := by
  rcases ht with ht | ht <;> simp [calculate_block_hash, Mem.deref, hb, ht]

/-- A run that reaches such a block (C13): when the allocation of the tree
fails, `create_block` links a block without tree; `calculate_block_hash` on
that block, and so the next `create_block`, dereference `NULL`. -/
theorem calculate_block_hash_without_root_demo :
    ∃ bc1 mem1 b,
      create_block (alloc_fails_env 8) ⟨some 0, some 0, 1⟩ [[49, 50, 51, 46, 50, 0]] 1 1700000001
        ⟨[demo_genesis], 4⟩ = .ok (some 1, bc1, mem1) ∧
      mem1.blocks[1]? = some b ∧ b.merkletree = none ∧
      calculate_block_hash (alloc_fails_env 8) mem1 (some 1) Digest.zero 0 = .error .null_deref ∧
      create_block (alloc_fails_env 8) bc1 [[52, 51, 52, 50, 0]] 1 1700000002 mem1
        = .error .null_deref :=
  ⟨_, _, _, rfl, rfl, rfl,
    calculate_block_hash_without_root (alloc_fails_env 8) _ 1 _ Digest.zero 0 rfl (Or.inl rfl),
    rfl⟩

/-- C14 (the code departs from the claim).  On an empty array `create_tree`
never returns a tree with an absent root: it returns `NULL` when the tree is
not allocated and otherwise reads `nodes[0]` of an array without entries.  So
`create_block` with zero transactions on the chain `create_blockchain` built
is a fault. -/
theorem create_tree_empty_has_no_tree :
    (∀ (E : Env) (k : Nat), create_tree E [] 0 k = .ok (none, k + 1) ∨
      create_tree E [] 0 k = .error .null_deref ∨
      create_tree E [] 0 k = .error .out_of_bounds) ∧
    create_block sha3_env ⟨some 0, some 0, 1⟩ [] 0 1700000001 ⟨[demo_genesis], 4⟩
      = .error .out_of_bounds := by
  refine ⟨?_, rfl⟩
  intro E k
  by_cases h0 : E.alloc k = false
  · left; simp [create_tree, h0]
  · by_cases h1 : E.alloc (k + 1) = true
    · right; right
      simp [create_tree, h0, h1, create_tree_leaves, create_tree_loop]
    · right; left
      simp [create_tree, h0, h1, create_tree_leaves]

/-- C15 (the code departs from the claim).  After `create_blockchain`, a
`create_block` call with one transaction in which one allocation fails still
links a block and changes `tail`, `count` and the genesis block's
`next_block`: a block without tree when the tree is not allocated (call 8), a
block whose tree has no root when the node is not allocated (call 10), a
block whose `prev_block_hash` is the unwritten buffer when `block_data` is
not allocated (call 5); with two transactions and the second leaf node not
allocated (call 12) the call dereferences `NULL`. -/
theorem create_block_links_block_without_tree :
    create_blockchain (alloc_fails_env 8) ⟨none, none, 0⟩ 1700000000 ⟨[], 0⟩
      = .ok (⟨some 0, some 0, 1⟩, ⟨[demo_genesis], 4⟩) ∧
    (∃ b k,
      create_block (alloc_fails_env 8) ⟨some 0, some 0, 1⟩ [[49, 50, 51, 46, 50, 0]] 1 1700000001
        ⟨[demo_genesis], 4⟩ =
        .ok (some 1, ⟨some 0, some 1, 2⟩, ⟨[{ demo_genesis with next_block := some 1 }, b], k⟩) ∧
      b.merkletree = none) ∧
    (∃ b k,
      create_block (alloc_fails_env 10) ⟨some 0, some 0, 1⟩ [[49, 50, 51, 46, 50, 0]] 1 1700000001
        ⟨[demo_genesis], 4⟩ =
        .ok (some 1, ⟨some 0, some 1, 2⟩, ⟨[{ demo_genesis with next_block := some 1 }, b], k⟩) ∧
      b.merkletree = some ⟨none⟩) ∧
    (∃ b k,
      create_block (alloc_fails_env 5) ⟨some 0, some 0, 1⟩ [[49, 50, 51, 46, 50, 0]] 1 1700000001
        ⟨[demo_genesis], 4⟩ =
        .ok (some 1, ⟨some 0, some 1, 2⟩, ⟨[{ demo_genesis with next_block := some 1 }, b], k⟩) ∧
      b.prev_block_hash = (alloc_fails_env 5).uninit) ∧
    create_block (alloc_fails_env 12) ⟨some 0, some 0, 1⟩
        [[49, 50, 51, 46, 50, 0], [50, 49, 51, 51, 46, 48, 0]] 2 1700000001 ⟨[demo_genesis], 4⟩
      = .error .null_deref :=
  ⟨rfl, ⟨_, _, rfl, rfl⟩, ⟨_, _, rfl, rfl⟩, ⟨_, _, rfl, rfl⟩, rfl⟩

/-- C16 (the code departs from the claim).  When every `compute_hash` call
fails (returns 0), `create_blockchain` and `create_block` still return a
chain and a block: the root digests and the `prev_block_hash` of the new
block are the indeterminate content of the buffers (`junk`). -/
theorem create_block_links_unwritten_digests :
    (∀ data dv dl, (compute_hash no_digest_env.P data dv dl).ret = 0) ∧
    ∃ g k0 b k,
      create_blockchain no_digest_env ⟨none, none, 0⟩ 1700000000 ⟨[], 0⟩
        = .ok (⟨some 0, some 0, 1⟩, ⟨[g], k0⟩) ∧
      g.merkletree = some ⟨some (Node.mk junk none none)⟩ ∧
      create_block no_digest_env ⟨some 0, some 0, 1⟩
        [[49, 50, 51, 46, 50, 0], [50, 49, 51, 51, 46, 48, 0]] 2 1700000001 ⟨[g], k0⟩ =
        .ok (some 1, ⟨some 0, some 1, 2⟩, ⟨[{ g with next_block := some 1 }, b], k⟩) ∧
      b.prev_block_hash = junk ∧ b.merkletree = some ⟨some (Node.mk junk none none)⟩ :=
  ⟨fun _ _ _ => rfl, _, _, _, _, rfl, rfl, rfl, rfl, rfl⟩

/-- C17 (the code departs from the claim).  When every `compute_hash` call
fails, the chain of the demo run is built and `validate_blockchain` returns
true, comparing unwritten buffers.  When only the allocation of `block_data`
in the first validation fails (call 26), the chain of the demo run, valid
when nothing fails, gets the ordinary false from `validate_block` and
`validate_blockchain`. -/
theorem validate_blockchain_on_unwritten_buffer :
    (∃ bc mem m,
      build_chain no_digest_env 1700000000 demo_calls ⟨none, none, 0⟩ ⟨[], 0⟩ = .ok (bc, mem) ∧
      validate_blockchain no_digest_env (some bc) mem = .ok (true, m)) ∧
    build_chain (alloc_fails_env 26) 1700000000 demo_calls ⟨none, none, 0⟩ ⟨[], 0⟩ =
      .ok (demo_chain, ⟨demo_blocks, 26⟩) ∧
    (∃ m, validate_blockchain sha3_env (some demo_chain) ⟨demo_blocks, 26⟩ = .ok (true, m)) ∧
    (∃ m, validate_block (alloc_fails_env 26) ⟨demo_blocks, 26⟩ (some 1) (some 0)
      = .ok (false, m)) ∧
    ∃ m, validate_blockchain (alloc_fails_env 26) (some demo_chain) ⟨demo_blocks, 26⟩
      = .ok (false, m) := by
  have hne : ¬ ({ demo_block2 with next_block := some 2 } : Block).prev_block_hash.bytes =
      Digest.zero.bytes := by decide!
  have hcalc : calculate_block_hash (alloc_fails_env 26) ⟨demo_blocks, 26⟩ (some 0)
      (alloc_fails_env 26).uninit (alloc_fails_env 26).uninit_len =
      .ok (Digest.zero, 64, ⟨demo_blocks, 27⟩) := by
    simp [calculate_block_hash, Mem.deref, demo_blocks, demo_genesis, genesis_block,
      alloc_fails_env, compute_hash_ok sha3_provider_ok]
  have hv := validate_block_eq_decide (alloc_fails_env 26) ⟨demo_blocks, 26⟩ 1 0
    { demo_block2 with next_block := some 2 } Digest.zero 64 ⟨demo_blocks, 27⟩ rfl hcalc
  rw [decide_eq_false hne] at hv
  refine ⟨⟨_, _, _, rfl, rfl⟩, rfl, ?_, ⟨_, hv⟩, ⟨⟨demo_blocks, 27⟩, ?_⟩⟩
  · obtain ⟨addrs, cs, hinv⟩ := demo_chain_inv 26
    obtain ⟨k1, hk1⟩ := validate_blockchain_eq sha3_provider_ok sha3_env_alloc_ok demo_chain
      demo_blocks 26 addrs cs hinv.chain hinv.nodup hinv.head hinv.ne_nil
    have hl : links_ok sha3_env.P cs = true := hinv.links
    rw [hl] at hk1
    exact ⟨_, hk1⟩
  · have h0 : demo_blocks[0]? = some { demo_genesis with next_block := some 1 } := rfl
    simp only [validate_blockchain, demo_chain, validate_blockchain_loop]
    erw [h0]
    simp only []
    erw [hv]

/-- C18.  In every state reached from `create_blockchain` by `n` calls of
`create_block` that each returned a block, in any environment: following
`next_block` from `head` visits exactly the `n + 1` pairwise distinct blocks
of a list `addrs` and then stops, `count` is `n + 1`, the first block has the
all-zero `prev_block_hash`, and the last block visited is `tail` and has no
next block. -/
theorem reached_chain_structure (E : Env) (n : Nat) (bc : Blockchain) (mem : Mem)
    (h : Reached E n bc mem) :
    ∃ addrs : List Nat, addrs.Nodup ∧ addrs.length = n + 1 ∧ bc.count = n + 1 ∧
      (∀ j, nth_block mem.blocks j bc.head = addrs[j]?) ∧
      (∃ g gb, bc.head = some g ∧ mem.blocks[g]? = some gb ∧
        gb.prev_block_hash.bytes = List.replicate 64 0) ∧
      (∃ t tb, bc.tail = some t ∧ addrs[n]? = some t ∧ mem.blocks[t]? = some tb ∧
        tb.next_block = none) := by
  obtain ⟨addrs, hinv, hlen⟩ := reached_link_inv E n bc mem h
  have hne : addrs ≠ [] := by
    intro h0; subst h0; simp at hlen
  refine ⟨addrs, hinv.nodup, hlen, by rw [hinv.count, hlen]; push_cast; ring, ?_, ?_, ?_⟩
  · intro j
    rw [hinv.head]
    exact nth_block_linked _ _ j hinv.linked
  · obtain ⟨g, gb, hg, hgb, hz⟩ := hinv.genesis
    exact ⟨g, gb, by rw [hinv.head, hg], hgb, by rw [hz]; rfl⟩
  · obtain ⟨addrs0, t, rfl⟩ : ∃ l t, addrs = l ++ [t] :=
      ⟨addrs.dropLast, addrs.getLast hne, (List.dropLast_append_getLast hne).symm⟩
    obtain ⟨tb, htb, hnone⟩ := linked_last _ t addrs0 hinv.linked
    refine ⟨t, tb, by rw [hinv.tail]; simp, ?_, htb, hnone⟩
    have hl : addrs0.length = n := by simp at hlen; exact hlen
    rw [← hl]
    simp

/-- The demo run (C18): three blocks at addresses 0, 1, 2 and `count = 3`. -/
theorem reached_chain_structure_demo :
    ∃ addrs : List Nat, addrs.Nodup ∧ addrs.length = 2 + 1 ∧ demo_chain.count = 2 + 1 ∧
      (∀ j, nth_block demo_blocks j demo_chain.head = addrs[j]?) ∧
      (∃ g gb, demo_chain.head = some g ∧ demo_blocks[g]? = some gb ∧
        gb.prev_block_hash.bytes = List.replicate 64 0) ∧
      (∃ t tb, demo_chain.tail = some t ∧ addrs[2]? = some t ∧ demo_blocks[t]? = some tb ∧
        tb.next_block = none) :=
  reached_chain_structure sha3_env 2 demo_chain ⟨demo_blocks, 26⟩ demo_reached

/-- C19.  A call of `create_block` that returns (with or without a block)
leaves every block already in the heap with the same `prev_block_hash`,
timestamp and Merkle tree; its `next_block` is the same unless it is the old
tail; hence `calculate_block_hash` of a block that was there, and
`validate_block` of a pair of blocks that were there, give the same result
before and after the call. -/
theorem create_block_frame (E : Env) (bc : Blockchain) (txs : List (List Nat)) (num : Nat)
    (now : Int) (mem : Mem) (r : Option Nat) (bc1 : Blockchain) (mem1 : Mem)
    (h : create_block E bc txs num now mem = .ok (r, bc1, mem1)) (a : Nat) (b : Block)
    (hb : mem.blocks[a]? = some b) :
    ∃ b1, mem1.blocks[a]? = some b1 ∧ b1.prev_block_hash = b.prev_block_hash ∧
      b1.timestamp = b.timestamp ∧ b1.merkletree = b.merkletree ∧
      (some a ≠ bc.tail → b1.next_block = b.next_block) ∧
      (∀ k dv dl,
        (calculate_block_hash E ⟨mem1.blocks, k⟩ (some a) dv dl).map (fun x => (x.1, x.2.1)) =
        (calculate_block_hash E ⟨mem.blocks, k⟩ (some a) dv dl).map (fun x => (x.1, x.2.1))) ∧
      (∀ p pb k, mem.blocks[p]? = some pb →
        (validate_block E ⟨mem1.blocks, k⟩ (some a) (some p)).map Prod.fst =
        (validate_block E ⟨mem.blocks, k⟩ (some a) (some p)).map Prod.fst) := by
  have hframe : ∀ x bx, mem.blocks[x]? = some bx →
      ∃ bx1, mem1.blocks[x]? = some bx1 ∧ bx1.prev_block_hash = bx.prev_block_hash ∧
        bx1.timestamp = bx.timestamp ∧ bx1.merkletree = bx.merkletree ∧
        (some x ≠ bc.tail → bx1.next_block = bx.next_block) := by
    intro x bx hbx
    rcases create_block_heap E bc txs num now mem r bc1 mem1 h with
      ⟨_, _, hblocks⟩ | ⟨t, tb, y, _, htail, htb, _, hblocks, _⟩
    · exact ⟨bx, by rw [hblocks]; exact hbx, rfl, rfl, rfl, fun _ => rfl⟩
    · obtain ⟨bx1, h1, h2, h3, h4, h5⟩ := heap_get_frame mem.blocks t x tb bx y
        (some mem.blocks.length) htb hbx
      refine ⟨bx1, by rw [hblocks]; exact h1, h2, h3, h4, ?_⟩
      intro hne
      rw [h5 (fun hxt => hne (by rw [htail, hxt]))]
  have hcalc : ∀ x bx k dv dl, mem.blocks[x]? = some bx →
      (calculate_block_hash E ⟨mem1.blocks, k⟩ (some x) dv dl).map (fun x => (x.1, x.2.1)) =
      (calculate_block_hash E ⟨mem.blocks, k⟩ (some x) dv dl).map (fun x => (x.1, x.2.1)) := by
    intro x bx k dv dl hbx
    obtain ⟨bx1, h1, h2, _, h4, _⟩ := hframe x bx hbx
    exact calculate_block_hash_congr E mem.blocks mem1.blocks k k x x bx bx1 dv dl hbx h1 rfl h2
      (by rw [h4])
  obtain ⟨b1, h1, h2, h3, h4, h5⟩ := hframe a b hb
  refine ⟨b1, h1, h2, h3, h4, h5, fun k dv dl => hcalc a b k dv dl hb, ?_⟩
  intro p pb k hpb
  have hc := hcalc p pb k E.uninit E.uninit_len hpb
  simp only [validate_block]
  cases hc1 : calculate_block_hash E ⟨mem1.blocks, k⟩ (some p) E.uninit E.uninit_len with
  | error e =>
    cases hc0 : calculate_block_hash E ⟨mem.blocks, k⟩ (some p) E.uninit E.uninit_len with
    | error e0 =>
      rw [hc1, hc0] at hc
      simp only [Except.map, Except.error.injEq] at hc
      simp [Except.map, hc]
    | ok r0 => rw [hc1, hc0] at hc; simp [Except.map] at hc
  | ok r1 =>
    cases hc0 : calculate_block_hash E ⟨mem.blocks, k⟩ (some p) E.uninit E.uninit_len with
    | error e0 => rw [hc1, hc0] at hc; simp [Except.map] at hc
    | ok r0 =>
      rw [hc1, hc0] at hc
      simp only [Except.map, Except.ok.injEq, Prod.mk.injEq] at hc
      have e1 := (calculate_block_hash_blocks _ _ _ _ _ _ _ _ hc1).1
      have e0 := (calculate_block_hash_blocks _ _ _ _ _ _ _ _ hc0).1
      have g1 : r1.2.2.blocks[a]? = some b1 := by rw [e1]; exact h1
      have g0 : r0.2.2.blocks[a]? = some b := by rw [e0]; exact hb
      simp [Mem.deref, g1, g0, Except.map, hc.1, h2]

/-- The second append of the demo run (C19): the genesis block and the second
block keep their content, and the pair they form validates as before. -/
theorem create_block_frame_demo :
    create_block sha3_env ⟨some 0, some 1, 2⟩
      [[52, 51, 52, 50, 0], [109, 111, 114, 101, 95, 100, 97, 116, 97, 0]] 2 1700000002
      ⟨[{ demo_genesis with next_block := some 1 }, demo_block2], 15⟩ =
      .ok (some 2, demo_chain, ⟨demo_blocks, 26⟩) ∧
    ∃ b1, demo_blocks[1]? = some b1 ∧ b1.prev_block_hash = demo_block2.prev_block_hash ∧
      b1.timestamp = demo_block2.timestamp ∧ b1.merkletree = demo_block2.merkletree ∧
      (validate_block sha3_env ⟨demo_blocks, 26⟩ (some 1) (some 0)).map Prod.fst =
        (validate_block sha3_env
          ⟨[{ demo_genesis with next_block := some 1 }, demo_block2], 26⟩ (some 1) (some 0)).map
          Prod.fst := by
  have h : create_block sha3_env ⟨some 0, some 1, 2⟩
      [[52, 51, 52, 50, 0], [109, 111, 114, 101, 95, 100, 97, 116, 97, 0]] 2 1700000002
      ⟨[{ demo_genesis with next_block := some 1 }, demo_block2], 15⟩ =
      .ok (some 2, demo_chain, ⟨demo_blocks, 26⟩) := rfl
  obtain ⟨b1, h1, h2, h3, h4, _, _, h7⟩ := create_block_frame sha3_env _ _ _ _ _ _ _ _ h 1
    demo_block2 rfl
  exact ⟨h, b1, h1, h2, h3, h4, h7 0 { demo_genesis with next_block := some 1 } 26 rfl⟩

/-- C20.  Two blocks, in any two heaps and at any position, that agree on
`prev_block_hash` and on the root digest of their tree get the same digest
and length from `calculate_block_hash`, whatever their timestamp and next
link (the environment being the same: same buffer content before the call,
same outcome of the allocation); neither call changes any block; and when
nothing fails the digest is `link_hash` of the two values. -/
theorem calculate_block_hash_pure (E : Env) (mem mem1 : Mem) (a a1 : Nat) (b b1 : Block)
    (n n1 : Node) (dv : Digest) (dl : Nat)
    (hb : mem.blocks[a]? = some b) (hb1 : mem1.blocks[a1]? = some b1)
    (ht : b.merkletree = some ⟨some n⟩) (ht1 : b1.merkletree = some ⟨some n1⟩)
    (hprev : b.prev_block_hash = b1.prev_block_hash) (hroot : n.hash = n1.hash)
    (hk : E.alloc mem.mallocs = E.alloc mem1.mallocs) :
    ∃ d len m m1, calculate_block_hash E mem (some a) dv dl = .ok (d, len, m) ∧
      calculate_block_hash E mem1 (some a1) dv dl = .ok (d, len, m1) ∧
      m.blocks = mem.blocks ∧ m1.blocks = mem1.blocks ∧
      (E.P.ok → E.alloc mem.mallocs = true → d = link_hash E.P b.prev_block_hash n.hash) := by
  obtain ⟨d, len, m, hc⟩ : ∃ d len m, calculate_block_hash E mem (some a) dv dl = .ok (d, len, m) := by
    by_cases hA : E.alloc mem.mallocs = false <;>
      simp [calculate_block_hash, Mem.deref, hb, ht, hA]
  obtain ⟨d1, len1, m1, hc1⟩ :
      ∃ d len m, calculate_block_hash E mem1 (some a1) dv dl = .ok (d, len, m) := by
    by_cases hA : E.alloc mem1.mallocs = false <;>
      simp [calculate_block_hash, Mem.deref, hb1, ht1, hA]
  have hcongr := calculate_block_hash_congr E mem.blocks mem1.blocks mem.mallocs mem1.mallocs
    a a1 b b1 dv dl hb hb1 hk.symm hprev.symm (by simp [ht, ht1, hroot])
  rw [hc1, hc] at hcongr
  simp only [Except.map, Except.ok.injEq, Prod.mk.injEq] at hcongr
  obtain ⟨rfl, rfl⟩ := hcongr
  refine ⟨d1, len1, m, m1, hc, hc1, (calculate_block_hash_blocks _ _ _ _ _ _ _ _ hc).1,
    (calculate_block_hash_blocks _ _ _ _ _ _ _ _ hc1).1, ?_⟩
  intro hP hA
  rw [calculate_block_hash_ok hP mem a b n dv dl hA hb ht] at hc
  simp only [Except.ok.injEq, Prod.mk.injEq] at hc
  exact hc.1.symm

/-- The second block of the demo run, in the chain and alone in another heap
with another timestamp, next link and tree shape (C20). -/
theorem calculate_block_hash_pure_demo :
    ∃ d len m m1,
      calculate_block_hash sha3_env ⟨demo_blocks, 26⟩ (some 1) Digest.zero 0 = .ok (d, len, m) ∧
      calculate_block_hash sha3_env
        ⟨[⟨none, demo_block2.prev_block_hash, 0,
          some ⟨some (Node.mk demo_leaf_a (some (demo_root demo_leaf_b)) none)⟩⟩], 7⟩ (some 0)
        Digest.zero 0 = .ok (d, len, m1) ∧
      m.blocks = demo_blocks ∧
      d = link_hash sha3_provider demo_block2.prev_block_hash demo_leaf_a := by
  obtain ⟨d, len, m, m1, h1, h2, h3, _, h5⟩ := calculate_block_hash_pure sha3_env
    ⟨demo_blocks, 26⟩
    ⟨[⟨none, demo_block2.prev_block_hash, 0,
      some ⟨some (Node.mk demo_leaf_a (some (demo_root demo_leaf_b)) none)⟩⟩], 7⟩ 1 0
    { demo_block2 with next_block := some 2 }
    ⟨none, demo_block2.prev_block_hash, 0,
      some ⟨some (Node.mk demo_leaf_a (some (demo_root demo_leaf_b)) none)⟩⟩
    (demo_root demo_leaf_a) (Node.mk demo_leaf_a (some (demo_root demo_leaf_b)) none)
    Digest.zero 0 rfl rfl rfl rfl rfl rfl rfl
  exact ⟨d, len, m, m1, h1, h2, h3, h5 sha3_provider_ok rfl⟩

/-- C21.  With a working provider, in any state and whatever allocations fail:
when `create_block` on the transaction strings `txs` returns a block, that
block is the new tail and its Merkle tree is what `create_tree` returned on
the list of the digests of the strings, in input order, each digest taken
over the bytes before the terminator.  And the call does return a block when
no allocation fails, `txs` is not empty and the tail of the chain has a
rooted tree. -/
theorem create_block_tree_over_transaction_digests (E : Env) (hP : E.P.ok) (bc : Blockchain)
    (txs : List (List Nat)) (now : Int) (mem : Mem) :
    (∀ nb bc1 mem1, create_block E bc txs txs.length now mem = .ok (some nb, bc1, mem1) →
      ∃ b k, bc1.tail = some nb ∧ mem1.blocks[nb]? = some b ∧
        create_tree E (txs.map (fun s => hash_of E.P (s.takeWhile (fun c => c != 0))))
          txs.length k = .ok (b.merkletree, mem1.mallocs)) ∧
    (E.alloc_ok → txs ≠ [] → bc.count ≠ INT_MAX →
      (∃ t tb n, bc.tail = some t ∧ mem.blocks[t]? = some tb ∧
        tb.merkletree = some ⟨some n⟩) →
      ∃ nb bc1 mem1, create_block E bc txs txs.length now mem = .ok (some nb, bc1, mem1)) := by
  constructor
  · intro nb bc1 mem1 h
    obtain ⟨hash, hs, mem2, ths, k3, tree, _, hhs, htr, _, hget⟩ :=
      create_block_parts E bc txs txs.length now mem nb bc1 mem1 h
    have hths := create_block_hashes_some hP txs txs.length 0 [] hs (mem2.mallocs + 1) ths k3
      (by simp) hhs
    simp only [List.drop_zero, List.take_length, List.nil_append, take_strlen] at hths
    subst hths
    refine ⟨_, k3, ?_, hget, htr⟩
    rcases create_block_heap E bc txs txs.length now mem (some nb) bc1 mem1 h with
      ⟨hnone, _⟩ | ⟨t, tb, b, hnb, _, _, _, _, rfl⟩
    · exact absurd hnone (by simp)
    · exact hnb.symm
  · intro hA hne hcount ⟨t, tb, n, htail, htb, htree⟩
    match txs, hne with
    | s :: rest, _ => exact create_block_returns hA bc mem t tb n s rest now htail htb htree hcount

/-- The first append of the demo run (C21): the tree of the second block is
`create_tree` of the digests of `"123.2"` and `"2133.0"`. -/
theorem create_block_tree_over_transaction_digests_demo :
    ∃ b k, (⟨some 0, some 1, 2⟩ : Blockchain).tail = some 1 ∧
      [{ demo_genesis with next_block := some 1 }, demo_block2][1]? = some b ∧
      create_tree sha3_env
        ([[49, 50, 51, 46, 50, 0], [50, 49, 51, 51, 46, 48, 0]].map
          (fun s => hash_of sha3_env.P (s.takeWhile (fun c => c != 0))))
        [[49, 50, 51, 46, 50, 0], [50, 49, 51, 51, 46, 48, 0]].length k =
        .ok (b.merkletree, 15) :=
  (create_block_tree_over_transaction_digests sha3_env sha3_provider_ok ⟨some 0, some 0, 1⟩
    [[49, 50, 51, 46, 50, 0], [50, 49, 51, 51, 46, 48, 0]] 1700000001 ⟨[demo_genesis], 4⟩).1
    1 ⟨some 0, some 1, 2⟩ ⟨[{ demo_genesis with next_block := some 1 }, demo_block2], 15⟩ rfl

/-- C22.  On a chain whose blocks form a `next_block` list from `head` (the
chains built through the interface, and the chain without blocks),
`destroy_blockchain` returns, and leaves `head` and `tail` absent and `count`
0; on that chain `validate_blockchain` returns false and `get_last_block`
returns no block. -/
theorem destroy_blockchain_empties (E : Env) (bc : Blockchain) (mem : Mem) (addrs : List Nat)
    (hl : Linked mem.blocks addrs) (hnd : addrs.Nodup) (hh : bc.head = addrs.head?) :
    ∃ bc1, destroy_blockchain bc mem = .ok bc1 ∧
      bc1.head = none ∧ bc1.tail = none ∧ bc1.count = 0 ∧
      validate_blockchain E (some bc1) mem = .ok (false, mem) ∧ get_last_block bc1 = none := by
  have hloop : destroy_blockchain_loop mem (mem.blocks.length + 1) bc.head = .ok () := by
    have hle := linked_length_le _ _ hl hnd
    cases addrs with
    | nil =>
      simp only [List.head?_nil] at hh
      rw [hh]
      rfl
    | cons a rest =>
      simp only [List.head?_cons] at hh
      rw [hh]
      exact destroy_blockchain_loop_linked mem.blocks mem.mallocs rest a _ hl
        (by simp at hle; omega)
  refine ⟨⟨none, none, 0⟩, ?_, rfl, rfl, rfl, rfl, rfl⟩
  simp [destroy_blockchain, hloop]

/-- The chain of the demo run, destroyed as `main` does (C22). -/
theorem destroy_blockchain_empties_demo :
    ∃ bc1, destroy_blockchain demo_chain ⟨demo_blocks, 26⟩ = .ok bc1 ∧
      bc1.head = none ∧ bc1.tail = none ∧ bc1.count = 0 ∧
      validate_blockchain sha3_env (some bc1) ⟨demo_blocks, 26⟩ = .ok (false, ⟨demo_blocks, 26⟩) ∧
      get_last_block bc1 = none :=
  destroy_blockchain_empties sha3_env demo_chain ⟨demo_blocks, 26⟩ [0, 1, 2]
    ⟨⟨_, rfl, rfl⟩, ⟨_, rfl, rfl⟩, ⟨_, rfl, rfl⟩, trivial⟩ (by decide) rfl

/-- C23.  When the size `EVP_MD_get_size` reports (an `int`) is not positive
or exceeds `HASH_SIZE`, `compute_hash` returns 0 and leaves the digest buffer
as it was; once the digest is fetched, `digest_length` holds the size modulo
`2 ^ 32`, which for a negative size is the size plus `2 ^ 32`, above
`HASH_SIZE`. -/
theorem compute_hash_rejects_bad_size (P : Provider) (data : List Nat) (dv : Digest) (dl : Nat)
    (hlo : -2147483648 ≤ P.md_get_size) (hhi : P.md_get_size ≤ INT_MAX)
    (hbad : P.md_get_size ≤ 0 ∨ (HASH_SIZE : Int) < P.md_get_size) :
    (compute_hash P data dv dl).ret = 0 ∧ (compute_hash P data dv dl).digest_value = dv ∧
    (P.lib_ctx_new = true → P.md_fetch = true →
      ((compute_hash P data dv dl).digest_length : Int) = P.md_get_size % 2 ^ 32 ∧
      (P.md_get_size < 0 →
        ((compute_hash P data dv dl).digest_length : Int) = P.md_get_size + 2 ^ 32 ∧
        HASH_SIZE < (compute_hash P data dv dl).digest_length)) := by
  have hsz : (P.md_get_size % 2 ^ 32).toNat ≤ 0 ∨ (P.md_get_size % 2 ^ 32).toNat > HASH_SIZE := by
    simp only [INT_MAX] at hhi
    simp only [HASH_SIZE] at hbad ⊢
    omega
  have hmod : ((P.md_get_size % 2 ^ 32).toNat : Int) = P.md_get_size % 2 ^ 32 :=
    Int.toNat_of_nonneg (Int.emod_nonneg _ (by norm_num))
  obtain ⟨h1, h2, h3⟩ := compute_hash_size_check P data dv dl hsz
  refine ⟨h1, h2, ?_⟩
  intro a b
  rw [h3 a b, hmod]
  refine ⟨rfl, ?_⟩
  intro hneg
  simp only [HASH_SIZE]
  omega

/-- A provider that reports the size -1 (C23): `compute_hash` returns 0, the
buffer is unchanged and `digest_length` is `2 ^ 32 - 1`. -/
theorem compute_hash_rejects_bad_size_negative :
    (compute_hash { sha3_provider with md_get_size := -1 } [97] junk 0).ret = 0 ∧
    (compute_hash { sha3_provider with md_get_size := -1 } [97] junk 0).digest_value = junk ∧
    (compute_hash { sha3_provider with md_get_size := -1 } [97] junk 0).digest_length
      = 4294967295 := by
  obtain ⟨h1, h2, h3⟩ := compute_hash_rejects_bad_size { sha3_provider with md_get_size := -1 }
    [97] junk 0 (by decide) (by decide) (Or.inl (by decide))
  exact ⟨h1, h2, rfl⟩

/-- C24 (the code departs from the claim).  For a block with a rooted tree,
when nothing fails, `block_to_string` returns the labels, the hex of the
previous hash and the timestamp, followed by only the first `50 - d` of the
128 hex characters of the root hash, `d ≥ 1` being the number of characters
of the timestamp: the buffer of 236 bytes holds 235 characters and the text
needs `313 + d`. -/
theorem block_to_string_truncates_root (E : Env) (mem : Mem) (a : Nat) (b : Block) (n : Node)
    (hP : E.P.ok) (hA : E.alloc mem.mallocs = true) (hb : mem.blocks[a]? = some b)
    (ht : b.merkletree = some ⟨some n⟩) :
    ∃ s, block_to_string E mem (some a) =
        .ok (some s, { mem with mallocs := mem.mallocs + 1 }) ∧
      s = (block_text_head b ++ "Merkle Tree Root Hash: ".toList).take 235 ++
        (hex_bytes (hash_of E.P n.hash.bytes).bytes).take
          (50 - (decimal b.timestamp).length) ∧
      (hex_bytes (hash_of E.P n.hash.bytes).bytes).length = 128 ∧
      50 - (decimal b.timestamp).length < 128 ∧ s.length ≤ 235 := by
  have hc := compute_hash_ok hP n.hash.bytes E.uninit E.uninit_len
  have heq := (block_to_string_eq E mem a b hA hb).2 n ht (by rw [hc]; simp [HASH_SIZE])
  have htake : (hash_of E.P n.hash.bytes).bytes.take 64 = (hash_of E.P n.hash.bytes).bytes :=
    List.take_of_length_le (by rw [(hash_of E.P n.hash.bytes).size])
  have hl : (block_text_head b ++ "Merkle Tree Root Hash: ".toList).length =
      185 + (decimal b.timestamp).length := by
    have h3 : "Merkle Tree Root Hash: ".toList.length = 23 := rfl
    rw [List.length_append, block_text_head_length, h3]
    omega
  have hm : 235 - (block_text_head b ++ "Merkle Tree Root Hash: ".toList).length =
      50 - (decimal b.timestamp).length := by
    rw [hl]; omega
  rw [hc] at heq
  simp only [htake] at heq
  rw [List.take_append_eq_append_take, hm] at heq
  refine ⟨_, heq, rfl, ?_, ?_, ?_⟩
  · rw [hex_bytes_length, (hash_of E.P n.hash.bytes).size]
  · omega
  · rw [← hm, ← List.take_append_eq_append_take, List.length_take]
    omega

/-- The genesis block of the demo run (C24): with the ten-digit timestamp, 40
of the 128 hex characters of the root hash are in the string. -/
theorem block_to_string_truncates_root_demo :
    ∃ s, block_to_string sha3_env ⟨demo_blocks, 26⟩ (some 0) =
        .ok (some s, { (⟨demo_blocks, 26⟩ : Mem) with mallocs := 26 + 1 }) ∧
      s = (block_text_head { demo_genesis with next_block := some 1 } ++
          "Merkle Tree Root Hash: ".toList).take 235 ++
        (hex_bytes (hash_of sha3_env.P
          (demo_root (hash_of sha3_provider [71, 101, 110, 101, 115, 105, 115])).hash.bytes).bytes).take
          (50 - (decimal ({ demo_genesis with next_block := some 1 } : Block).timestamp).length) ∧
      50 - (decimal ({ demo_genesis with next_block := some 1 } : Block).timestamp).length = 40 := by
  obtain ⟨s, h1, h2, _⟩ := block_to_string_truncates_root sha3_env ⟨demo_blocks, 26⟩ 0
    { demo_genesis with next_block := some 1 }
    (demo_root (hash_of sha3_provider [71, 101, 110, 101, 115, 105, 115]))
    sha3_provider_ok rfl rfl rfl
  exact ⟨s, h1, h2, by decide⟩

/-- C25.  In any environment, a tree `create_tree` returns on a non-empty
list of digests has no root (the first node was not allocated) or its root
digest is the first digest of the list.  With no allocation failure
`create_tree` returns a tree whose root digest is the first digest, and on any
other list with the same first digest it returns the same tree. -/
theorem create_tree_root_is_first_leaf (E : Env) (a : Digest) (rest rest1 : List Digest)
    (k k1 : Nat) :
    (∀ t k2, create_tree E (a :: rest) (a :: rest).length k = .ok (some t, k2) →
      t.root = none ∨ t.root_hash = some a) ∧
    (E.alloc_ok →
      ∃ t k2 k3, create_tree E (a :: rest) (a :: rest).length k = .ok (some t, k2) ∧
        t.root_hash = some a ∧
        create_tree E (a :: rest1) (a :: rest1).length k1 = .ok (some t, k3)) := by
  constructor
  · intro t k2 h
    rcases create_tree_root_any E _ _ k t k2 h with h0 | ⟨x, hx, hr⟩
    · exact Or.inl h0
    · simp only [List.getElem?_cons_zero, Option.some.injEq] at hx
      subst hx
      exact Or.inr (by simp [MerkleTree.root_hash, hr, Node.hash])
  · intro hA
    obtain ⟨k2, h2⟩ := create_tree_ok hA a rest k
    obtain ⟨k3, h3⟩ := create_tree_ok hA a rest1 k1
    exact ⟨_, k2, k3, h2, rfl, h3⟩

/-- Two lists that start with the digest of `"123.2"` (C25): same tree. -/
theorem create_tree_root_is_first_leaf_demo :
    ∃ t k2 k3, create_tree sha3_env [demo_leaf_a, demo_leaf_b] 2 0 = .ok (some t, k2) ∧
      t.root_hash = some demo_leaf_a ∧
      create_tree sha3_env [demo_leaf_a, demo_leaf_c, demo_leaf_b] 3 0 = .ok (some t, k3) :=
  (create_tree_root_is_first_leaf sha3_env demo_leaf_a [demo_leaf_b] [demo_leaf_c, demo_leaf_b]
    0 0).2 sha3_env_alloc_ok

/-- C26.  In any environment, every node of a tree `create_tree` returns has
no left and no right child, and the nodes of the tree are its root alone (or
none when the root is absent). -/
theorem create_tree_nodes_have_no_children (E : Env) (ths : List Digest) (n k : Nat)
    (t : MerkleTree) (k1 : Nat) (h : create_tree E ths n k = .ok (some t, k1)) :
    (∀ x ∈ t.nodes, x.left = none ∧ x.right = none) ∧ t.nodes = t.root.toList := by
  rcases create_tree_root_any E ths n k t k1 h with h0 | ⟨a, _, h1⟩
  · simp [MerkleTree.nodes, h0]
  · simp [MerkleTree.nodes, h1, Node.nodes, Node.left, Node.right]

/-- The tree `create_tree` returns on the two digests of the first append of
the demo run (C26). -/
theorem create_tree_nodes_have_no_children_demo :
    (∀ x ∈ (⟨some (demo_root demo_leaf_a)⟩ : MerkleTree).nodes, x.left = none ∧ x.right = none) ∧
    (⟨some (demo_root demo_leaf_a)⟩ : MerkleTree).nodes = [demo_root demo_leaf_a] :=
  create_tree_nodes_have_no_children sha3_env [demo_leaf_a, demo_leaf_b] 2 0
    ⟨some (demo_root demo_leaf_a)⟩ 6 rfl

/-- C27.  With no allocation failure, in every state reached from
`create_blockchain` by `n` calls of `create_block` that returned a block: the
`n + 1` blocks visited from `head`, `tail` among them, all have a Merkle tree
with a root; `calculate_block_hash` on each of them and
`validate_blockchain` on the chain return without fault; and `create_block`
with at least one transaction returns a block and reaches such a state again
(as long as `count` does not overflow). -/
theorem reached_blocks_have_roots (E : Env) (hA : E.alloc_ok) (n : Nat) (bc : Blockchain)
    (mem : Mem) (h : Reached E n bc mem) :
    ∃ addrs : List Nat, addrs.length = n + 1 ∧
      (∀ j, nth_block mem.blocks j bc.head = addrs[j]?) ∧
      (∃ t, bc.tail = some t ∧ t ∈ addrs) ∧
      (∀ a ∈ addrs, ∃ b node, mem.blocks[a]? = some b ∧ b.merkletree = some ⟨some node⟩ ∧
        ∀ k dv dl, ∃ d len k1,
          calculate_block_hash E ⟨mem.blocks, k⟩ (some a) dv dl = .ok (d, len, ⟨mem.blocks, k1⟩)) ∧
      (∀ k, ∃ v k1, validate_blockchain E (some bc) ⟨mem.blocks, k⟩ = .ok (v, ⟨mem.blocks, k1⟩)) ∧
      (bc.count ≠ INT_MAX → ∀ s txs now, ∃ nb bc1 mem1,
        create_block E bc (s :: txs) (s :: txs).length now mem = .ok (some nb, bc1, mem1) ∧
        Reached E (n + 1) bc1 mem1) := by
  obtain ⟨addrs, hinv, hlen, hroot⟩ := reached_rooted hA n bc mem h
  have hne : addrs ≠ [] := by
    intro h0; subst h0; simp at hlen
  obtain ⟨addrs0, t, rfl⟩ : ∃ l t, addrs = l ++ [t] :=
    ⟨addrs.dropLast, addrs.getLast hne, (List.dropLast_append_getLast hne).symm⟩
  have htail : bc.tail = some t := by rw [hinv.tail]; simp
  refine ⟨addrs0 ++ [t], hlen, ?_, ⟨t, htail, by simp⟩, ?_, ?_, ?_⟩
  · intro j
    rw [hinv.head]
    exact nth_block_linked _ _ j hinv.linked
  · intro a ha
    obtain ⟨b, node, hb, ht⟩ := hroot a ha
    exact ⟨b, node, hb, ht, fun k dv dl =>
      calculate_block_hash_defined E ⟨mem.blocks, k⟩ a b node dv dl hb ht⟩
  · intro k
    have hle := linked_length_le _ _ hinv.linked hinv.nodup
    match haddrs : addrs0 ++ [t], hne with
    | a :: rest, _ =>
      rw [haddrs] at hinv hroot hle
      obtain ⟨v, k1, hk1⟩ := validate_blockchain_loop_defined E mem.blocks rest a
        (mem.blocks.length + 1) k hinv.linked hroot (by simp at hle; omega)
      have hhead : bc.head = some a := by rw [hinv.head]; rfl
      exact ⟨v, k1, by simp only [validate_blockchain, hhead, hk1]⟩
  · intro hcount s txs now
    obtain ⟨tb, node, htb, htree⟩ := hroot t (by simp)
    obtain ⟨nb, bc1, mem1, hcb⟩ := create_block_returns hA bc mem t tb node s txs now htail htb
      htree hcount
    exact ⟨nb, bc1, mem1, hcb, Reached.append n bc mem _ _ now nb bc1 mem1 h hcb⟩

/-- The demo run (C27): the three blocks have rooted trees and validation
returns. -/
theorem reached_blocks_have_roots_demo :
    ∃ addrs : List Nat, addrs.length = 2 + 1 ∧
      (∀ j, nth_block demo_blocks j demo_chain.head = addrs[j]?) ∧
      (∃ t, demo_chain.tail = some t ∧ t ∈ addrs) ∧
      (∀ a ∈ addrs, ∃ b node, demo_blocks[a]? = some b ∧ b.merkletree = some ⟨some node⟩ ∧
        ∀ k dv dl, ∃ d len k1,
          calculate_block_hash sha3_env ⟨demo_blocks, k⟩ (some a) dv dl =
            .ok (d, len, ⟨demo_blocks, k1⟩)) ∧
      (∀ k, ∃ v k1, validate_blockchain sha3_env (some demo_chain) ⟨demo_blocks, k⟩ =
        .ok (v, ⟨demo_blocks, k1⟩)) := by
  obtain ⟨addrs, h1, h2, h3, h4, h5, _⟩ := reached_blocks_have_roots sha3_env sha3_env_alloc_ok 2
    demo_chain ⟨demo_blocks, 26⟩ demo_reached
  exact ⟨addrs, h1, h2, h3, h4, h5⟩

/-- C28.  The `while` loop of `create_tree` on `n` nodes, given `n`
iterations, never runs out of them and never reads outside the array: in any
environment it returns or stops at a `NULL` pointer left by a failed
allocation.  For `n > 1` the new count `(n + 1) / 2` is at least 1 and below
`n`, and every index `i` of the inner loop has `i + 1 < n`; a pass of the
inner loop that returns has allocated a node in each iteration (the branch
that carries `nodes[i]` forward is not taken).  With no allocation failure,
on the leaf nodes the loop returns and a pass builds one node for each pair
`i`, `i + 1`. -/
theorem create_tree_loop_terminates (E : Env) (nodes : List (Option Node)) (n k : Nat)
    (hn : n ≤ nodes.length) :
    ((∃ k1, create_tree_loop E nodes n n k = .ok k1) ∨
      create_tree_loop E nodes n n k = .error .null_deref) ∧
    (1 < n → 1 ≤ (n + 1) / 2 ∧ (n + 1) / 2 < n ∧ ∀ i, i < (n + 1) / 2 → i + 1 < n) ∧
    (1 < n → ∀ nn r, create_tree_level E nodes n ((n + 1) / 2) 0 nn k = .ok r →
      r.2 = k + (n + 1) / 2) ∧
    (E.alloc_ok → ∀ ths, nodes = leaf_nodes ths →
      (∃ k1, create_tree_loop E nodes n n k = .ok k1) ∧
      (1 < n → create_tree_level E nodes n ((n + 1) / 2) 0 (some []) k =
        .ok (some ((pair_nodes E ths).take ((n + 1) / 2)), k + (n + 1) / 2))) := by
  refine ⟨create_tree_loop_defined E nodes n n k (le_refl _) hn, ?_, ?_, ?_⟩
  · intro h1
    refine ⟨by omega, by omega, ?_⟩
    intro i hi
    omega
  · intro h1 nn r hr
    exact create_tree_level_mallocs E nodes n _ 0 nn k r (by omega) hr
  · intro hA ths hnodes
    subst hnodes
    have hlen : n ≤ ths.length := by simpa [leaf_nodes] using hn
    refine ⟨create_tree_loop_ok hA _ n n k (le_refl _) ?_, ?_⟩
    · intro j hj
      exact ⟨Node.mk ths[j] none none, by
        simp [leaf_nodes, List.getElem?_eq_getElem (show j < ths.length by omega)]⟩
    · intro h1
      have := create_tree_level_leaves hA ths n hlen ((n + 1) / 2) 0 [] k (by omega)
      simpa using this

/-- Three leaves (C28): the loop returns and its first pass builds two
nodes. -/
theorem create_tree_loop_terminates_demo :
    (∃ k1, create_tree_loop sha3_env (leaf_nodes [demo_leaf_a, demo_leaf_b, demo_leaf_c]) 3 3 5
      = .ok k1) ∧
    create_tree_level sha3_env (leaf_nodes [demo_leaf_a, demo_leaf_b, demo_leaf_c]) 3
      ((3 + 1) / 2) 0 (some []) 5 =
      .ok (some ((pair_nodes sha3_env [demo_leaf_a, demo_leaf_b, demo_leaf_c]).take ((3 + 1) / 2)),
        5 + (3 + 1) / 2) := by
  obtain ⟨h1, h2⟩ := (create_tree_loop_terminates sha3_env
    (leaf_nodes [demo_leaf_a, demo_leaf_b, demo_leaf_c]) 3 5 (by decide)).2.2.2
    sha3_env_alloc_ok [demo_leaf_a, demo_leaf_b, demo_leaf_c] rfl
  exact ⟨h1, h2 (by decide)⟩

end CBlockchain
